import Mathlib

/-!
# Installer framework: component tree, operation compiler

A shallow embedding of `installerbuilder/libinstaller/qinstallercomponent.cpp`
(class `QInstaller::Component`) and the properties of its natural-language
specification, stated and proved over that embedding.

Conventions of the embedding

* A `QString` is a list of characters.  A null `QString` and an empty one compare
  equal in Qt, so both are `[]`; where the source asks `isNull()` the argument is an
  `Option QString`.
* A `Component*` is a natural number (its address) and the objects live in a
  `Heap : Nat → ComponentPrivate`; the null pointer is `none`.
* `QHash<K, V>` is an association list read with `hashValue` and written with
  `hashInsert` (`operator[]=`).
* `std::sort`, the script engine, the operation factory, the file engine behind
  `installer://` and the other collaborators of the class are parameters.
-/

namespace QInstaller

/-! ## Strings -/

/-- A `QString`: the sequence of its characters. -/
abbrev QString := List Char

/-- The call `QString::toLower()`, on the ASCII letters; the class only compares the result
with `"true"`, which no other letter lowers into. -/
def toLower (s : QString) : QString := s.map Char.toLower

/-- The call `QString::split(sep)` with the default `KeepEmptyParts` behaviour: the pieces
between the separators, empty pieces included. -/
def split (sep : Char) : QString → List QString
  | [] => [[]]
  | c :: cs =>
    if c = sep then [] :: split sep cs
    else match split sep cs with
      | [] => [[c]]
      | piece :: pieces => (c :: piece) :: pieces

/-- The call `QStringList::join(sep)`. -/
def join (sep : Char) : List QString → QString
  | [] => []
  | [piece] => piece
  | piece :: rest => piece ++ sep :: join sep rest

/-- The call `QString::startsWith(prefix)`. -/
def startsWith (s pre : QString) : Bool := pre.isPrefixOf s

/-- The call `QString::endsWith(c)` for a single character. -/
def endsWith (s : QString) (c : Char) : Bool := s.getLast? = some c

/-- The call `QString::mid(position)`: the string from `position` on, empty when `position`
is past the end. -/
def mid (s : QString) (position : Nat) : QString := s.drop position

/-- The call `QString::indexOf(c)`: the index of the first occurrence, `none` for `-1`. -/
def indexOf (s : QString) (c : Char) : Option Nat :=
  if c ∈ s then some (s.indexOf c) else none

/-- Value of a decimal digit. -/
def digitValue (c : Char) : Option Nat :=
  if '0' ≤ c ∧ c ≤ '9' then some (c.toNat - '0'.toNat) else none

/-- Reads a non-empty run of decimal digits, most significant first. -/
def parseDigits : QString → Option Nat
  | [] => none
  | cs => cs.foldlM (fun acc c => (digitValue c).map (fun v => 10 * acc + v)) 0

/-- The call `QString::trimmed()`: the string without the white space at its ends. -/
def trimmed (s : QString) : QString :=
  ((s.dropWhile Char.isWhitespace).reverse.dropWhile Char.isWhitespace).reverse

/-- The call `QString::toInt()` in base 10: white space at the ends is skipped, then an
optional sign and decimal digits; `0` when the text is not a number or does not fit a 32-bit
`int`. -/
def toInt (s : QString) : Int :=
  match trimmed s with
  | '-' :: ds =>
    match parseDigits ds with
    | some n => if n ≤ 2147483648 then -(n : Int) else 0
    | none => 0
  | '+' :: ds =>
    match parseDigits ds with
    | some n => if n ≤ 2147483647 then (n : Int) else 0
    | none => 0
  | ds =>
    match parseDigits ds with
    | some n => if n ≤ 2147483647 then (n : Int) else 0
    | none => 0

/-! ## Hashes -/

/-- The call `QHash::value(key)`: the stored value, `none` when the key is absent. -/
def hashFind {β : Type} (key : QString) : List (QString × β) → Option β
  | [] => none
  | (k, v) :: rest => if k = key then some v else hashFind key rest

/-- The call `QHash::value(key, defaultValue)`. -/
def hashValue {β : Type} (h : List (QString × β)) (key : QString) (defaultValue : β) : β :=
  (hashFind key h).getD defaultValue

/-- The assignment `hash[key] = value`: overwrites the entry of `key` or adds one. -/
def hashInsert {β : Type} (key : QString) (value : β) : List (QString × β) → List (QString × β)
  | [] => [(key, value)]
  | (k, v) :: rest => if k = key then (k, value) :: rest else (k, v) :: hashInsert key value rest

/-! ## Data model -/

/-- Keys of the component variables (`static const QLatin1String sk...`). -/
def skName : QString := "Name".toList
def skVersion : QString := "Version".toList
def skDependencies : QString := "Dependencies".toList
def skVirtual : QString := "Virtual".toList
def skSortingPriority : QString := "SortingPriority".toList
def skForcedInstallation : QString := "ForcedInstallation".toList

/-- The tri-state `Qt::CheckState`. -/
inductive CheckState where
  | Unchecked
  | PartiallyChecked
  | Checked
  deriving DecidableEq, Repr

/-- The enum `RunMode` of the header: the installer's two ways of looking at the components. -/
inductive RunMode where
  | AllMode
  | UpdaterMode
  deriving DecidableEq, Repr

/-- A `QVariant` as the class stores them on operations. -/
inductive QVariant where
  | bool (b : Bool)
  | installer
  | map (entries : List (QString × QString))
  deriving DecidableEq, Repr

/-- A `KDUpdater::UpdateOperation` as far as the class reads and writes it: its type name, its
argument list and the values set with `setValue`. -/
structure UpdateOperation where
  name : QString
  arguments : List QString
  values : List (QString × QVariant)
  deriving DecidableEq, Repr

/-- The call `UpdateOperation::setValue(key, value)`. -/
def UpdateOperation.setValue (op : UpdateOperation) (key : QString) (value : QVariant) :
    UpdateOperation :=
  { op with values := hashInsert key value op.values }

/-- The call `UpdateOperation::value(key)`: `none` is the invalid `QVariant` of an unset key. -/
def UpdateOperation.value (op : UpdateOperation) (key : QString) : Option QVariant :=
  hashFind key op.values

/-- Whether the operation runs elevated: `value("admin").toBool()`, false when unset. -/
def UpdateOperation.elevated (op : UpdateOperation) : Bool :=
  op.value "admin".toList = some (QVariant.bool true)

/-- Signals a component emits. -/
inductive Signal where
  | valueChanged (key value : QString)
  | selectedChanged (selected : Bool)
  | loaded
  deriving DecidableEq, Repr

/-- The state of one component: the members of `ComponentPrivate` the class works on, and the
item state (`enabled`, `checkable`, `tristate`, `checkState`) of its model base class. An entry
of `operations` is an `UpdateOperation*`, `none` being the null pointer. -/
structure ComponentPrivate where
  m_vars : List (QString × QString)
  m_parent : Option Nat
  m_components : List Nat
  m_virtualComponents : List Nat
  m_allComponents : List Nat
  operations : List (Option UpdateOperation)
  operationsCreated : Bool
  autoCreateOperations : Bool
  operationsCreatedSuccessfully : Bool
  minimumProgressOperation : Option UpdateOperation
  m_licenseOperation : Option UpdateOperation
  m_licenses : List (QString × (QString × QString))
  unexistingScriptMethods : List (QString × Bool)
  downloadableArchives : List QString
  repositoryUrl : QString
  enabled : Bool
  checkable : Bool
  tristate : Bool
  checkState : CheckState
  deriving DecidableEq, Repr

/-- The objects a `Component*` can point to. -/
abbrev Heap := Nat → ComponentPrivate

/-- Overwrites the object at address `c`. -/
def Heap.set (h : Heap) (c : Nat) (d : ComponentPrivate) : Heap :=
  fun a => if a = c then d else h a

/-! ## Variables -/

/-- The call `Component::value(key, defaultValue)`. -/
def value (d : ComponentPrivate) (key : QString) (defaultValue : QString := []) : QString :=
  hashValue d.m_vars key defaultValue

/-- The call `Component::setValue(key, value)`: returns without effect when the stored value
(the empty string for an absent key) equals `value`, otherwise writes it and emits
`valueChanged(key, value)`. The slot `updateModelData` connected to that signal only sets
display roles of the item, which the data model does not hold. -/
def setValue (d : ComponentPrivate) (key value : QString) : ComponentPrivate × List Signal :=
  if hashValue d.m_vars key [] = value then (d, [])
  else ({ d with m_vars := hashInsert key value d.m_vars }, [Signal.valueChanged key value])

/-- The call `Component::name()`. -/
def name (d : ComponentPrivate) : QString := value d skName

/-- The call `Component::dependencies()`. -/
def dependencies (d : ComponentPrivate) : List QString :=
  split ',' (value d skDependencies)

/-! ## The component tree -/

/-- The test `component->value(skVirtual).toLower() == QLatin1String("true")` by which
`appendComponent` tells virtual components from real ones. -/
def isVirtual (d : ComponentPrivate) : Bool :=
  toLower (value d skVirtual) = "true".toList

/-- The integer `value("SortingPriority").toInt()` of a component. -/
def sortingPriority (d : ComponentPrivate) : Int :=
  toInt (value d skSortingPriority)

/-- Modelled from the spec: the comparator `Component::SortingPriorityLessThan` is declared in
the header `qinstallercomponent.h`, which is not among the sources. "Sorting of real children is
by an integer `sortingPriority`": the left component is less when its priority is smaller. -/
def SortingPriorityLessThan (h : Heap) (lhs rhs : Nat) : Bool :=
  decide (sortingPriority (h lhs) < sortingPriority (h rhs))

/-- The library routine `std::sort(first, last, comp)`, a parameter of the embedding: the
C++ standard promises a permutation of the range in non-descending order of `comp`, and
nothing about the relative order of equivalent elements. -/
abbrev StdSort := (Nat → Nat → Bool) → List Nat → List Nat

/-- What the C++ standard promises of `std::sort` for a comparator that compares an integer
key: the result is a permutation of the input, in non-descending key order. -/
structure StdSortContract (stdSort : StdSort) : Prop where
  perm : ∀ (key : Nat → Int) (l : List Nat),
    (stdSort (fun a b => decide (key a < key b)) l).Perm l
  sorted : ∀ (key : Nat → Int) (l : List Nat),
    (stdSort (fun a b => decide (key a < key b)) l).Pairwise (fun a b => key a ≤ key b)

/-- One linear insertion of the insertion sort below: `x` goes before the first element it is
less than. -/
def linearInsert (lt : Nat → Nat → Bool) (x : Nat) : List Nat → List Nat
  | [] => [x]
  | y :: ys => if lt x y then x :: y :: ys else y :: linearInsert lt x ys

/-- An insertion sort, the routine `std::sort` runs on short ranges; used as the concrete
`std::sort` where a statement is evaluated on an input. -/
def insertionSort (lt : Nat → Nat → Bool) (l : List Nat) : List Nat :=
  l.foldl (fun sorted x => linearInsert lt x sorted) []

/-- The call `QList::removeAll(component)`. -/
def removeAll (l : List Nat) (component : Nat) : List Nat :=
  l.filter (fun c => c ≠ component)

/-- The call `Component::parentComponent(runMode)`. -/
def parentComponent (h : Heap) (this : Nat) (runMode : RunMode := RunMode.AllMode) :
    Option Nat :=
  if runMode = RunMode.UpdaterMode then none else (h this).m_parent

/-- Modelled from the spec: `childCount()` belongs to the model base class of `Component`,
which is not among the sources. "Sets the new parent's tri-state-checkable flag to true iff it
now has ≥1 child": the number of entries of the combined child sequence. -/
def childCount (h : Heap) (this : Nat) : Nat :=
  (h this).m_allComponents.length

/-- The assignment `component->d->m_parent = parent`. -/
def setParent (h : Heap) (component : Nat) (parent : Option Nat) : Heap :=
  h.set component { h component with m_parent := parent }

/-- The assignments to `d->m_components` and `d->m_virtualComponents` of `this`, followed by
`d->m_allComponents = d->m_components + d->m_virtualComponents`. -/
def setChildren (h : Heap) (this : Nat) (m_components m_virtualComponents : List Nat) : Heap :=
  h.set this { h this with
    m_components := m_components
    m_virtualComponents := m_virtualComponents
    m_allComponents := m_components ++ m_virtualComponents }

/-- The call `setTristate(tristate)` of the model base class. -/
def setTristate (h : Heap) (this : Nat) (tristate : Bool) : Heap :=
  h.set this { h this with tristate := tristate }

/-- The call `this->removeComponent(component)`. -/
def removeComponent (h : Heap) (this component : Nat) : Heap :=
  if parentComponent h component = some this then
    let h1 := setParent h component none
    setChildren h1 this
      (removeAll (h1 this).m_components component)
      (removeAll (h1 this).m_virtualComponents component)
  else h

/-- The call `this->appendComponent(component)`. -/
def appendComponent (stdSort : StdSort) (h : Heap) (this component : Nat) : Heap :=
  let h1 :=
    if isVirtual (h component) ≠ true then
      setChildren h this
        (stdSort (SortingPriorityLessThan h) ((h this).m_components ++ [component]))
        (h this).m_virtualComponents
    else
      setChildren h this (h this).m_components ((h this).m_virtualComponents ++ [component])
  let h2 :=
    match parentComponent h1 component with
    | some parent => removeComponent h1 parent component
    | none => h1
  let h3 := setParent h2 component (some this)
  setTristate h3 this (decide (childCount h3 this > 0))

/-- The call `this->childComponents(recursive, runMode)`. The recursion follows child
pointers, so it carries fuel: `none` when the fuel runs out. -/
def childComponents (h : Heap) : Nat → Nat → Bool → RunMode → Option (List Nat)
  | _, _, _, RunMode.UpdaterMode => some []
  | _, this, false, RunMode.AllMode => some (h this).m_allComponents
  | 0, _, true, RunMode.AllMode => none
  | fuel + 1, this, true, RunMode.AllMode =>
    (h this).m_allComponents.foldlM
      (fun result component =>
        (childComponents h fuel component true RunMode.AllMode).map
          (fun below => result ++ [component] ++ below))
      []

/-- A call on the component tree. -/
inductive Call where
  | appendComponent (this component : Nat)
  | removeComponent (this component : Nat)
  | setValue (this : Nat) (key value : QString)
  deriving DecidableEq, Repr

/-- Runs one call. -/
def exec (stdSort : StdSort) (h : Heap) : Call → Heap
  | Call.appendComponent this component => appendComponent stdSort h this component
  | Call.removeComponent this component => removeComponent h this component
  | Call.setValue this key value => h.set this (setValue (h this) key value).1

/-- Runs a sequence of calls, first to last. -/
def run (stdSort : StdSort) (h : Heap) (calls : List Call) : Heap :=
  calls.foldl (exec stdSort) h

/-- A component before any call: the given variables, no parent, no children, nothing
compiled. -/
def newComponent (vars : List (QString × QString)) : ComponentPrivate :=
  { m_vars := vars, m_parent := none, m_components := [], m_virtualComponents := [],
    m_allComponents := [], operations := [], operationsCreated := false,
    autoCreateOperations := true, operationsCreatedSuccessfully := true,
    minimumProgressOperation := none, m_licenseOperation := none, m_licenses := [],
    unexistingScriptMethods := [], downloadableArchives := [], repositoryUrl := [],
    enabled := true, checkable := true, tristate := false, checkState := CheckState.Unchecked }


/-- The children of every component in insertion order, as one call changes them: the spec's
view of the tree, in which `appendChild` detaches the node wherever it is and inserts it last,
and `removeChild` takes it out. -/
def insertionOrder (g : Nat → List Nat) : Call → Nat → List Nat
  | Call.appendComponent this component, q =>
    if q = this then removeAll (g q) component ++ [component] else removeAll (g q) component
  | Call.removeComponent this component, q =>
    if q = this then removeAll (g q) component else g q
  | Call.setValue _ _ _, q => g q

/-- The children of every component in insertion order after a sequence of calls on new
components. -/
def childrenInInsertionOrder (calls : List Call) : Nat → List Nat :=
  calls.foldl insertionOrder (fun _ => [])

/-- The calls the ordering of the child sequences is kept under: a component is not appended
to the parent it already has, and `Virtual` and `SortingPriority` are not set on a component
that has a parent. -/
def callAdmissible (h : Heap) : Call → Bool
  | Call.appendComponent this component => decide ((h component).m_parent ≠ some this)
  | Call.removeComponent _ _ => true
  | Call.setValue this key _ =>
    decide ((h this).m_parent = none ∨ (key ≠ skVirtual ∧ key ≠ skSortingPriority))

/-- Every call of the sequence is admissible in the state it is made in. -/
def admissible (stdSort : StdSort) : Heap → List Call → Bool
  | _, [] => true
  | h, call :: calls => callAdmissible h call && admissible stdSort (exec stdSort h call) calls


/-- A second routine that meets the contract of `std::sort`: an insertion sort of the reversed
range, which leaves equivalent elements in the reverse of their order. -/
def reversingSort (lt : Nat → Nat → Bool) (l : List Nat) : List Nat :=
  insertionSort lt l.reverse

/-- The sequences `appendComponent` first gives the parent, before the component is detached
from its previous parent. -/
def appendedChildren (stdSort : StdSort) (h : Heap) (p n : Nat) : Heap :=
  setChildren h p
    (if isVirtual (h n) = true then (h p).m_components
     else stdSort (SortingPriorityLessThan h) ((h p).m_components ++ [n]))
    (if isVirtual (h n) = true then (h p).m_virtualComponents ++ [n]
     else (h p).m_virtualComponents)

/-- New components, none with a variable set. -/
def newComponents : Heap := fun _ => newComponent []

/-- Components 1 and 2 with the priorities 1 and 2 appended to component 0, then the priority
of component 1 set to 3. -/
def reprioritised : List Call :=
  [Call.setValue 1 skSortingPriority "1".toList,
   Call.setValue 2 skSortingPriority "2".toList,
   Call.appendComponent 0 1, Call.appendComponent 0 2,
   Call.setValue 1 skSortingPriority "3".toList]

/-- Component 3 made virtual, components 1 and 2 given the priorities 7 and 5, and the three
appended to component 0 in the order 1, 3, 2; component 4 appended to component 2. -/
def smallTree : List Call :=
  [Call.setValue 3 skVirtual "True".toList,
   Call.setValue 1 skSortingPriority "7".toList,
   Call.setValue 2 skSortingPriority "5".toList,
   Call.appendComponent 0 1, Call.appendComponent 0 3, Call.appendComponent 0 2,
   Call.appendComponent 2 4, Call.setValue 4 skName "org.vendor.pkg".toList]

/-- The invariant of the tree: what the child sequences of every component hold, relative to
the children `g` in insertion order. -/
structure TreeInv (h : Heap) (g : Nat → List Nat) : Prop where
  all : ∀ p, (h p).m_allComponents = (h p).m_components ++ (h p).m_virtualComponents
  virt : ∀ p, (h p).m_virtualComponents = (g p).filter (fun n => isVirtual (h n))
  real : ∀ p, (h p).m_components.Perm ((g p).filter (fun n => !isVirtual (h n)))
  sorted : ∀ p, (h p).m_components.Pairwise
    (fun a b => sortingPriority (h a) ≤ sortingPriority (h b))
  parent : ∀ p n, n ∈ g p ↔ (h n).m_parent = some p


/-! ## The operation compiler -/

/-- The buttons of the error dialog `MessageBoxHandler::critical(..., Abort | Ignore)`. -/
inductive StandardButton where
  | Abort
  | Ignore
  deriving DecidableEq, Repr

/-- How a call of the model ends when it does not return. -/
inductive Failure where
  | outOfFuel
  | error (message : QString)
  | nullPointer
  deriving DecidableEq, Repr

/-- What a call of a script method leaves behind: whether the returned `QScriptValue` is valid,
the uncaught exception of the engine if there is one, and the component as the script left it
(a script can call the invokable methods of the component). -/
structure ScriptResult where
  valid : Bool
  uncaughtException : Option QString
  component : ComponentPrivate

/-- The collaborators of a component, which the class only calls: the privilege-separation
client, the operation factory, the error dialog, the installer's variable substitution, the
script engine, the file engine behind `installer://` and the archive library. -/
structure Environment where
  /-- The answer of `FSEngineClientHandler::instance()->isActive()`. -/
  isActive : Bool
  /-- The call `UpdateOperationFactory::instance().create(name)`: `none` is the null pointer
  returned for a name that is not registered. -/
  create : QString → Option UpdateOperation
  /-- The button the user presses in the error dialog shown for the operation name. -/
  critical : QString → StandardButton
  /-- The call `Installer::replaceVariables(arguments)`. -/
  replaceVariables : List QString → List QString
  /-- The first line of `scriptEngine.currentContext()->backtrace()`. -/
  backtraceFirst : QString
  /-- The property of the script component's prototype with the given name, when it is valid,
  as the function that `call` runs. -/
  scriptMethod : QString → Option (List QString → ComponentPrivate → ScriptResult)
  /-- The answer of `QFileInfo(path).isFile()`. -/
  isFile : QString → Bool
  /-- The answer of `QFileInfo(path).isDir()`. -/
  isDir : QString → Bool
  /-- The answer of `QFileInfo(path).exists()`. -/
  fileExists : QString → Bool
  /-- The names `QDir(path).entryList()` and `QDirIterator(path)` list, in their order. -/
  entryList : QString → List QString
  /-- The answer of `Lib7z::isSupportedArchive(path)`. -/
  isSupportedArchive : QString → Bool

/-- The call `Component::callScriptMethod(methodName, arguments)`: whether the result is valid,
and the component afterwards. -/
def callScriptMethod (env : Environment) (d : ComponentPrivate) (methodName : QString)
    (arguments : List QString) : Except Failure (Bool × ComponentPrivate) :=
  if hashValue d.unexistingScriptMethods methodName true = false then
    Except.ok (false, d)
  else if startsWith env.backtraceFirst methodName then
    Except.ok (false, d)
  else
    match env.scriptMethod methodName with
    | none =>
      Except.ok (false, { d with
        unexistingScriptMethods := hashInsert methodName false d.unexistingScriptMethods })
    | some method =>
      let result := method arguments d
      if result.valid = false then Except.ok (false, result.component)
      else
        match result.uncaughtException with
        | some message => Except.error (Failure.error message)
        | none => Except.ok (true, result.component)

/-- What `addOperation(operation)` does to the operation besides appending it: the `admin` value
is set when the privilege-separation client is active. -/
def markAdmin (env : Environment) (operation : UpdateOperation) : UpdateOperation :=
  if env.isActive then operation.setValue "admin".toList (QVariant.bool true) else operation

/-- The call `Component::addOperation(UpdateOperation *operation)`. The list holds the pointer,
so the entry shows the value set after the append. -/
def addOperation (env : Environment) (d : ComponentPrivate) (operation : UpdateOperation) :
    ComponentPrivate :=
  { d with operations := d.operations ++ [some (markAdmin env operation)] }

/-- The call `Component::addElevatedOperation(UpdateOperation *operation)`: `addOperation`, then
`operation->setValue("admin", true)` on the same object. -/
def addElevatedOperation (env : Environment) (d : ComponentPrivate)
    (operation : UpdateOperation) : ComponentPrivate :=
  { d with operations := d.operations ++
      [some ((markAdmin env operation).setValue "admin".toList (QVariant.bool true))] }

/-- The part of `createOperation` that follows the null check: `performUndo` is switched off on
a `Delete` operation, the installer is attached, and the arguments are the non-null parameters
with the variables replaced. -/
def configureOperation (env : Environment) (op : UpdateOperation)
    (parameters : List (Option QString)) : UpdateOperation :=
  let op1 :=
    if op.name = "Delete".toList then op.setValue "performUndo".toList (QVariant.bool false)
    else op
  let op2 := op1.setValue "installer".toList QVariant.installer
  { op2 with arguments := env.replaceVariables (parameters.filterMap id) }

/-- The call `Component::createOperation(operation, parameter1, ..., parameter10)`; a parameter
that is `none` is a null `QString`. Returns the operation, `none` for the null pointer. -/
def createOperation (env : Environment) (d : ComponentPrivate) (operation : QString)
    (parameters : List (Option QString)) : Option UpdateOperation × ComponentPrivate :=
  match env.create operation with
  | none =>
    if env.critical operation = StandardButton.Abort then
      (none, { d with operationsCreatedSuccessfully := false })
    else (none, d)
  | some op => (some (configureOperation env op parameters), d)

/-- The call `Component::addOperation(operation, parameter1, ..., parameter10)`, the overload
that takes the name of the operation type. -/
def addOperationOfType (env : Environment) (d : ComponentPrivate) (operation : QString)
    (parameters : List (Option QString)) : Bool × ComponentPrivate :=
  match createOperation env d operation parameters with
  | (some op, d1) => (true, addOperation env d1 op)
  | (none, d1) => (false, d1)

/-- The call `Component::addElevatedOperation(operation, parameter1, ..., parameter10)`, the
overload that takes the name of the operation type. -/
def addElevatedOperationOfType (env : Environment) (d : ComponentPrivate) (operation : QString)
    (parameters : List (Option QString)) : Bool × ComponentPrivate :=
  match createOperation env d operation parameters with
  | (some op, d1) => (true, addElevatedOperation env d1 op)
  | (none, d1) => (false, d1)

/-- The call `QFileInfo(path).fileName()`: what follows the last `/`. -/
def fileName (path : QString) : QString :=
  (path.reverse.takeWhile (fun c => c ≠ '/')).reverse

/-- The path of `QFileInfo(path).dir()`: what precedes the last `/`. -/
def dirPath (path : QString) : QString :=
  if '/' ∈ path then ((path.reverse.dropWhile (fun c => c ≠ '/')).drop 1).reverse
  else ".".toList

/-- The call `QFileInfo(path).suffix()`: what follows the last `.` of the file name. -/
def suffix (path : QString) : QString :=
  if '.' ∈ fileName path then ((fileName path).reverse.takeWhile (fun c => c ≠ '.')).reverse
  else []

/-- The call `QFileInfo(path).completeBaseName()`: the file name up to its last `.`. -/
def completeBaseName (path : QString) : QString :=
  if '.' ∈ fileName path then
    (((fileName path).reverse.dropWhile (fun c => c ≠ '.')).drop 1).reverse
  else fileName path

/-- The file path of the entry `name` of the directory `dir`, as `QDirIterator::next()` and
`QFileInfo(dir, name)` form it. -/
def filePath (dir name : QString) : QString :=
  dir ++ '/' :: name

/-- The test of `createOperationsForPath` for a signature that is not copied: the suffix is
`sig` and the file it signs exists alongside. -/
def isSignature (env : Environment) (path : QString) : Bool :=
  suffix path = "sig".toList && env.fileExists (filePath (dirPath path) (completeBaseName path))

/-- The target `createOperationsForPath` computes for a path of the component called `name`. -/
def targetPath (name path : QString) : QString :=
  if startsWith path "7z://installer://".toList then
    let target := mid path ("7z://installer://".toList.length + name.length + 1)
    match indexOf target '/' with
    | some nextSlash => "@TargetDir@".toList ++ mid target nextSlash
    | none => "@TargetDir@".toList
  else
    "@TargetDir@".toList ++ mid path ("installer://".toList.length + name.length)

/-- Runs `step` on the entries of a loop in order, stopping at the first failure. -/
def forEach (step : ComponentPrivate → QString → Except Failure ComponentPrivate) :
    List QString → ComponentPrivate → Except Failure ComponentPrivate
  | [], d => Except.ok d
  | entry :: entries, d =>
    match step d entry with
    | Except.ok d1 => forEach step entries d1
    | Except.error e => Except.error e

/-- The call `Component::createOperationsForPath(path)`. The recursion follows the directory
entries, so it carries fuel. -/
def createOperationsForPath (env : Environment) :
    Nat → QString → ComponentPrivate → Except Failure ComponentPrivate
  | 0, _, _ => Except.error Failure.outOfFuel
  | fuel + 1, path, d =>
    if isSignature env path then Except.ok d
    else
      match callScriptMethod env d "createOperationsForPath".toList [path] with
      | Except.error e => Except.error e
      | Except.ok (true, d1) => Except.ok d1
      | Except.ok (false, d1) =>
        let target := targetPath (name d1) path
        if env.isFile path then
          Except.ok (addOperationOfType env d1 "Copy".toList [some path, some target]).2
        else if env.isDir path then
          let d2 := (addOperationOfType env d1 "Mkdir".toList [some target]).2
          forEach (fun acc entry => createOperationsForPath env fuel (filePath path entry) acc)
            (env.entryList path) d2
        else Except.ok d1

/-- The call `Component::createOperationsForArchive(archive)`. -/
def createOperationsForArchive (env : Environment) (fuel : Nat) (archive : QString)
    (d : ComponentPrivate) : Except Failure ComponentPrivate :=
  match callScriptMethod env d "createOperationsForArchive".toList [archive] with
  | Except.error e => Except.error e
  | Except.ok (true, d1) => Except.ok d1
  | Except.ok (false, d1) =>
    let fi := "installer://".toList ++ name d1 ++ '/' :: archive
    if env.isSupportedArchive fi then
      Except.ok (addOperationOfType env d1 "Extract".toList
        [some fi, some "@TargetDir@".toList]).2
    else createOperationsForPath env fuel fi d1

/-- The call `Component::archives()`. -/
def archives (env : Environment) (d : ComponentPrivate) : List QString :=
  env.entryList ("installer://".toList ++ name d ++ "/".toList)

/-- The call `Component::createOperations()`. -/
def createOperations (env : Environment) (fuel : Nat) (d : ComponentPrivate) :
    Except Failure ComponentPrivate :=
  match callScriptMethod env d "createOperations".toList [] with
  | Except.error e => Except.error e
  | Except.ok (true, d1) => Except.ok { d1 with operationsCreated := true }
  | Except.ok (false, d1) =>
    match forEach (fun acc archive => createOperationsForArchive env fuel archive acc)
        (archives env d1) d1 with
    | Except.error e => Except.error e
    | Except.ok d2 => Except.ok { d2 with operationsCreated := true }

/-- The `QVariantMap` the `License` operation carries: the file name and text of every
registered license, a later entry of the same file name replacing an earlier one. -/
def licenseMap (m_licenses : List (QString × (QString × QString))) : List (QString × QString) :=
  (m_licenses.map Prod.snd).foldl (fun licenses entry => hashInsert entry.1 entry.2 licenses) []

/-- The call `Component::operations()`: the list it returns and the component afterwards. A
`License` operation the factory does not know is a null pointer that is dereferenced. -/
def operations (env : Environment) (fuel : Nat) (d : ComponentPrivate) :
    Except Failure (List (Option UpdateOperation) × ComponentPrivate) :=
  if d.autoCreateOperations = true ∧ d.operationsCreated = false then
    match createOperations env fuel d with
    | Except.error e => Except.error e
    | Except.ok d1 =>
      let d2 :=
        if d1.minimumProgressOperation = none then
          { d1 with
            minimumProgressOperation := env.create "MinimumProgress".toList
            operations := d1.operations ++ [env.create "MinimumProgress".toList] }
        else d1
      if d2.m_licenses ≠ [] then
        match env.create "License".toList with
        | none => Except.error Failure.nullPointer
        | some op =>
          let licenseOperation :=
            (op.setValue "installer".toList QVariant.installer).setValue "licenses".toList
              (QVariant.map (licenseMap d2.m_licenses))
          let d3 := { d2 with
            m_licenseOperation := some licenseOperation
            operations := d2.operations ++ [some licenseOperation] }
          Except.ok (d3.operations, d3)
      else Except.ok (d2.operations, d2)
  else Except.ok (d.operations, d)

/-- The paths `createOperationsForPath` emits an operation for, in the order of the operations:
a file, or a directory followed by what its entries give in their order; nothing for a
signature that is not copied nor for what lies below it. -/
def packageEntries (env : Environment) : Nat → QString → List QString
  | 0, _ => []
  | fuel + 1, path =>
    if isSignature env path then []
    else if env.isFile path then [path]
    else if env.isDir path then
      path :: (env.entryList path).flatMap (fun entry => packageEntries env fuel (filePath path entry))
    else []

/-- The operation `createOperationsForPath` emits for a path of the component called `name`,
given the operations the factory creates for `Copy` and `Mkdir`. -/
def emitted (env : Environment) (name : QString) (copyOp mkdirOp : UpdateOperation)
    (path : QString) : Option UpdateOperation :=
  if env.isFile path then
    some (markAdmin env (configureOperation env copyOp
      [some path, some (targetPath name path)]))
  else
    some (markAdmin env (configureOperation env mkdirOp [some (targetPath name path)]))

/-- A target lies under the target of a directory: it continues it with a `/`. -/
def liesUnder (target directory : QString) : Prop :=
  (directory ++ ['/']) <+: target


/-- What compiling leaves of a component: the operations `ops` are appended to its list, and
its variables, licenses and `MinimumProgress` operation are as before. -/
structure Compiled (d d1 : ComponentPrivate) (ops : List (Option UpdateOperation)) : Prop where
  vars : d1.m_vars = d.m_vars
  operations : d1.operations = d.operations ++ ops
  licenses : d1.m_licenses = d.m_licenses
  minimumProgress : d1.minimumProgressOperation = d.minimumProgressOperation

/-- The root paths of a component called `name` that `createOperationsForPath` is made for:
`installer://name` followed by `rest`, or inside the archive `archive`,
`7z://installer://name/archive` followed by `rest`, where `rest` is empty or starts a new path
segment. -/
def ComponentRoot (name rest root : QString) : Prop :=
  root = "installer://".toList ++ name ++ rest ∨
  ∃ archive, '/' ∉ archive ∧ (rest = [] ∨ ∃ t, rest = '/' :: t) ∧
    root = "7z://installer://".toList ++ name ++ '/' :: archive ++ rest


/-! ## Concrete inputs -/

/-- The operation types the example factory knows. -/
def registeredOperations : List QString :=
  ["Copy".toList, "Mkdir".toList, "Extract".toList, "Delete".toList,
   "MinimumProgress".toList, "License".toList]

/-- An environment over a given file tree: `files` are the paths of the files and `dirs` the
paths of the directories with the names of their entries. The factory creates an operation
without arguments and values for a registered type, no script is loaded, no variable is
replaced, and the user aborts in the error dialog. -/
def environmentOf (isActive : Bool) (files : List QString)
    (dirs : List (QString × List QString)) : Environment :=
  { isActive := isActive
    create := fun type =>
      if type ∈ registeredOperations then some { name := type, arguments := [], values := [] }
      else none
    critical := fun _ => StandardButton.Abort
    replaceVariables := fun arguments => arguments
    backtraceFirst := []
    scriptMethod := fun _ => none
    isFile := fun path => decide (path ∈ files)
    isDir := fun path => (hashFind path dirs).isSome
    fileExists := fun path => decide (path ∈ files) || (hashFind path dirs).isSome
    entryList := fun path => hashValue dirs path []
    isSupportedArchive := fun _ => false }

/-- The package of the spec's scenario, for the component `pkg`: the file `readme.txt` and the
directory `docs` with the file `guide.txt`. -/
def examplePackage (isActive : Bool) : Environment :=
  environmentOf isActive
    ["installer://pkg/readme.txt".toList, "installer://pkg/docs/guide.txt".toList]
    [("installer://pkg/".toList, ["readme.txt".toList, "docs".toList]),
     ("installer://pkg".toList, ["readme.txt".toList, "docs".toList]),
     ("installer://pkg/docs".toList, ["guide.txt".toList])]

/-- A package of the component `pkg` whose directory `bin` holds the file `tool` and its
signature `tool.sig`. -/
def signedPackage : Environment :=
  environmentOf false
    ["installer://pkg/bin/tool".toList, "installer://pkg/bin/tool.sig".toList]
    [("installer://pkg/".toList, ["bin".toList]),
     ("installer://pkg/bin".toList, ["tool".toList, "tool.sig".toList])]

/-- A measure of the example trees that falls from a directory to its entries. -/
def exampleRank (path : QString) : Nat := 4 - path.count '/'

/-- The component `pkg` before any call. -/
def pkgComponent : ComponentPrivate :=
  newComponent [(skName, "pkg".toList)]


/-- The component `pkg` with one registered license. -/
def licensedComponent : ComponentPrivate :=
  { pkgComponent with
    m_licenses := [("License".toList, ("license.txt".toList, "Terms of use".toList))] }


/-! ## Loading and selection -/

/-- Further keys of the component variables. -/
def skDisplayName : QString := "DisplayName".toList
def skDescription : QString := "Description".toList
def skCompressedSize : QString := "CompressedSize".toList
def skUncompressedSize : QString := "UncompressedSize".toList
def skReleaseDate : QString := "ReleaseDate".toList
def skReplaces : QString := "Replaces".toList
def skInstallPriority : QString := "InstallPriority".toList
def skAutoSelectOn : QString := "AutoSelectOn".toList
def skImportant : QString := "Important".toList
def skUpdateText : QString := "UpdateText".toList
def skRequiresAdminRights : QString := "RequiresAdminRights".toList
def skNewComponent : QString := "NewComponent".toList
def skScript : QString := "Script".toList

/-- The call `QString::number(n)`. -/
def number (n : Nat) : QString := (toString n).toList

/-- Modelled from the spec: `setEnabled` is a setter of the model base class of `Component`,
which is not among the sources. "Selection state: tri-state plus `checkable`/`enabled` flags":
it writes the flag. -/
def setEnabled (d : ComponentPrivate) (enabled : Bool) : ComponentPrivate :=
  { d with enabled := enabled }

/-- Modelled from the spec: `setCheckable` is a setter of the model base class of `Component`,
which is not among the sources. "Selection state: tri-state plus `checkable`/`enabled` flags":
it writes the flag. -/
def setCheckable (d : ComponentPrivate) (checkable : Bool) : ComponentPrivate :=
  { d with checkable := checkable }

/-- Modelled from the spec: `checkState` is an accessor of the model base class of `Component`,
which is not among the sources. "Selection state: tri-state {Unchecked, Checked,
PartiallyChecked}": it reads the state. -/
def checkState (d : ComponentPrivate) : CheckState := d.checkState

/-- Modelled from the spec: `setCheckState` is a setter of the model base class of `Component`,
which is not among the sources. "Selection state: tri-state {Unchecked, Checked,
PartiallyChecked}": it writes the state. -/
def setCheckState (d : ComponentPrivate) (state : CheckState) : ComponentPrivate :=
  { d with checkState := state }

/-- The call `Component::isSelected()`. -/
def isSelected (d : ComponentPrivate) : Bool :=
  decide (checkState d ≠ CheckState.Unchecked)

/-- The call `Component::setSelected(selected)`: the component afterwards and the
`selectedChanged` invocations it queues. -/
def setSelected (d : ComponentPrivate) (selected : Bool) : ComponentPrivate × List Signal :=
  let previousState := checkState d
  let newState := if selected then CheckState.Checked else CheckState.Unchecked
  if newState ≠ previousState then
    (setCheckState d newState, [Signal.selectedChanged (decide (newState = CheckState.Checked))])
  else (d, [])

/-- Runs `setValue` on the pairs in order and collects the signals. -/
def setValues (d : ComponentPrivate) (entries : List (QString × QString)) :
    ComponentPrivate × List Signal :=
  entries.foldl
    (fun acc entry =>
      ((setValue acc.1 entry.1 entry.2).1, acc.2 ++ (setValue acc.1 entry.1 entry.2).2))
    (d, [])

/-- A `KDUpdater::PackageInfo`: what the package manager has saved of an installed package. -/
structure PackageInfo where
  name : QString
  title : QString
  description : QString
  uncompressedSize : Nat
  version : QString
  virtualComp : Bool
  dependencies : List QString
  forcedInstallation : Bool
  deriving DecidableEq, Repr

/-- The call `Component::loadDataFromPackageInfo(packageInfo)`: the component afterwards and
the signals emitted. -/
def loadDataFromPackageInfo (d : ComponentPrivate) (packageInfo : PackageInfo) :
    ComponentPrivate × List Signal :=
  let dependstr := packageInfo.dependencies.foldl (fun s val => s ++ (val ++ ",".toList)) []
  let dependstr := if packageInfo.dependencies.length > 0 then dependstr.dropLast else dependstr
  let loaded := setValues d
    [(skName, packageInfo.name),
     (skDisplayName, packageInfo.title),
     (skDescription, packageInfo.description),
     (skUncompressedSize, number packageInfo.uncompressedSize),
     (skVersion, packageInfo.version),
     (skVirtual, if packageInfo.virtualComp then "true".toList else "false".toList),
     (skDependencies, dependstr),
     (skForcedInstallation,
       if packageInfo.forcedInstallation then "true".toList else "false".toList)]
  if packageInfo.forcedInstallation then
    (setCheckState (setCheckable (setEnabled loaded.1 false) false) CheckState.Checked, loaded.2)
  else loaded

/-- A `KDUpdater::Update` as the class reads it: its name, the strings `data(key).toString()`
gives, the sizes, the url of its source and the hash `data("Licenses").toHash()` of license
names and file names. -/
structure Update where
  name : QString
  data : List (QString × QString)
  compressedSize : Nat
  uncompressedSize : Nat
  url : QString
  licenses : List (QString × QString)
  deriving DecidableEq, Repr

/-- The collaborators of loading, which the class only calls: the arguments of the
application, `QInstaller::pathFromUrl`, and the files. Loading user interfaces and translations
changes no state of the data model; each is given by the message of the `Error` it throws, if
it throws. -/
structure Application where
  /-- The list `qApp->arguments()`. -/
  arguments : List QString
  /-- The call `QInstaller::pathFromUrl(url)`. -/
  pathFromUrl : QString → QString
  /-- The call `loadUserInterfaces(directory, uis)`. -/
  loadUserInterfaces : QString → List QString → Option QString
  /-- The call `loadTranslations(directory, qms)`. -/
  loadTranslations : QString → List QString → Option QString
  /-- Opening and reading the file at a path: its text, or the error string. -/
  readAll : QString → Except QString QString

/-- The call `Component::loadLicenses(directory, licenseHash)`. -/
def loadLicenses (app : Application) (directory : QString) :
    List (QString × QString) → ComponentPrivate → Except Failure ComponentPrivate
  | [], d => Except.ok d
  | (key, fileName) :: rest, d =>
    match app.readAll (directory ++ fileName) with
    | Except.error message => Except.error (Failure.error message)
    | Except.ok text =>
      loadLicenses app directory rest
        { d with m_licenses := hashInsert key (fileName, text) d.m_licenses }

/-- The part of `loadDataFromUpdate` up to and including the forced-installation block: the
values are set and the component is pinned when the forced flag, lowered, is `true` and the
application was not started with `--no-force-installations`. -/
def loadValuesFromUpdate (app : Application) (d : ComponentPrivate) (update : Update) :
    ComponentPrivate × List Signal :=
  let data := fun key => hashValue update.data key []
  let forced :=
    if "--no-force-installations".toList ∈ app.arguments then "false".toList
    else toLower (data skForcedInstallation)
  let loaded := setValues d
    [(skName, data skName),
     (skDisplayName, data skDisplayName),
     (skDescription, data skDescription),
     (skCompressedSize, number update.compressedSize),
     (skUncompressedSize, number update.uncompressedSize),
     (skVersion, data skVersion),
     (skDependencies, data skDependencies),
     (skVirtual, data skVirtual),
     (skSortingPriority, data skSortingPriority),
     (skInstallPriority, data skInstallPriority),
     (skAutoSelectOn, data skAutoSelectOn),
     (skImportant, data skImportant),
     (skUpdateText, data skUpdateText),
     (skNewComponent, data skNewComponent),
     (skRequiresAdminRights, data skRequiresAdminRights),
     (skScript, data skScript),
     (skReplaces, data skReplaces),
     (skReleaseDate, data skReleaseDate),
     (skForcedInstallation, forced)]
  if forced = "true".toList then
    (setCheckState (setCheckable (setEnabled loaded.1 false) false) CheckState.Checked, loaded.2)
  else loaded

/-- The call `Component::loadDataFromUpdate(update)`: the component afterwards and the signals
emitted. The assertion on the name of the update, a user interface, a translation or a license
that cannot be loaded end the call with a failure. The local temporary path it sets is used for
the directories only. -/
def loadDataFromUpdate (app : Application) (d : ComponentPrivate) (update : Update) :
    Except Failure (ComponentPrivate × List Signal) :=
  if update.name = [] then Except.error (Failure.error "ASSERT: !update->name().isEmpty()".toList)
  else
    let loaded := loadValuesFromUpdate app d update
    let localTempPath := app.pathFromUrl update.url
    let directory := localTempPath ++ '/' :: name loaded.1
    let uis := (split ',' (hashValue update.data "UserInterfaces".toList [])).filter
      (fun s => !s.isEmpty)
    let qms := (split ',' (hashValue update.data "Translations".toList [])).filter
      (fun s => !s.isEmpty)
    match (if uis.isEmpty then none else app.loadUserInterfaces directory uis) with
    | some message => Except.error (Failure.error message)
    | none =>
      match (if qms.isEmpty then none else app.loadTranslations directory qms) with
      | some message => Except.error (Failure.error message)
      | none =>
        match loadLicenses app (directory ++ "/".toList) update.licenses loaded.1 with
        | Except.error e => Except.error e
        | Except.ok d1 => Except.ok (d1, loaded.2)

/-! ## Downloadable archives -/

/-- The call `Component::isFromOnlineRepository()`. -/
def isFromOnlineRepository (d : ComponentPrivate) : Bool :=
  !d.repositoryUrl.isEmpty

/-- The call `Component::addDownloadableArchive(path)`; the assertion that the component is
from an online repository ends the call with a failure. -/
def addDownloadableArchive (d : ComponentPrivate) (path : QString) :
    Except Failure ComponentPrivate :=
  if isFromOnlineRepository d then
    let versionPre := value d skVersion
    Except.ok { d with downloadableArchives := d.downloadableArchives ++ [versionPre ++ path] }
  else Except.error (Failure.error "ASSERT: isFromOnlineRepository()".toList)

/-- The call `Component::removeDownloadableArchive(path)`; the assertion that the component is
from an online repository ends the call with a failure. -/
def removeDownloadableArchive (d : ComponentPrivate) (path : QString) :
    Except Failure ComponentPrivate :=
  if isFromOnlineRepository d then
    Except.ok { d with
      downloadableArchives := d.downloadableArchives.filter (fun archive => archive ≠ path) }
  else Except.error (Failure.error "ASSERT: isFromOnlineRepository()".toList)

/-- The call `Component::downloadableArchives()`. -/
def downloadableArchives (d : ComponentPrivate) : List QString :=
  d.downloadableArchives


/-- A node pinned by forced installation: not checkable and checked. -/
def pinned (d : ComponentPrivate) : Prop :=
  d.checkable = false ∧ d.checkState = CheckState.Checked

/-- The package of the scenario whose user ignores the error dialog. -/
def ignoringPackage : Environment :=
  { examplePackage false with critical := fun _ => StandardButton.Ignore }

/-- The saved package information of the component `pkg`, installed with forced
installation. -/
def forcedPackageInfo : PackageInfo :=
  { name := "pkg".toList, title := "Package".toList, description := [], uncompressedSize := 12,
    version := "1.0".toList, virtualComp := false, dependencies := [],
    forcedInstallation := true }

/-- The catalog entry of the component `pkg` with forced installation. -/
def forcedUpdate : Update :=
  { name := "pkg".toList,
    data := [(skName, "pkg".toList), (skVersion, "1.0".toList),
             (skForcedInstallation, "True".toList)],
    compressedSize := 5, uncompressedSize := 12, url := "file:///tmp/repo".toList,
    licenses := [] }

/-- An application started with the given arguments whose files all open empty and whose
user interfaces and translations load. -/
def applicationWith (arguments : List QString) : Application :=
  { arguments := arguments
    pathFromUrl := fun url => url
    loadUserInterfaces := fun _ _ => none
    loadTranslations := fun _ _ => none
    readAll := fun _ => Except.ok [] }

/-- The component `pkg` of version `1.0` from an online repository. -/
def onlineComponent : ComponentPrivate :=
  { newComponent [(skName, "pkg".toList), (skVersion, "1.0".toList)] with
    repositoryUrl := "http://repo.example/".toList }


/-! ## The component tree: recursion and virtual children -/

/-- The depth-first pre-order flattening of what lies below a component: for each child in the
order of the combined sequence, the child followed by the flattening of what lies below it. -/
def preorder (h : Heap) : Nat → Nat → List Nat
  | 0, _ => []
  | fuel + 1, c => (h c).m_allComponents.flatMap (fun k => k :: preorder h fuel k)

/-- The proper descendants of a component: its children and what descends from them. -/
inductive Descendant (h : Heap) : Nat → Nat → Prop where
  | direct {c x : Nat} : x ∈ (h c).m_allComponents → Descendant h c x
  | deeper {c k x : Nat} : k ∈ (h c).m_allComponents → Descendant h k x → Descendant h c x

/-- The calls the partition into real and virtual children is kept under: `Virtual` is not set
to `true` (in any letter case) on a component that has a parent. -/
def callKeepsVirtual (h : Heap) : Call → Bool
  | Call.setValue this key v =>
    decide (key ≠ skVirtual ∨ (h this).m_parent = none ∨ toLower v ≠ "true".toList)
  | _ => true

/-- Every call of the sequence keeps the partition, in the state it is made in. -/
def keepsVirtual (stdSort : StdSort) : Heap → List Call → Bool
  | _, [] => true
  | h, call :: calls =>
    callKeepsVirtual h call && keepsVirtual stdSort (exec stdSort h call) calls

/-- The invariant of the partition of the children: the combined sequence is the real children
followed by the virtual ones, and a component in a real-children sequence is not virtual and has
the owner of the sequence as its parent. -/
structure PartitionInv (h : Heap) : Prop where
  all : ∀ c, (h c).m_allComponents = (h c).m_components ++ (h c).m_virtualComponents
  real : ∀ c a, a ∈ (h c).m_components → isVirtual (h a) = false ∧ (h a).m_parent = some c


/-- A finite component tree: the components `nodes` hold the children of each of them, a child
lies strictly below its parent (`depth` gets smaller, so no component is below itself), no
child is listed twice, and no component is a child of two components. -/
structure FiniteTree (h : Heap) (nodes : List Nat) (depth : Nat → Nat) : Prop where
  closed : ∀ c ∈ nodes, ∀ k ∈ (h c).m_allComponents, k ∈ nodes
  below : ∀ c ∈ nodes, ∀ k ∈ (h c).m_allComponents, depth k < depth c
  nodup : ∀ c ∈ nodes, (h c).m_allComponents.Nodup
  parent : ∀ c1 ∈ nodes, ∀ c2 ∈ nodes, ∀ k ∈ (h c1).m_allComponents,
    k ∈ (h c2).m_allComponents → c1 = c2

/-- The depth of the components of the small tree: component 0 above component 2 above
component 4. -/
def smallTreeDepth (c : Nat) : Nat :=
  if c = 0 then 2 else if c = 2 then 1 else 0


/-! ## The remote server -/

/-- A `QTimer` of Qt, with time counted in units: its interval, whether it is single-shot, and
the time it is due at while it is active (`none` while it is not running). -/
structure QTimer where
  interval : Nat
  singleShot : Bool
  deadline : Option Nat
  deriving DecidableEq, Repr

/-- The call `QTimer::start()` made at time `now`: it starts the timer, or restarts it when it
is running, with its interval. -/
def QTimer.start (now : Nat) (timer : QTimer) : QTimer :=
  { timer with deadline := some (now + timer.interval) }

/-- A timer after it has timed out at time `now`: a single-shot timer stops, another one runs
on. -/
def QTimer.timedOut (now : Nat) (timer : QTimer) : QTimer :=
  { timer with deadline := if timer.singleShot then none else some (now + timer.interval) }

/-- The `RemoteServer::Mode` of the server. -/
inductive RemoteServer.Mode where
  | Debug
  | Release
  deriving DecidableEq, Repr

/-- The listener `TcpServer` that `start()` creates, with the port and address it is given. -/
structure TcpServer where
  port : Nat
  address : QString
  deriving DecidableEq, Repr

/-- The signal-slot connections that `RemoteServer::start()` makes. -/
inductive Connection where
  | threadFinished_deleteLater
  | newIncommingConnection_restartWatchdog
  | timeout_deleteLater
  deriving DecidableEq, Repr

/-- The state of a `RemoteServer`: the members of `RemoteServerPrivate` that `remoteserver.cpp`
uses (`m_watchdog` is a scoped pointer, `none` when it is null), whether `m_thread` runs, the
connections made, and whether `deleteLater()` has been called on the server. -/
structure RemoteServerPrivate where
  m_tcpServer : Option TcpServer
  m_key : QString
  m_port : Nat
  m_address : QString
  m_mode : RemoteServer.Mode
  m_watchdog : Option QTimer
  threadStarted : Bool
  connections : List Connection
  deleteLater : Bool
  deriving DecidableEq, Repr

/-- Modelled from the spec: the constant `Protocol::DebugAuthorizationKey` is declared in
`protocol.h`, which is not among the sources. "The authorization key is forced to a fixed,
publicly known debug value": the value is the one the comment of `start()` names. -/
def DebugAuthorizationKey : QString := "DebugMode".toList

/-- The call `RemoteServer::authorizationKey()`. -/
def RemoteServer.authorizationKey (d : RemoteServerPrivate) : QString := d.m_key

/-- The call `RemoteServer::setAuthorizationKey(authorizationKey)`. -/
def RemoteServer.setAuthorizationKey (d : RemoteServerPrivate) (authorizationKey : QString) :
    RemoteServerPrivate :=
  { d with m_key := authorizationKey }

/-- The call `RemoteServer::init(port, address, mode)`. -/
def RemoteServer.init (d : RemoteServerPrivate) (port : Nat) (address : QString)
    (mode : RemoteServer.Mode) : RemoteServerPrivate :=
  { d with m_port := port, m_address := address, m_mode := mode }

/-- The call `RemoteServer::start()` made at time `now`. With a listener it returns at once.
Otherwise it creates the listener, connects it and starts the thread; in release mode it
connects the timeout of the watchdog to `deleteLater()` and starts the watchdog, which it
dereferences (`Failure.nullPointer` when the pointer is null); in debug mode it sets the key. -/
def RemoteServer.start (now : Nat) (d : RemoteServerPrivate) :
    Except Failure RemoteServerPrivate :=
  if d.m_tcpServer.isSome then Except.ok d
  else
    let d1 := { d with
      m_tcpServer := some { port := d.m_port, address := d.m_address }
      connections := d.connections
        ++ [Connection.threadFinished_deleteLater,
            Connection.newIncommingConnection_restartWatchdog]
      threadStarted := true }
    if d1.m_mode = RemoteServer.Mode.Release then
      match d1.m_watchdog with
      | none => Except.error Failure.nullPointer
      | some watchdog =>
        Except.ok { d1 with
          connections := d1.connections ++ [Connection.timeout_deleteLater]
          m_watchdog := some (watchdog.start now) }
    else Except.ok (RemoteServer.setAuthorizationKey d1 DebugAuthorizationKey)

/-- The slot `RemoteServer::restartWatchdog()` called at time `now`. -/
def RemoteServer.restartWatchdog (now : Nat) (d : RemoteServerPrivate) : RemoteServerPrivate :=
  match d.m_watchdog with
  | some watchdog => { d with m_watchdog := some (watchdog.start now) }
  | none => d

/-- The listener accepts a connection at time `now` and emits `newIncommingConnection()`: the
slot connected to it runs (it does the same however often it runs at one time). -/
def newIncommingConnection (now : Nat) (d : RemoteServerPrivate) : RemoteServerPrivate :=
  if Connection.newIncommingConnection_restartWatchdog ∈ d.connections then
    RemoteServer.restartWatchdog now d
  else d

/-- The event loop at time `now`: a running watchdog that is due emits `timeout()`, and the
slot `deleteLater()` connected to it asks for the server to be deleted. -/
def elapse (now : Nat) (d : RemoteServerPrivate) : RemoteServerPrivate :=
  match d.m_watchdog with
  | none => d
  | some watchdog =>
    match watchdog.deadline with
    | none => d
    | some deadline =>
      if deadline ≤ now then
        { d with
          m_watchdog := some (watchdog.timedOut now)
          deleteLater := d.deleteLater
            || decide (Connection.timeout_deleteLater ∈ d.connections) }
      else d

/-- What happens to a server: a call of `start()`, a connection the listener accepts, the event
loop running; each at a time. -/
inductive ServerEvent where
  | start (now : Nat)
  | newIncommingConnection (now : Nat)
  | elapse (now : Nat)
  deriving DecidableEq, Repr

/-- One event on a server. -/
def serve (d : RemoteServerPrivate) : ServerEvent → Except Failure RemoteServerPrivate
  | ServerEvent.start now => RemoteServer.start now d
  | ServerEvent.newIncommingConnection now => Except.ok (newIncommingConnection now d)
  | ServerEvent.elapse now => Except.ok (elapse now d)

/-- A sequence of events on a server, in order. -/
def serveAll : RemoteServerPrivate → List ServerEvent → Except Failure RemoteServerPrivate
  | d, [] => Except.ok d
  | d, event :: events =>
    match serve d event with
    | Except.ok d1 => serveAll d1 events
    | Except.error failure => Except.error failure

/-- The time the watchdog of the server is due at, `none` while it is not running. -/
def watchdogDeadline (d : RemoteServerPrivate) : Option Nat :=
  d.m_watchdog.bind QTimer.deadline

/-- A server that has not been started: no listener, the key `key`, a single-shot watchdog
with the interval `interval` that is not running, release mode. `start()` uses the watchdog
without creating it, so a server that can be started in release mode has it before `init`
sets the mode. -/
def idleServer (key : QString) (interval : Nat) : RemoteServerPrivate :=
  { m_tcpServer := none
    m_key := key
    m_port := 39999
    m_address := "127.0.0.1".toList
    m_mode := RemoteServer.Mode.Release
    m_watchdog := some { interval := interval, singleShot := true, deadline := none }
    threadStarted := false
    connections := []
    deleteLater := false }

/-- The server `idleServer` set up for debug mode by `init`. -/
def debugServer (key : QString) (interval : Nat) : RemoteServerPrivate :=
  RemoteServer.init (idleServer key interval) 39999 "127.0.0.1".toList RemoteServer.Mode.Debug


/-- A started server whose listener tells it of connections and which has a watchdog with the
interval `interval`. -/
structure Watched (interval : Nat) (d : RemoteServerPrivate) : Prop where
  listening : d.m_tcpServer.isSome = true
  connected : Connection.newIncommingConnection_restartWatchdog ∈ d.connections
  timer : ∃ watchdog, d.m_watchdog = some watchdog ∧ watchdog.interval = interval

/-- A server in debug mode on which no deletion is asked for and none can be: the timeout of
the watchdog is connected to nothing. -/
structure Unwatched (d : RemoteServerPrivate) : Prop where
  debug : d.m_mode = RemoteServer.Mode.Debug
  unconnected : Connection.timeout_deleteLater ∉ d.connections
  alive : d.deleteLater = false


/-- A package of the component `pkg` inside the archive `data.7z`: the directory `bin` with the
file `tool`. -/
def archivePackage : Environment :=
  environmentOf false
    ["7z://installer://pkg/data.7z/bin/tool".toList]
    [("7z://installer://pkg/data.7z".toList, ["bin".toList]),
     ("7z://installer://pkg/data.7z/bin".toList, ["tool".toList])]


/-- The example package with a script that has a method `createOperationsForPath`: the method
returns a valid value, throws nothing and leaves the component as it is. -/
def overriddenPackage : Environment :=
  { examplePackage false with
    scriptMethod := fun methodName =>
      if methodName = "createOperationsForPath".toList then
        some (fun _ d => { valid := true, uncaughtException := none, component := d })
      else none }


/-! ## Variables: `setValue` and `dependencies` -/

theorem hashFind_hashInsert_self {β : Type} (key : QString) (v : β) (h : List (QString × β)) :
    hashFind key (hashInsert key v h) = some v := by
  induction h with
  | nil => simp [hashInsert, hashFind]
  | cons e rest ih =>
    obtain ⟨k, w⟩ := e
    by_cases hk : k = key
    · simp [hashInsert, hashFind, hk]
    · simp [hashInsert, hashFind, hk, ih]

theorem hashFind_hashInsert_other {β : Type} (key other : QString) (v : β)
    (h : List (QString × β)) (hne : other ≠ key) :
    hashFind other (hashInsert key v h) = hashFind other h := by
  induction h with
  | nil =>
    have : ¬ key = other := fun e => hne e.symm
    simp [hashInsert, hashFind, this]
  | cons e rest ih =>
    obtain ⟨k, w⟩ := e
    by_cases hk : k = key
    · have : ¬ key = other := fun e => hne e.symm
      simp [hashInsert, hashFind, hk, this]
    · by_cases hko : k = other
      · subst hko
        simp [hashInsert, hashFind, hk]
      · simp [hashInsert, hashFind, hk, hko, ih]

theorem value_setValue_other (d : ComponentPrivate) (key other v : QString) (hne : other ≠ key) :
    value (setValue d key v).1 other = value d other := by
  unfold setValue
  split
  · rfl
  · simp [value, hashValue, hashFind_hashInsert_other key other v d.m_vars hne]

/-- C4 (as stated, refuted): on a store where the key `Version` is absent, `setValue(Version, "")`
called twice emits no `valueChanged` notification at all, not one: the stored value of an absent
key reads as the empty string, so the first call already returns early. -/
theorem setValue_absent_key_empty_value_is_silent :
    hashFind skVersion (newComponent []).m_vars = none ∧
    (setValue (newComponent []) skVersion []).2
        ++ (setValue (setValue (newComponent []) skVersion []).1 skVersion []).2
      ≠ [Signal.valueChanged skVersion []] := by
  decide

/-- C4 (amended): for every key `k`, value `v` and store whose value for `k` (the empty string
when `k` is absent) differs from `v`, calling `setValue(k, v)` twice in a row emits exactly one
`valueChanged(k, v)` notification in total, from the first call, and the second call leaves the
store unchanged (it then holds `v` for `k`). -/
theorem setValue_twice_emits_once (d : ComponentPrivate) (k v : QString)
    (hne : value d k ≠ v) :
    (setValue d k v).2 = [Signal.valueChanged k v] ∧
    (setValue (setValue d k v).1 k v).2 = [] ∧
    (setValue d k v).2 ++ (setValue (setValue d k v).1 k v).2 = [Signal.valueChanged k v] ∧
    (setValue (setValue d k v).1 k v).1 = (setValue d k v).1 ∧
    value (setValue d k v).1 k = v := by
  have h1 : ¬ hashValue d.m_vars k [] = v := hne
  have hfst : (setValue d k v).1 = { d with m_vars := hashInsert k v d.m_vars } := by
    simp [setValue, h1]
  have hsnd : (setValue d k v).2 = [Signal.valueChanged k v] := by
    simp [setValue, h1]
  have hval : hashValue (hashInsert k v d.m_vars) k [] = v := by
    simp [hashValue, hashFind_hashInsert_self]
  have hagain : setValue { d with m_vars := hashInsert k v d.m_vars } k v
      = ({ d with m_vars := hashInsert k v d.m_vars }, []) := by
    simp [setValue, hval]
  refine ⟨hsnd, ?_, ?_, ?_, ?_⟩
  · rw [hfst, hagain]
  · rw [hsnd, hfst, hagain]; rfl
  · rw [hfst, hagain]
  · rw [hfst]; exact hval

/-- C4 (amended), on an input: setting `Version` to `1.0` twice on a new component. -/
theorem setValue_twice_emits_once_witness :
    value (newComponent []) skVersion ≠ "1.0".toList ∧
    (setValue (newComponent []) skVersion "1.0".toList).2
        ++ (setValue (setValue (newComponent []) skVersion "1.0".toList).1 skVersion
              "1.0".toList).2
      = [Signal.valueChanged skVersion "1.0".toList] :=
  ⟨by decide, (setValue_twice_emits_once (newComponent []) skVersion "1.0".toList
    (by decide)).2.2.1⟩

theorem split_ne_nil (sep : Char) (s : QString) : split sep s ≠ [] := by
  cases s with
  | nil => simp [split]
  | cons c cs =>
    unfold split
    split
    · simp
    · split <;> simp

theorem split_length (sep : Char) (s : QString) :
    (split sep s).length = s.count sep + 1 := by
  induction s with
  | nil => simp [split]
  | cons c cs ih =>
    unfold split
    by_cases hc : c = sep
    · subst hc; simp [ih]
    · have hne := split_ne_nil sep cs
      simp only [hc, if_false]
      cases hsp : split sep cs with
      | nil => exact absurd hsp hne
      | cons piece pieces =>
        rw [hsp] at ih
        simp [List.count_cons, hc] at ih ⊢
        omega

theorem join_split (sep : Char) (s : QString) : join sep (split sep s) = s := by
  induction s with
  | nil => simp [split, join]
  | cons c cs ih =>
    unfold split
    have hne := split_ne_nil sep cs
    by_cases hc : c = sep
    · subst hc
      simp only [if_true]
      cases hsp : split c cs with
      | nil => exact absurd hsp hne
      | cons piece pieces =>
        rw [hsp] at ih
        simp [join, ih]
    · simp only [hc, if_false]
      cases hsp : split sep cs with
      | nil => exact absurd hsp hne
      | cons piece pieces =>
        rw [hsp] at ih
        cases pieces with
        | nil => simpa [join] using ih
        | cons p2 ps => simp [join] at ih ⊢; exact ih

theorem split_pieces_free (sep : Char) (s : QString) :
    ∀ piece ∈ split sep s, sep ∉ piece := by
  induction s with
  | nil => simp [split]
  | cons c cs ih =>
    unfold split
    by_cases hc : c = sep
    · subst hc
      intro piece hp
      simp only [if_true, List.mem_cons] at hp
      rcases hp with rfl | hp
      · simp
      · exact ih piece hp
    · simp only [hc, if_false]
      cases hsp : split sep cs with
      | nil => simp; exact fun h => hc h.symm
      | cons piece pieces =>
        rw [hsp] at ih
        intro q hq
        simp only [List.mem_cons] at hq
        rcases hq with rfl | hq
        · have := ih piece (by simp)
          simp [this]; exact fun h => hc h.symm
        · exact ih q (by simp [hq])

theorem hashFind_removed {β : Type} (key : QString) (h : List (QString × β)) :
    hashFind key (h.filter (fun e => !decide (e.1 = key))) = none := by
  induction h with
  | nil => rfl
  | cons e rest ih =>
    obtain ⟨k, w⟩ := e
    rw [List.filter_cons]
    by_cases hk : k = key
    · simp only [hk, decide_True, Bool.not_true, Bool.false_eq_true, if_false]
      exact ih
    · simp only [hk, decide_False, Bool.not_false, if_true, hashFind, if_false]
      exact ih

/-- C5: for every stored `Dependencies` string, `dependencies()` is the sequence of its maximal
comma-free pieces in order: no piece holds a comma, there is one piece more than there are
commas, and joining the pieces with `,` gives the string back; `"a,b,c"` gives
`["a", "b", "c"]`, and the empty string as well as an unset key (a new component, or any store
with the key taken out) give the one-element sequence `[""]`, not the empty sequence. -/
theorem dependencies_are_comma_pieces (d : ComponentPrivate) :
    (∀ piece ∈ dependencies d, ',' ∉ piece) ∧
    (dependencies d).length = (value d skDependencies).count ',' + 1 ∧
    join ',' (dependencies d) = value d skDependencies ∧
    dependencies (newComponent [(skDependencies, "a,b,c".toList)])
      = ["a".toList, "b".toList, "c".toList] ∧
    dependencies (newComponent [(skDependencies, [])]) = [[]] ∧
    dependencies (newComponent []) = [[]] ∧
    dependencies { d with m_vars := d.m_vars.filter (fun e => !decide (e.1 = skDependencies)) }
      = [[]] :=
  ⟨split_pieces_free ',' _, split_length ',' _, join_split ',' _, by decide, by decide,
    by decide, by
      simp only [dependencies, value, hashValue, hashFind_removed]
      rfl⟩


/-! ## The component tree -/

@[simp] theorem Heap.set_same (h : Heap) (c : Nat) (d : ComponentPrivate) : (h.set c d) c = d := by
  simp [Heap.set]

theorem Heap.set_other (h : Heap) (c a : Nat) (d : ComponentPrivate) (hne : a ≠ c) :
    (h.set c d) a = h a := by
  simp [Heap.set, hne]

theorem parentComponent_eq (h : Heap) (n : Nat) : parentComponent h n = (h n).m_parent := by
  simp [parentComponent]

theorem setParent_m_vars (h : Heap) (p c : Nat) (q : Option Nat) :
    (setParent h p q c).m_vars = (h c).m_vars := by
  by_cases hc : c = p
  · subst hc; simp [setParent]
  · simp [setParent, Heap.set, hc]

theorem setParent_m_parent (h : Heap) (p c : Nat) (q : Option Nat) :
    (setParent h p q c).m_parent = if c = p then q else (h c).m_parent := by
  by_cases hc : c = p
  · subst hc; simp [setParent]
  · simp [setParent, Heap.set, hc]

theorem setParent_m_components (h : Heap) (p c : Nat) (q : Option Nat) :
    (setParent h p q c).m_components = (h c).m_components := by
  by_cases hc : c = p
  · subst hc; simp [setParent]
  · simp [setParent, Heap.set, hc]

theorem setParent_m_virtualComponents (h : Heap) (p c : Nat) (q : Option Nat) :
    (setParent h p q c).m_virtualComponents = (h c).m_virtualComponents := by
  by_cases hc : c = p
  · subst hc; simp [setParent]
  · simp [setParent, Heap.set, hc]

theorem setParent_m_allComponents (h : Heap) (p c : Nat) (q : Option Nat) :
    (setParent h p q c).m_allComponents = (h c).m_allComponents := by
  by_cases hc : c = p
  · subst hc; simp [setParent]
  · simp [setParent, Heap.set, hc]

theorem setChildren_m_vars (h : Heap) (p c : Nat) (a b : List Nat) :
    (setChildren h p a b c).m_vars = (h c).m_vars := by
  by_cases hc : c = p
  · subst hc; simp [setChildren]
  · simp [setChildren, Heap.set, hc]

theorem setChildren_m_parent (h : Heap) (p c : Nat) (a b : List Nat) :
    (setChildren h p a b c).m_parent = (h c).m_parent := by
  by_cases hc : c = p
  · subst hc; simp [setChildren]
  · simp [setChildren, Heap.set, hc]

theorem setChildren_m_components (h : Heap) (p c : Nat) (a b : List Nat) :
    (setChildren h p a b c).m_components = if c = p then a else (h c).m_components := by
  by_cases hc : c = p
  · subst hc; simp [setChildren]
  · simp [setChildren, Heap.set, hc]

theorem setChildren_m_virtualComponents (h : Heap) (p c : Nat) (a b : List Nat) :
    (setChildren h p a b c).m_virtualComponents = if c = p then b else (h c).m_virtualComponents := by
  by_cases hc : c = p
  · subst hc; simp [setChildren]
  · simp [setChildren, Heap.set, hc]

theorem setChildren_m_allComponents (h : Heap) (p c : Nat) (a b : List Nat) :
    (setChildren h p a b c).m_allComponents = if c = p then a ++ b else (h c).m_allComponents := by
  by_cases hc : c = p
  · subst hc; simp [setChildren]
  · simp [setChildren, Heap.set, hc]

theorem setTristate_m_vars (h : Heap) (p c : Nat) (b : Bool) :
    (setTristate h p b c).m_vars = (h c).m_vars := by
  by_cases hc : c = p
  · subst hc; simp [setTristate]
  · simp [setTristate, Heap.set, hc]

theorem setTristate_m_parent (h : Heap) (p c : Nat) (b : Bool) :
    (setTristate h p b c).m_parent = (h c).m_parent := by
  by_cases hc : c = p
  · subst hc; simp [setTristate]
  · simp [setTristate, Heap.set, hc]

theorem setTristate_m_components (h : Heap) (p c : Nat) (b : Bool) :
    (setTristate h p b c).m_components = (h c).m_components := by
  by_cases hc : c = p
  · subst hc; simp [setTristate]
  · simp [setTristate, Heap.set, hc]

theorem setTristate_m_virtualComponents (h : Heap) (p c : Nat) (b : Bool) :
    (setTristate h p b c).m_virtualComponents = (h c).m_virtualComponents := by
  by_cases hc : c = p
  · subst hc; simp [setTristate]
  · simp [setTristate, Heap.set, hc]

theorem setTristate_m_allComponents (h : Heap) (p c : Nat) (b : Bool) :
    (setTristate h p b c).m_allComponents = (h c).m_allComponents := by
  by_cases hc : c = p
  · subst hc; simp [setTristate]
  · simp [setTristate, Heap.set, hc]

theorem removeComponent_m_vars (h : Heap) (p n c : Nat) :
    (removeComponent h p n c).m_vars
      = (h c).m_vars := by
  unfold removeComponent
  rw [parentComponent_eq]
  by_cases hpar : (h n).m_parent = some p
  · rw [if_pos hpar]
    simp only [setChildren_m_vars, setParent_m_vars]
  · rw [if_neg hpar]

theorem removeComponent_m_parent (h : Heap) (p n c : Nat) :
    (removeComponent h p n c).m_parent
      = if (h n).m_parent = some p ∧ c = n then none else (h c).m_parent := by
  unfold removeComponent
  rw [parentComponent_eq]
  by_cases hpar : (h n).m_parent = some p
  · rw [if_pos hpar]
    simp only [setChildren_m_parent, setParent_m_parent, setParent_m_components,
      setParent_m_virtualComponents]
    split_ifs <;> first | rfl | (subst_vars; simp_all)
  · rw [if_neg hpar]
    simp [hpar]

theorem removeComponent_m_components (h : Heap) (p n c : Nat) :
    (removeComponent h p n c).m_components
      = if (h n).m_parent = some p ∧ c = p then removeAll (h c).m_components n
        else (h c).m_components := by
  unfold removeComponent
  rw [parentComponent_eq]
  by_cases hpar : (h n).m_parent = some p
  · rw [if_pos hpar]
    simp only [setChildren_m_components, setParent_m_components, setParent_m_components,
      setParent_m_virtualComponents]
    split_ifs <;> first | rfl | (subst_vars; simp_all)
  · rw [if_neg hpar]
    simp [hpar]

theorem removeComponent_m_virtualComponents (h : Heap) (p n c : Nat) :
    (removeComponent h p n c).m_virtualComponents
      = if (h n).m_parent = some p ∧ c = p then removeAll (h c).m_virtualComponents n
        else (h c).m_virtualComponents := by
  unfold removeComponent
  rw [parentComponent_eq]
  by_cases hpar : (h n).m_parent = some p
  · rw [if_pos hpar]
    simp only [setChildren_m_virtualComponents, setParent_m_virtualComponents, setParent_m_components,
      setParent_m_virtualComponents]
    split_ifs <;> first | rfl | (subst_vars; simp_all)
  · rw [if_neg hpar]
    simp [hpar]

theorem removeComponent_m_allComponents (h : Heap) (p n c : Nat) :
    (removeComponent h p n c).m_allComponents
      = if (h n).m_parent = some p ∧ c = p then
          removeAll (h c).m_components n ++ removeAll (h c).m_virtualComponents n
        else (h c).m_allComponents := by
  unfold removeComponent
  rw [parentComponent_eq]
  by_cases hpar : (h n).m_parent = some p
  · rw [if_pos hpar]
    simp only [setChildren_m_allComponents, setParent_m_allComponents, setParent_m_components,
      setParent_m_virtualComponents]
    split_ifs <;> first | rfl | (subst_vars; simp_all)
  · rw [if_neg hpar]
    simp [hpar]

theorem appendComponent_eq (stdSort : StdSort) (h : Heap) (p n : Nat) :
    appendComponent stdSort h p n
      = setTristate
          (setParent
            (match (h n).m_parent with
              | some q => removeComponent (appendedChildren stdSort h p n) q n
              | none => appendedChildren stdSort h p n) n (some p)) p
          (decide (childCount
            (setParent
              (match (h n).m_parent with
                | some q => removeComponent (appendedChildren stdSort h p n) q n
                | none => appendedChildren stdSort h p n) n (some p)) p > 0)) := by
  unfold appendComponent appendedChildren
  by_cases hv : isVirtual (h n) = true
  · simp only [hv, ne_eq, not_true_eq_false, if_false, if_true, parentComponent_eq,
      setChildren_m_parent]
  · have hv2 : isVirtual (h n) = false := by simpa using hv
    simp [hv2, parentComponent_eq, setChildren_m_parent]

theorem appendComponent_m_vars (stdSort : StdSort) (h : Heap) (p n c : Nat) :
    (appendComponent stdSort h p n c).m_vars = (h c).m_vars := by
  rw [appendComponent_eq, setTristate_m_vars, setParent_m_vars]
  cases (h n).m_parent with
  | none => simp only [appendedChildren, setChildren_m_vars]
  | some q => simp only [removeComponent_m_vars, appendedChildren, setChildren_m_vars]

theorem appendComponent_m_parent (stdSort : StdSort) (h : Heap) (p n c : Nat) :
    (appendComponent stdSort h p n c).m_parent
      = if c = n then some p else (h c).m_parent := by
  rw [appendComponent_eq, setTristate_m_parent, setParent_m_parent]
  cases (h n).m_parent with
  | none => simp only [appendedChildren, setChildren_m_parent]
  | some q =>
    simp only [removeComponent_m_parent, appendedChildren, setChildren_m_parent]
    by_cases hcn : c = n
    · simp [hcn]
    · simp [hcn]

theorem appendComponent_m_components (stdSort : StdSort) (h : Heap) (p n c : Nat)
    (hadm : (h n).m_parent ≠ some p) :
    (appendComponent stdSort h p n c).m_components
      = if c = p then
          (if isVirtual (h n) = true then (h p).m_components
           else stdSort (SortingPriorityLessThan h) ((h p).m_components ++ [n]))
        else if (h n).m_parent = some c then removeAll (h c).m_components n
        else (h c).m_components := by
  rw [appendComponent_eq, setTristate_m_components, setParent_m_components]
  cases hpar : (h n).m_parent with
  | none =>
    simp only [appendedChildren, setChildren_m_components]
    split_ifs <;> first | rfl | contradiction
  | some q =>
    simp only [removeComponent_m_components, appendedChildren, setChildren_m_components, setChildren_m_parent,
      setChildren_m_components, setChildren_m_virtualComponents, hpar]
    have hqp : q ≠ p := fun e => hadm (by rw [hpar, e])
    by_cases hcp : c = p
    · subst hcp
      have hqc : ¬ c = q := fun e => hqp e.symm
      simp [hqc, hqp]
    · by_cases hqc : q = c
      · subst hqc; simp [hcp]
      · have hcq : ¬ c = q := fun e => hqc e.symm
        simp [hcp, hqc, hcq]

theorem appendComponent_m_virtualComponents (stdSort : StdSort) (h : Heap) (p n c : Nat)
    (hadm : (h n).m_parent ≠ some p) :
    (appendComponent stdSort h p n c).m_virtualComponents
      = if c = p then
          (if isVirtual (h n) = true then (h p).m_virtualComponents ++ [n]
           else (h p).m_virtualComponents)
        else if (h n).m_parent = some c then removeAll (h c).m_virtualComponents n
        else (h c).m_virtualComponents := by
  rw [appendComponent_eq, setTristate_m_virtualComponents, setParent_m_virtualComponents]
  cases hpar : (h n).m_parent with
  | none =>
    simp only [appendedChildren, setChildren_m_virtualComponents]
    split_ifs <;> first | rfl | contradiction
  | some q =>
    simp only [removeComponent_m_virtualComponents, appendedChildren, setChildren_m_virtualComponents, setChildren_m_parent,
      setChildren_m_components, setChildren_m_virtualComponents, hpar]
    have hqp : q ≠ p := fun e => hadm (by rw [hpar, e])
    by_cases hcp : c = p
    · subst hcp
      have hqc : ¬ c = q := fun e => hqp e.symm
      simp [hqc, hqp]
    · by_cases hqc : q = c
      · subst hqc; simp [hcp]
      · have hcq : ¬ c = q := fun e => hqc e.symm
        simp [hcp, hqc, hcq]

theorem appendComponent_m_allComponents (stdSort : StdSort) (h : Heap) (p n c : Nat)
    (hadm : (h n).m_parent ≠ some p) :
    (appendComponent stdSort h p n c).m_allComponents
      = if c = p then
          (if isVirtual (h n) = true then (h p).m_components
           else stdSort (SortingPriorityLessThan h) ((h p).m_components ++ [n]))
          ++ (if isVirtual (h n) = true then (h p).m_virtualComponents ++ [n]
           else (h p).m_virtualComponents)
        else if (h n).m_parent = some c then
          removeAll (h c).m_components n ++ removeAll (h c).m_virtualComponents n
        else (h c).m_allComponents := by
  rw [appendComponent_eq, setTristate_m_allComponents, setParent_m_allComponents]
  cases hpar : (h n).m_parent with
  | none =>
    simp only [appendedChildren, setChildren_m_allComponents]
    split_ifs <;> first | rfl | contradiction
  | some q =>
    simp only [removeComponent_m_allComponents, appendedChildren, setChildren_m_allComponents, setChildren_m_parent,
      setChildren_m_components, setChildren_m_virtualComponents, hpar]
    have hqp : q ≠ p := fun e => hadm (by rw [hpar, e])
    by_cases hcp : c = p
    · subst hcp
      have hqc : ¬ c = q := fun e => hqp e.symm
      simp [hqc, hqp]
    · by_cases hqc : q = c
      · subst hqc; simp [hcp]
      · have hcq : ¬ c = q := fun e => hqc e.symm
        simp [hcp, hqc, hcq]


theorem mem_removeAll (l : List Nat) (n a : Nat) : a ∈ removeAll l n ↔ a ∈ l ∧ a ≠ n := by
  simp [removeAll]

theorem removeAll_of_not_mem (l : List Nat) (n : Nat) (hn : n ∉ l) : removeAll l n = l := by
  unfold removeAll
  rw [List.filter_eq_self]
  intro a ha
  have : a ≠ n := fun e => hn (e ▸ ha)
  simpa using this

theorem removeAll_filter (l : List Nat) (n : Nat) (f : Nat → Bool) :
    removeAll (l.filter f) n = (removeAll l n).filter f := by
  unfold removeAll
  rw [List.filter_comm]

theorem isVirtual_congr (d e : ComponentPrivate) (hv : d.m_vars = e.m_vars) :
    isVirtual d = isVirtual e := by
  simp [isVirtual, value, hv]

theorem sortingPriority_congr (d e : ComponentPrivate) (hv : d.m_vars = e.m_vars) :
    sortingPriority d = sortingPriority e := by
  simp [sortingPriority, value, hv]

theorem TreeInv.remove {h : Heap} {g : Nat → List Nat} (inv : TreeInv h g) (p n : Nat) :
    TreeInv (removeComponent h p n) (insertionOrder g (Call.removeComponent p n)) := by
  have hvirt : ∀ c, isVirtual (removeComponent h p n c) = isVirtual (h c) :=
    fun c => isVirtual_congr _ _ (removeComponent_m_vars h p n c)
  have hprio : ∀ c, sortingPriority (removeComponent h p n c) = sortingPriority (h c) :=
    fun c => sortingPriority_congr _ _ (removeComponent_m_vars h p n c)
  by_cases hpar : (h n).m_parent = some p
  · refine ⟨?_, ?_, ?_, ?_, ?_⟩
    · intro c
      rw [removeComponent_m_allComponents, removeComponent_m_components,
        removeComponent_m_virtualComponents]
      split_ifs
      · rfl
      · exact inv.all c
    · intro c
      rw [removeComponent_m_virtualComponents]
      simp only [hvirt, insertionOrder]
      split_ifs with h1 h2 h2
      · rw [inv.virt c, removeAll_filter]
      · exact absurd h1.2 h2
      · exact absurd ⟨hpar, h2⟩ h1
      · exact inv.virt c
    · intro c
      rw [removeComponent_m_components]
      simp only [hvirt, insertionOrder]
      split_ifs with h1 h2 h2
      · rw [← removeAll_filter]
        exact (inv.real c).filter _
      · exact absurd h1.2 h2
      · exact absurd ⟨hpar, h2⟩ h1
      · exact inv.real c
    · intro c
      rw [removeComponent_m_components]
      simp only [hprio]
      split_ifs
      · exact (inv.sorted c).filter _
      · exact inv.sorted c
    · intro c a
      rw [removeComponent_m_parent]
      simp only [insertionOrder]
      by_cases han : a = n
      · subst han
        by_cases hcp : c = p
        · subst hcp; simp [hpar, mem_removeAll]
        · have : ¬ (h a).m_parent = some c := by
            rw [hpar]; intro e; exact hcp (Option.some.inj e).symm
          have hpc : ¬ p = c := fun e => hcp e.symm
          simp [hpar, hcp, hpc, inv.parent c a]
      · by_cases hcp : c = p
        · subst hcp; simp [han, mem_removeAll, inv.parent c a]
        · simp [han, hcp, inv.parent c a]
  · have hnot : n ∉ g p := fun hm => hpar ((inv.parent p n).1 hm)
    have hh : removeComponent h p n = h := by
      unfold removeComponent
      rw [parentComponent_eq, if_neg hpar]
    have hg : insertionOrder g (Call.removeComponent p n) = g := by
      funext c
      simp only [insertionOrder]
      split_ifs with hc
      · subst hc; exact removeAll_of_not_mem _ _ hnot
      · rfl
    rw [hh, hg]
    exact inv


theorem TreeInv.append {stdSort : StdSort} (hs : StdSortContract stdSort) {h : Heap}
    {g : Nat → List Nat} (inv : TreeInv h g) (p n : Nat) (hadm : (h n).m_parent ≠ some p) :
    TreeInv (appendComponent stdSort h p n) (insertionOrder g (Call.appendComponent p n)) := by
  have hvirt : ∀ c, isVirtual (appendComponent stdSort h p n c) = isVirtual (h c) :=
    fun c => isVirtual_congr _ _ (appendComponent_m_vars stdSort h p n c)
  have hprio : ∀ c, sortingPriority (appendComponent stdSort h p n c) = sortingPriority (h c) :=
    fun c => sortingPriority_congr _ _ (appendComponent_m_vars stdSort h p n c)
  have hnot : n ∉ g p := fun hm => hadm ((inv.parent p n).1 hm)
  have hgp : removeAll (g p) n = g p := removeAll_of_not_mem _ _ hnot
  have hother : ∀ c, (h n).m_parent ≠ some c → removeAll (g c) n = g c :=
    fun c hc => removeAll_of_not_mem _ _ (fun hm => hc ((inv.parent c n).1 hm))
  have hperm := hs.perm (fun a => sortingPriority (h a)) ((h p).m_components ++ [n])
  have hsorted := hs.sorted (fun a => sortingPriority (h a)) ((h p).m_components ++ [n])
  refine ⟨?_, ?_, ?_, ?_, ?_⟩
  · intro c
    rw [appendComponent_m_allComponents _ _ _ _ _ hadm,
      appendComponent_m_components _ _ _ _ _ hadm,
      appendComponent_m_virtualComponents _ _ _ _ _ hadm]
    split_ifs
    all_goals first | rfl | exact inv.all c
  · intro c
    rw [appendComponent_m_virtualComponents _ _ _ _ _ hadm]
    simp only [hvirt, insertionOrder]
    by_cases hcp : c = p
    · subst hcp
      rw [if_pos rfl, if_pos rfl, hgp, List.filter_append, ← inv.virt c]
      by_cases hv : isVirtual (h n) = true
      · simp [hv]
      · simp [hv]
    · rw [if_neg hcp, if_neg hcp]
      by_cases hpar : (h n).m_parent = some c
      · rw [if_pos hpar, inv.virt c, removeAll_filter]
      · rw [if_neg hpar, hother c hpar]
        exact inv.virt c
  · intro c
    rw [appendComponent_m_components _ _ _ _ _ hadm]
    simp only [hvirt, insertionOrder]
    by_cases hcp : c = p
    · subst hcp
      rw [if_pos rfl, if_pos rfl, hgp, List.filter_append]
      by_cases hv : isVirtual (h n) = true
      · simpa [hv] using inv.real c
      · have hv2 : isVirtual (h n) = false := by simpa using hv
        rw [if_neg hv]
        refine List.Perm.trans hperm ?_
        simpa [hv2] using (inv.real c).append_right [n]
    · rw [if_neg hcp, if_neg hcp]
      by_cases hpar : (h n).m_parent = some c
      · rw [if_pos hpar, ← removeAll_filter]
        exact (inv.real c).filter _
      · rw [if_neg hpar, hother c hpar]
        exact inv.real c
  · intro c
    rw [appendComponent_m_components _ _ _ _ _ hadm]
    simp only [hprio]
    split_ifs
    · exact inv.sorted p
    · exact hsorted
    · exact (inv.sorted c).filter _
    · exact inv.sorted c
  · intro c a
    rw [appendComponent_m_parent]
    simp only [insertionOrder]
    by_cases han : a = n
    · subst han
      by_cases hcp : c = p
      · subst hcp; simp
      · have hpc : ¬ p = c := fun e => hcp e.symm
        simp [hcp, hpc, mem_removeAll]
    · by_cases hcp : c = p
      · subst hcp; simp [han, mem_removeAll, inv.parent c a]
      · simp [han, hcp, mem_removeAll, inv.parent c a]

theorem TreeInv.setValue {h : Heap} {g : Nat → List Nat} (inv : TreeInv h g)
    (c : Nat) (key v : QString)
    (hadm : (h c).m_parent = none ∨ (key ≠ skVirtual ∧ key ≠ skSortingPriority)) :
    TreeInv (h.set c (setValue (h c) key v).1) g := by
  have hfield : ∀ a, (h.set c (QInstaller.setValue (h c) key v).1 a).m_parent = (h a).m_parent
      ∧ (h.set c (QInstaller.setValue (h c) key v).1 a).m_components = (h a).m_components
      ∧ (h.set c (QInstaller.setValue (h c) key v).1 a).m_virtualComponents
          = (h a).m_virtualComponents
      ∧ (h.set c (QInstaller.setValue (h c) key v).1 a).m_allComponents
          = (h a).m_allComponents := by
    intro a
    by_cases hac : a = c
    · subst hac
      simp only [Heap.set_same, QInstaller.setValue]
      split_ifs <;> simp
    · simp [Heap.set_other _ _ _ _ hac]
  have hkeep : ∀ q a, a ∈ g q →
      isVirtual (h.set c (QInstaller.setValue (h c) key v).1 a) = isVirtual (h a)
      ∧ sortingPriority (h.set c (QInstaller.setValue (h c) key v).1 a)
          = sortingPriority (h a) := by
    intro q a ha
    by_cases hac : a = c
    · subst hac
      have hpar := (inv.parent q a).1 ha
      rcases hadm with hnone | ⟨hk1, hk2⟩
      · rw [hpar] at hnone; exact absurd hnone (by simp)
      · simp only [Heap.set_same, isVirtual, sortingPriority]
        rw [value_setValue_other _ _ _ _ (Ne.symm hk1), value_setValue_other _ _ _ _ (Ne.symm hk2)]
        exact ⟨rfl, rfl⟩
    · simp [Heap.set_other _ _ _ _ hac]
  have hmem : ∀ q a, a ∈ (h q).m_components → a ∈ g q := by
    intro q a ha
    have := ((inv.real q).mem_iff).1 ha
    exact (List.mem_filter.1 this).1
  refine ⟨?_, ?_, ?_, ?_, ?_⟩
  · intro q
    rw [(hfield q).2.2.2, (hfield q).2.1, (hfield q).2.2.1]
    exact inv.all q
  · intro q
    rw [(hfield q).2.2.1, inv.virt q]
    apply List.filter_congr
    intro a ha
    exact ((hkeep q a ha).1).symm
  · intro q
    rw [(hfield q).2.1]
    have : (g q).filter (fun n => !isVirtual (h.set c (QInstaller.setValue (h c) key v).1 n))
        = (g q).filter (fun n => !isVirtual (h n)) := by
      apply List.filter_congr
      intro a ha
      rw [(hkeep q a ha).1]
    rw [this]
    exact inv.real q
  · intro q
    rw [(hfield q).2.1]
    refine List.Pairwise.imp_of_mem ?_ (inv.sorted q)
    intro a b ha hb hab
    rw [(hkeep q a (hmem q a ha)).2, (hkeep q b (hmem q b hb)).2]
    exact hab
  · intro q a
    rw [(hfield a).1]
    exact inv.parent q a


theorem linearInsert_perm (lt : Nat → Nat → Bool) (x : Nat) (l : List Nat) :
    (linearInsert lt x l).Perm (x :: l) := by
  induction l with
  | nil => simp [linearInsert]
  | cons y ys ih =>
    unfold linearInsert
    split
    · exact List.Perm.refl _
    · exact (List.Perm.cons y ih).trans (List.Perm.swap x y ys)

theorem linearInsert_sorted (key : Nat → Int) (x : Nat) (l : List Nat)
    (hl : l.Pairwise (fun a b => key a ≤ key b)) :
    (linearInsert (fun a b => decide (key a < key b)) x l).Pairwise
      (fun a b => key a ≤ key b) := by
  induction l with
  | nil => simp [linearInsert]
  | cons y ys ih =>
    unfold linearInsert
    rw [List.pairwise_cons] at hl
    by_cases hxy : key x < key y
    · simp only [hxy, decide_True, if_true]
      refine List.Pairwise.cons ?_ (List.Pairwise.cons hl.1 hl.2)
      intro b hb
      rcases List.mem_cons.1 hb with rfl | hb
      · exact le_of_lt hxy
      · exact le_trans (le_of_lt hxy) (hl.1 b hb)
    · simp only [hxy, decide_False, if_false, Bool.false_eq_true]
      refine List.Pairwise.cons ?_ (ih hl.2)
      intro b hb
      have hb2 := (linearInsert_perm (fun a b => decide (key a < key b)) x ys).mem_iff.1 hb
      rcases List.mem_cons.1 hb2 with rfl | hb2
      · exact not_lt.1 hxy
      · exact hl.1 b hb2

theorem insertionSort_contract : StdSortContract insertionSort := by
  have hfold : ∀ (lt : Nat → Nat → Bool) (l acc : List Nat),
      (l.foldl (fun sorted x => linearInsert lt x sorted) acc).Perm (acc ++ l) := by
    intro lt l
    induction l with
    | nil => intro acc; simp
    | cons x xs ih =>
      intro acc
      simp only [List.foldl_cons]
      refine (ih _).trans ?_
      have h1 : (linearInsert lt x acc ++ xs).Perm ((x :: acc) ++ xs) :=
        (linearInsert_perm lt x acc).append_right xs
      refine h1.trans ?_
      simpa using (@List.perm_middle _ x acc xs).symm
  have hsorted : ∀ (key : Nat → Int) (l acc : List Nat),
      acc.Pairwise (fun a b => key a ≤ key b) →
      (l.foldl (fun sorted x => linearInsert (fun a b => decide (key a < key b)) x sorted)
        acc).Pairwise (fun a b => key a ≤ key b) := by
    intro key l
    induction l with
    | nil => intro acc hacc; simpa using hacc
    | cons x xs ih =>
      intro acc hacc
      simp only [List.foldl_cons]
      exact ih _ (linearInsert_sorted key x acc hacc)
  constructor
  · intro key l
    simpa [insertionSort] using hfold (fun a b => decide (key a < key b)) l []
  · intro key l
    exact hsorted key l [] List.Pairwise.nil

theorem TreeInv.exec {stdSort : StdSort} (hs : StdSortContract stdSort) {h : Heap}
    {g : Nat → List Nat} (inv : TreeInv h g) (call : Call)
    (hadm : callAdmissible h call = true) :
    TreeInv (exec stdSort h call) (insertionOrder g call) := by
  cases call with
  | appendComponent p n =>
    exact inv.append hs p n (by simpa [callAdmissible] using hadm)
  | removeComponent p n => exact inv.remove p n
  | setValue c key v =>
    have : insertionOrder g (Call.setValue c key v) = g := by
      funext q; rfl
    rw [this]
    exact inv.setValue c key v (by simpa [callAdmissible] using hadm)

theorem TreeInv.run {stdSort : StdSort} (hs : StdSortContract stdSort) (calls : List Call) :
    ∀ (h : Heap) (g : Nat → List Nat), TreeInv h g → admissible stdSort h calls = true →
      TreeInv (run stdSort h calls) (calls.foldl insertionOrder g) := by
  induction calls with
  | nil => intro h g inv _; exact inv
  | cons call calls ih =>
    intro h g inv hadm
    simp only [admissible, Bool.and_eq_true] at hadm
    exact ih _ _ (inv.exec hs call hadm.1) hadm.2


theorem reversingSort_contract : StdSortContract reversingSort := by
  constructor
  · intro key l
    exact (insertionSort_contract.perm key l.reverse).trans (List.reverse_perm l)
  · intro key l
    exact insertionSort_contract.sorted key l.reverse

theorem TreeInv.new (h0 : Heap)
    (hnew : ∀ c, (h0 c).m_parent = none ∧ (h0 c).m_components = [] ∧
      (h0 c).m_virtualComponents = [] ∧ (h0 c).m_allComponents = []) :
    TreeInv h0 (fun _ => []) := by
  refine ⟨?_, ?_, ?_, ?_, ?_⟩
  · intro p; simp [(hnew p).2.1, (hnew p).2.2.1, (hnew p).2.2.2]
  · intro p; simp [(hnew p).2.2.1]
  · intro p; simp [(hnew p).2.1]
  · intro p; simp [(hnew p).2.1]
  · intro p n; simp [(hnew n).1]

/-- C1 (as stated, refuted): components 1 and 2 are given the priorities 1 and 2 and appended to
component 0, then `setValue` raises the priority of component 1 to 3. Both are non-virtual
children of 0 and `childComponents(false)` of 0 is still `[1, 2]`, which is not in ascending
priority order (3 before 2): a child sequence is sorted when a child is appended, not when a
priority is set. And with a `std::sort` that, as the C++ standard allows, does not keep
equivalent elements in their order, two children of equal priority appended as 1 then 2 are
returned as `[2, 1]`. -/
theorem childComponents_unsorted_after_setValue :
    (childComponents (run insertionSort newComponents reprioritised) 0 0 false RunMode.AllMode
        = some [1, 2] ∧
      (∀ n ∈ [1, 2],
        isVirtual (run insertionSort newComponents reprioritised n) = false ∧
        (run insertionSort newComponents reprioritised n).m_parent = some 0) ∧
      sortingPriority (run insertionSort newComponents reprioritised 1) = 3 ∧
      sortingPriority (run insertionSort newComponents reprioritised 2) = 2) ∧
    (StdSortContract reversingSort ∧
      childComponents
        (run reversingSort newComponents [Call.appendComponent 0 1, Call.appendComponent 0 2])
        0 0 false RunMode.AllMode = some [2, 1] ∧
      sortingPriority (newComponents 1) = sortingPriority (newComponents 2)) :=
  ⟨⟨by decide, by decide, by decide, by decide⟩, reversingSort_contract, by decide, by decide⟩

/-- C1 (amended): start from new components (no parent, no children) and make any sequence of
`appendComponent`, `removeComponent` and `setValue` calls in which no component is appended to
the parent it already has and `Virtual` and `SortingPriority` are not set on a component that
has a parent. Then for every component `p`, with `std::sort` any routine that meets its contract:
`childComponents(false)` is the real-children sequence followed by the virtual children of `p`
in insertion order; the real-children sequence holds exactly the non-virtual children of `p`,
in non-descending order of the integer `SortingPriority` (the order among children of equal
priority is the one `std::sort` leaves); and the children of `p` are the components whose
parent is `p`. -/
theorem childComponents_real_sorted_then_virtual (stdSort : StdSort)
    (hs : StdSortContract stdSort) (h0 : Heap)
    (hnew : ∀ c, (h0 c).m_parent = none ∧ (h0 c).m_components = [] ∧
      (h0 c).m_virtualComponents = [] ∧ (h0 c).m_allComponents = [])
    (calls : List Call) (hadm : admissible stdSort h0 calls = true) (p fuel : Nat) :
    childComponents (run stdSort h0 calls) fuel p false RunMode.AllMode
      = some ((run stdSort h0 calls p).m_components
          ++ (childrenInInsertionOrder calls p).filter
              (fun n => isVirtual (run stdSort h0 calls n))) ∧
    (run stdSort h0 calls p).m_components.Perm
      ((childrenInInsertionOrder calls p).filter
        (fun n => !isVirtual (run stdSort h0 calls n))) ∧
    (run stdSort h0 calls p).m_components.Pairwise
      (fun a b => sortingPriority (run stdSort h0 calls a)
        ≤ sortingPriority (run stdSort h0 calls b)) ∧
    (∀ n, n ∈ childrenInInsertionOrder calls p ↔ (run stdSort h0 calls n).m_parent = some p) := by
  have inv := TreeInv.run hs calls h0 (fun _ => []) (TreeInv.new h0 hnew) hadm
  refine ⟨?_, inv.real p, inv.sorted p, inv.parent p⟩
  have hchild : childComponents (run stdSort h0 calls) fuel p false RunMode.AllMode
      = some (run stdSort h0 calls p).m_allComponents := by
    cases fuel <;> rfl
  rw [hchild, inv.all p, inv.virt p]
  rfl

/-- C1 (amended), on an input: in the small tree the children of component 0 were appended as
1 (priority 7), 3 (virtual), 2 (priority 5), and `childComponents(false)` is `[2, 1, 3]`. -/
theorem childComponents_real_sorted_then_virtual_witness :
    admissible insertionSort newComponents smallTree = true ∧
    childrenInInsertionOrder smallTree 0 = [1, 3, 2] ∧
    childComponents (run insertionSort newComponents smallTree) 0 0 false RunMode.AllMode
      = some [2, 1, 3] ∧
    childComponents (run insertionSort newComponents smallTree) 0 0 false RunMode.AllMode
      = some ((run insertionSort newComponents smallTree 0).m_components
          ++ (childrenInInsertionOrder smallTree 0).filter
              (fun n => isVirtual (run insertionSort newComponents smallTree n))) :=
  ⟨by decide, by decide, by decide,
    (childComponents_real_sorted_then_virtual insertionSort insertionSort_contract newComponents
      (fun _ => ⟨rfl, rfl, rfl, rfl⟩) smallTree (by decide) 0 0).1⟩

/-- C2 (the code at the failing input): component 1 is appended to component 0 twice. After
the second call its parent is 0, but it occurs in none of the child sequences of 0:
`appendComponent` first inserts the component and then removes it from its previous parent,
which here is the new parent, so `removeAll` takes out the entry just inserted as well. -/
theorem appendComponent_to_current_parent_loses_child :
    (run insertionSort newComponents [Call.appendComponent 0 1] 1).m_parent = some 0 ∧
    childComponents (run insertionSort newComponents [Call.appendComponent 0 1]) 0 0 false
      RunMode.AllMode = some [1] ∧
    (appendComponent insertionSort
      (run insertionSort newComponents [Call.appendComponent 0 1]) 0 1 1).m_parent = some 0 ∧
    childComponents
      (appendComponent insertionSort
        (run insertionSort newComponents [Call.appendComponent 0 1]) 0 1)
      0 0 false RunMode.AllMode = some [] ∧
    (appendComponent insertionSort
      (run insertionSort newComponents [Call.appendComponent 0 1]) 0 1 0).m_components = [] ∧
    (appendComponent insertionSort
      (run insertionSort newComponents [Call.appendComponent 0 1]) 0 1 0).m_virtualComponents
      = [] := by
  decide


theorem eq_of_perm_of_sorted_of_strict (key : Nat → Int) :
    ∀ (l₂ l₁ : List Nat), l₁.Perm l₂ → l₁.Pairwise (fun a b => key a ≤ key b) →
      l₂.Pairwise (fun a b => key a < key b) → l₁ = l₂ := by
  intro l₂
  induction l₂ with
  | nil => intro l₁ hp _ _; exact hp.eq_nil
  | cons y ys ih =>
    intro l₁ hp h1 h2
    cases l₁ with
    | nil => exact absurd hp.symm.eq_nil (by simp)
    | cons x xs =>
      rw [List.pairwise_cons] at h1 h2
      have hx : x ∈ y :: ys := hp.mem_iff.1 (List.mem_cons_self x xs)
      have hy : y ∈ x :: xs := hp.mem_iff.2 (List.mem_cons_self y ys)
      have hxy : x = y := by
        rcases List.mem_cons.1 hx with hx | hx
        · exact hx
        · rcases List.mem_cons.1 hy with hy | hy
          · exact hy.symm
          · have hlt := h2.1 x hx
            have hle := h1.1 y hy
            exact absurd hlt (not_lt.2 hle)
      subst hxy
      rw [ih xs (List.Perm.cons_inv hp) h1.2 h2.2]

theorem removeAll_append_self (l : List Nat) (n : Nat) (hn : n ∉ l) :
    removeAll (l ++ [n]) n = l := by
  have := removeAll_of_not_mem l n hn
  unfold removeAll at this ⊢
  rw [List.filter_append, this]
  simp

/-- C3 (as stated, refuted): the round trip fails when the component is already a child of the
parent (component 1 is the only child of 0; after append and remove of 1 the sequence is empty),
when the real children are not in priority order (the children `[1, 2]` of 0 have the
priorities 3 and 2; appending and removing component 3 leaves `[2, 1]`), and, with a
`std::sort` that does not keep equivalent elements in their order, when two children have equal
priority. -/
theorem append_then_remove_changes_children :
    (childComponents (run insertionSort newComponents [Call.appendComponent 0 1]) 0 0 false
        RunMode.AllMode = some [1] ∧
      childComponents
        (removeComponent
          (appendComponent insertionSort
            (run insertionSort newComponents [Call.appendComponent 0 1]) 0 1) 0 1)
        0 0 false RunMode.AllMode = some []) ∧
    (childComponents (run insertionSort newComponents reprioritised) 0 0 false RunMode.AllMode
        = some [1, 2] ∧
      (run insertionSort newComponents reprioritised 3).m_parent = none ∧
      childComponents
        (removeComponent
          (appendComponent insertionSort (run insertionSort newComponents reprioritised) 0 3)
          0 3)
        0 0 false RunMode.AllMode = some [2, 1]) ∧
    (StdSortContract reversingSort ∧
      childComponents
        (run reversingSort newComponents [Call.appendComponent 0 1, Call.appendComponent 0 2])
        0 0 false RunMode.AllMode = some [2, 1] ∧
      childComponents
        (removeComponent
          (appendComponent reversingSort
            (run reversingSort newComponents
              [Call.appendComponent 0 1, Call.appendComponent 0 2]) 0 3) 0 3)
        0 0 false RunMode.AllMode = some [1, 2]) :=
  ⟨⟨by decide, by decide⟩, ⟨by decide, by decide, by decide⟩,
    reversingSort_contract, by decide, by decide⟩

/-- C3 (amended): let `n` not be a child of `p` (its parent is not `p` and it is in neither
child sequence of `p`), let the combined sequence of `p` be its real children followed by its
virtual children, and let the real children of `p` be in strictly ascending `SortingPriority`
order. Then, with `std::sort` any routine that meets its contract, `p.appendComponent(n)`
followed by `p.removeComponent(n)` leaves `p.childComponents(false)` equal to the sequence it
was before the append. -/
theorem append_then_remove_restores_children (stdSort : StdSort)
    (hs : StdSortContract stdSort) (h : Heap) (p n fuel : Nat)
    (hpar : (h n).m_parent ≠ some p)
    (hreal : n ∉ (h p).m_components) (hvirt : n ∉ (h p).m_virtualComponents)
    (hall : (h p).m_allComponents = (h p).m_components ++ (h p).m_virtualComponents)
    (hsorted : (h p).m_components.Pairwise
      (fun a b => sortingPriority (h a) < sortingPriority (h b))) :
    childComponents (removeComponent (appendComponent stdSort h p n) p n) fuel p false
        RunMode.AllMode
      = childComponents h fuel p false RunMode.AllMode := by
  have hchild : ∀ k : Heap, childComponents k fuel p false RunMode.AllMode
      = some (k p).m_allComponents := by
    intro k; cases fuel <;> rfl
  rw [hchild, hchild, removeComponent_m_allComponents, appendComponent_m_parent,
    appendComponent_m_components _ _ _ _ _ hpar,
    appendComponent_m_virtualComponents _ _ _ _ _ hpar, hall]
  simp only [if_true, and_self]
  by_cases hv : isVirtual (h n) = true
  · rw [if_pos hv, if_pos hv, removeAll_of_not_mem _ _ hreal, removeAll_append_self _ _ hvirt]
  · rw [if_neg hv, if_neg hv, removeAll_of_not_mem _ _ hvirt]
    have hperm := hs.perm (fun a => sortingPriority (h a)) ((h p).m_components ++ [n])
    have hsort := hs.sorted (fun a => sortingPriority (h a)) ((h p).m_components ++ [n])
    have h1 : (removeAll (stdSort (SortingPriorityLessThan h) ((h p).m_components ++ [n])) n).Perm
        (h p).m_components := by
      have := hperm.filter (fun c => decide (c ≠ n))
      have h2 := removeAll_append_self _ _ hreal
      unfold removeAll at h2 ⊢
      rw [h2] at this
      exact this
    have h3 : (removeAll (stdSort (SortingPriorityLessThan h) ((h p).m_components ++ [n]))
        n).Pairwise (fun a b => sortingPriority (h a) ≤ sortingPriority (h b)) :=
      hsort.filter _
    rw [eq_of_perm_of_sorted_of_strict (fun a => sortingPriority (h a)) _ _ h1 h3 hsorted]

/-- C3 (amended), on an input: appending component 5 to component 0 of the small tree and
removing it again leaves the children `[2, 1, 3]`. -/
theorem append_then_remove_restores_children_witness :
    childComponents
        (removeComponent
          (appendComponent insertionSort (run insertionSort newComponents smallTree) 0 5) 0 5)
        0 0 false RunMode.AllMode = some [2, 1, 3] ∧
    childComponents
        (removeComponent
          (appendComponent insertionSort (run insertionSort newComponents smallTree) 0 5) 0 5)
        0 0 false RunMode.AllMode
      = childComponents (run insertionSort newComponents smallTree) 0 0 false RunMode.AllMode :=
  ⟨by decide,
    append_then_remove_restores_children insertionSort insertionSort_contract
      (run insertionSort newComponents smallTree) 0 5 0 (by decide) (by decide) (by decide)
      (by decide) (by decide)⟩


/-! ## The operation compiler: elevation and the compile-once guard -/

theorem configureOperation_admin (env : Environment) (op : UpdateOperation)
    (parameters : List (Option QString)) :
    (configureOperation env op parameters).value "admin".toList = op.value "admin".toList := by
  unfold configureOperation
  by_cases hdel : op.name = "Delete".toList
  · simp only [hdel, if_true, UpdateOperation.value, UpdateOperation.setValue]
    rw [hashFind_hashInsert_other _ _ _ _ (by decide),
      hashFind_hashInsert_other _ _ _ _ (by decide)]
  · simp only [hdel, if_false, UpdateOperation.value, UpdateOperation.setValue]
    rw [hashFind_hashInsert_other _ _ _ _ (by decide)]

/-- C6: for every operation `op` the factory creates for a registered type, with no `admin`
value set on it: `addOperation(type, args)` returns true and appends exactly one operation at the
end of the list, which is elevated (`admin` = true) when the privilege-separation client is
active and has `admin` not set (not elevated) when it is inactive; `addElevatedOperation(type,
args)` returns true and appends exactly one operation at the end, elevated in both cases. -/
theorem addOperation_elevation (env : Environment) (d : ComponentPrivate) (type : QString)
    (parameters : List (Option QString)) (op : UpdateOperation)
    (hregistered : env.create type = some op)
    (hfresh : op.value "admin".toList = none) :
    (addOperationOfType env d type parameters
        = (true, { d with operations := d.operations
            ++ [some (markAdmin env (configureOperation env op parameters))] }) ∧
      (markAdmin env (configureOperation env op parameters)).elevated = env.isActive ∧
      (markAdmin env (configureOperation env op parameters)).value "admin".toList
        = (if env.isActive then some (QVariant.bool true) else none)) ∧
    (addElevatedOperationOfType env d type parameters
        = (true, { d with operations := d.operations
            ++ [some ((markAdmin env (configureOperation env op parameters)).setValue
                  "admin".toList (QVariant.bool true))] }) ∧
      ((markAdmin env (configureOperation env op parameters)).setValue
          "admin".toList (QVariant.bool true)).elevated = true) := by
  have hadmin := configureOperation_admin env op parameters
  rw [hfresh] at hadmin
  have hvalue : (markAdmin env (configureOperation env op parameters)).value "admin".toList
      = (if env.isActive then some (QVariant.bool true) else none) := by
    unfold markAdmin
    by_cases hact : env.isActive = true
    · simp only [hact, if_true, UpdateOperation.value, UpdateOperation.setValue]
      exact hashFind_hashInsert_self _ _ _
    · simp only [hact, if_false]
      exact hadmin
  refine ⟨⟨?_, ?_, hvalue⟩, ?_, ?_⟩
  · simp [addOperationOfType, createOperation, hregistered, addOperation]
  · unfold UpdateOperation.elevated
    rw [hvalue]
    by_cases hact : env.isActive = true
    · simp [hact]
    · have hact2 : env.isActive = false := by simpa using hact
      simp [hact2]
  · simp [addElevatedOperationOfType, createOperation, hregistered, addElevatedOperation]
  · have hset : ∀ o : UpdateOperation,
        (o.setValue "admin".toList (QVariant.bool true)).value "admin".toList
          = some (QVariant.bool true) := by
      intro o
      simp only [UpdateOperation.value, UpdateOperation.setValue]
      exact hashFind_hashInsert_self _ _ _
    unfold UpdateOperation.elevated
    rw [hset]
    simp

/-- C6, on an input: a `Copy` operation added to the component `pkg` with the client inactive
is not elevated, with the client active it is, and added through `addElevatedOperation` it is
elevated with the client inactive as well. -/
theorem addOperation_elevation_witness :
    ((addOperationOfType (examplePackage false) pkgComponent "Copy".toList
        [some "a".toList, some "b".toList]).2.operations.map
          (fun o => o.map UpdateOperation.elevated) = [some false] ∧
      (addOperationOfType (examplePackage true) pkgComponent "Copy".toList
        [some "a".toList, some "b".toList]).2.operations.map
          (fun o => o.map UpdateOperation.elevated) = [some true] ∧
      (addElevatedOperationOfType (examplePackage false) pkgComponent "Copy".toList
        [some "a".toList, some "b".toList]).2.operations.map
          (fun o => o.map UpdateOperation.elevated) = [some true]) ∧
    (markAdmin (examplePackage false)
      (configureOperation (examplePackage false)
        { name := "Copy".toList, arguments := [], values := [] }
        [some "a".toList, some "b".toList])).elevated = (examplePackage false).isActive :=
  ⟨⟨by decide, by decide, by decide⟩,
    (addOperation_elevation (examplePackage false) pkgComponent "Copy".toList
      [some "a".toList, some "b".toList]
      { name := "Copy".toList, arguments := [], values := [] } (by decide) (by decide)).1.2.1⟩

theorem createOperations_created (env : Environment) (fuel : Nat) (d d1 : ComponentPrivate)
    (h : createOperations env fuel d = Except.ok d1) : d1.operationsCreated = true := by
  unfold createOperations at h
  split at h
  · cases h
  · cases h; rfl
  · split at h
    · cases h
    · cases h; rfl

theorem operations_of_created (env : Environment) (fuel : Nat) (d : ComponentPrivate)
    (hcreated : d.operationsCreated = true) :
    operations env fuel d = Except.ok (d.operations, d) := by
  unfold operations
  simp [hcreated]

theorem operations_result (env : Environment) (fuel : Nat) (d d1 : ComponentPrivate)
    (list : List (Option UpdateOperation))
    (hfirst : operations env fuel d = Except.ok (list, d1)) :
    list = d1.operations ∧ ¬ (d1.autoCreateOperations = true ∧ d1.operationsCreated = false) := by
  unfold operations at hfirst
  by_cases hguard : d.autoCreateOperations = true ∧ d.operationsCreated = false
  · rw [if_pos hguard] at hfirst
    cases hc : createOperations env fuel d with
    | error e => rw [hc] at hfirst; cases hfirst
    | ok dc =>
      have hcreated := createOperations_created env fuel d dc hc
      rw [hc] at hfirst
      generalize env.create "License".toList = lic at hfirst
      generalize env.create "MinimumProgress".toList = mp at hfirst
      by_cases hmin : dc.minimumProgressOperation = none
      · by_cases hlic : dc.m_licenses = []
        · simp [hmin, hlic] at hfirst
          obtain ⟨rfl, rfl⟩ := hfirst
          simp [hcreated]
        · cases lic with
          | none => simp [hmin, hlic] at hfirst
          | some op =>
            simp [hmin, hlic] at hfirst
            obtain ⟨rfl, rfl⟩ := hfirst
            simp [hcreated]
      · by_cases hlic : dc.m_licenses = []
        · simp [hmin, hlic] at hfirst
          obtain ⟨rfl, rfl⟩ := hfirst
          simp [hcreated]
        · cases lic with
          | none => simp [hmin, hlic] at hfirst
          | some op =>
            simp [hmin, hlic] at hfirst
            obtain ⟨rfl, rfl⟩ := hfirst
            simp [hcreated]
  · rw [if_neg hguard] at hfirst
    injection hfirst with hfirst
    injection hfirst with hl hd
    subst hd
    subst hl
    exact ⟨rfl, hguard⟩

/-- C9: whenever a call of `operations()` returns, every later call returns exactly the same
list (no archive operation is emitted again, no second `MinimumProgress` or `License` operation
is appended) and leaves the state of the node as the first call left it. -/
theorem operations_again_same (env : Environment) (fuel : Nat) (d d1 : ComponentPrivate)
    (list : List (Option UpdateOperation))
    (hfirst : operations env fuel d = Except.ok (list, d1)) (fuelAgain : Nat) :
    operations env fuelAgain d1 = Except.ok (list, d1) := by
  have hkey := operations_result env fuel d d1 list hfirst
  rw [hkey.1]
  unfold operations
  rw [if_neg hkey.2]

/-- C9, on an input: the first `operations()` call on the component `pkg` compiles the package
of the scenario into four operations, and a second call returns the same four. -/
theorem operations_again_same_witness :
    (∃ list d1, operations (examplePackage false) 5 pkgComponent = Except.ok (list, d1) ∧
      list.map (fun o => o.map UpdateOperation.name)
        = [some "Copy".toList, some "Mkdir".toList, some "Copy".toList,
           some "MinimumProgress".toList] ∧
      operations (examplePackage false) 0 d1 = Except.ok (list, d1)) :=
  ⟨_, _, rfl, by decide, operations_again_same (examplePackage false) 5 pkgComponent _ _ rfl 0⟩

/-- C10 (as stated, refuted): `createOperations()` on the component `pkg` compiles the package of
the scenario into three operations and sets `operationsCreated`; called a second time on that
node it compiles the package again and the list has six operations. The guard against compiling
twice is in `operations()`, not in `createOperations()`. -/
theorem createOperations_again_emits_again :
    ∃ d1 d2, createOperations (examplePackage false) 5 pkgComponent = Except.ok d1 ∧
      d1.operationsCreated = true ∧
      createOperations (examplePackage false) 5 d1 = Except.ok d2 ∧
      d1.operations.length = 3 ∧ d2.operations.length = 6 ∧ d2 ≠ d1 :=
  ⟨_, _, rfl, rfl, rfl, rfl, rfl, by decide⟩

/-- C10 (amended): for every node whose operations are already created
(`operationsCreated` = true), accessing the operation list with `operations()` does not compile
again: it returns the operation list of the node and leaves the state of the node unchanged,
whatever the environment and the fuel. -/
theorem operations_created_is_noop (env : Environment) (fuel : Nat) (d : ComponentPrivate)
    (hcreated : d.operationsCreated = true) :
    operations env fuel d = Except.ok (d.operations, d) :=
  operations_of_created env fuel d hcreated

/-- C10 (amended), on an input: after `createOperations()` on the component `pkg`,
`operations()` returns the three operations and changes nothing. -/
theorem operations_created_is_noop_witness :
    ∃ d1, createOperations (examplePackage false) 5 pkgComponent = Except.ok d1 ∧
      d1.operations.length = 3 ∧
      operations (examplePackage false) 5 d1 = Except.ok (d1.operations, d1) :=
  ⟨_, rfl, rfl, operations_created_is_noop (examplePackage false) 5 _ rfl⟩


/-! ## The operation compiler: the path stage -/

theorem Compiled.refl (d : ComponentPrivate) : Compiled d d [] :=
  ⟨rfl, by simp, rfl, rfl⟩

theorem Compiled.trans {d d1 d2 : ComponentPrivate} {ops1 ops2 : List (Option UpdateOperation)}
    (h1 : Compiled d d1 ops1) (h2 : Compiled d1 d2 ops2) : Compiled d d2 (ops1 ++ ops2) :=
  ⟨h2.vars.trans h1.vars, by rw [h2.operations, h1.operations, List.append_assoc],
    h2.licenses.trans h1.licenses, h2.minimumProgress.trans h1.minimumProgress⟩

theorem name_eq_of_vars (d d1 : ComponentPrivate) (h : d1.m_vars = d.m_vars) :
    name d1 = name d := by
  simp [name, value, h]

theorem callScriptMethod_without_script (env : Environment)
    (hscript : ∀ m, env.scriptMethod m = none) (d : ComponentPrivate) (methodName : QString)
    (arguments : List QString) :
    ∃ d1, callScriptMethod env d methodName arguments = Except.ok (false, d1) ∧
      Compiled d d1 [] := by
  unfold callScriptMethod
  rw [hscript methodName]
  split_ifs
  · exact ⟨d, rfl, Compiled.refl d⟩
  · exact ⟨d, rfl, Compiled.refl d⟩
  · exact ⟨_, rfl, ⟨rfl, by simp, rfl, rfl⟩⟩

theorem addOperationOfType_registered (env : Environment) (d : ComponentPrivate)
    (type : QString) (parameters : List (Option QString)) (op : UpdateOperation)
    (hregistered : env.create type = some op) :
    Compiled d (addOperationOfType env d type parameters).2
      [some (markAdmin env (configureOperation env op parameters))] := by
  simp only [addOperationOfType, createOperation, hregistered, addOperation]
  exact ⟨rfl, rfl, rfl, rfl⟩

theorem forEach_compiled (step : ComponentPrivate → QString → Except Failure ComponentPrivate)
    (ops : QString → List (Option UpdateOperation)) (vars : List (QString × QString)) :
    ∀ (entries : List QString) (d : ComponentPrivate), d.m_vars = vars →
      (∀ entry ∈ entries, ∀ acc, acc.m_vars = vars → ∃ d1, step acc entry = Except.ok d1 ∧
        Compiled acc d1 (ops entry)) →
      ∃ d1, forEach step entries d = Except.ok d1 ∧ Compiled d d1 (entries.flatMap ops) := by
  intro entries
  induction entries with
  | nil => intro d _ _; exact ⟨d, rfl, Compiled.refl d⟩
  | cons entry entries ih =>
    intro d hd hstep
    obtain ⟨d1, h1, c1⟩ := hstep entry (List.mem_cons_self _ _) d hd
    obtain ⟨d2, h2, c2⟩ := ih d1 (c1.vars.trans hd)
      (fun e he => hstep e (List.mem_cons_of_mem _ he))
    refine ⟨d2, ?_, ?_⟩
    · simp only [forEach, h1]; exact h2
    · simpa [List.flatMap_cons] using c1.trans c2

theorem createOperationsForPath_compiled (env : Environment) (copyOp mkdirOp : UpdateOperation)
    (rank : QString → Nat)
    (hscript : ∀ m, env.scriptMethod m = none)
    (hcopy : env.create "Copy".toList = some copyOp)
    (hmkdir : env.create "Mkdir".toList = some mkdirOp)
    (hrank : ∀ path, env.isDir path = true → ∀ entry ∈ env.entryList path,
      rank (filePath path entry) < rank path) :
    ∀ (fuel : Nat) (path : QString) (d : ComponentPrivate), rank path < fuel →
      ∃ d1, createOperationsForPath env fuel path d = Except.ok d1 ∧
        Compiled d d1
          ((packageEntries env fuel path).map (emitted env (name d) copyOp mkdirOp)) := by
  intro fuel
  induction fuel with
  | zero => intro path d h; exact absurd h (Nat.not_lt_zero _)
  | succ fuel ih =>
    intro path d hfuel
    unfold createOperationsForPath packageEntries
    by_cases hsig : isSignature env path = true
    · simp only [hsig, if_true]
      exact ⟨d, rfl, by simpa using Compiled.refl d⟩
    · simp only [hsig, if_false, Bool.false_eq_true]
      obtain ⟨d1, hcall, c1⟩ := callScriptMethod_without_script env hscript d
        "createOperationsForPath".toList [path]
      rw [hcall]
      simp only
      by_cases hfile : env.isFile path = true
      · simp only [hfile, if_true]
        refine ⟨_, rfl, ?_⟩
        have c2 := addOperationOfType_registered env d1 "Copy".toList
          [some path, some (targetPath (name d1) path)] copyOp hcopy
        have := c1.trans c2
        simpa [emitted, hfile, (name_eq_of_vars _ _ c1.vars)] using this
      · simp only [hfile, if_false, Bool.false_eq_true]
        by_cases hdir : env.isDir path = true
        · simp only [hdir, if_true]
          have c2 := addOperationOfType_registered env d1 "Mkdir".toList
            [some (targetPath (name d1) path)] mkdirOp hmkdir
          have c12 := c1.trans c2
          have hname : name (addOperationOfType env d1 "Mkdir".toList
              [some (targetPath (name d1) path)]).2 = name d := name_eq_of_vars _ _ c12.vars
          obtain ⟨d3, h3, c3⟩ := forEach_compiled
            (fun acc entry => createOperationsForPath env fuel (filePath path entry) acc)
            (fun entry => (packageEntries env fuel (filePath path entry)).map
              (emitted env (name d) copyOp mkdirOp))
            d.m_vars (env.entryList path)
            (addOperationOfType env d1 "Mkdir".toList [some (targetPath (name d1) path)]).2
            c12.vars
            (by
              intro entry hentry acc hacc
              have hlt : rank (filePath path entry) < fuel :=
                lt_of_lt_of_le (hrank path hdir entry hentry) (Nat.lt_succ_iff.1 hfuel)
              obtain ⟨d4, h4, c4⟩ := ih (filePath path entry) acc hlt
              rw [name_eq_of_vars _ _ hacc] at c4
              exact ⟨d4, h4, c4⟩)
          refine ⟨d3, h3, ?_⟩
          have := c12.trans c3
          simpa [emitted, hfile, List.map_flatMap, (name_eq_of_vars _ _ c1.vars)] using this
        · simp only [hdir, if_false, Bool.false_eq_true]
          exact ⟨d1, rfl, by simpa using c1⟩


theorem eq_of_append_slash (a : QString) :
    ∀ (b s t : QString), '/' ∉ a → '/' ∉ b → a ++ '/' :: s = b ++ '/' :: t → a = b := by
  induction a with
  | nil =>
    intro b s t _ hb h
    cases b with
    | nil => rfl
    | cons c cs =>
      simp only [List.nil_append, List.cons_append, List.cons.injEq] at h
      exact absurd (h.1 ▸ List.mem_cons_self _ _) hb
  | cons x xs ih =>
    intro b s t ha hb h
    cases b with
    | nil =>
      simp only [List.nil_append, List.cons_append, List.cons.injEq] at h
      exact absurd (h.1 ▸ List.mem_cons_self _ _) ha
    | cons c cs =>
      simp only [List.cons_append, List.cons.injEq] at h
      rw [h.1, ih cs s t (fun hm => ha (List.mem_cons_of_mem _ hm))
        (fun hm => hb (List.mem_cons_of_mem _ hm)) h.2]

theorem packageEntries_below (env : Environment) :
    ∀ (fuel : Nat) (path q : QString), q ∈ packageEntries env fuel path →
      q = path ∨ (path ++ ['/']) <+: q := by
  intro fuel
  induction fuel with
  | zero => intro path q hq; simp [packageEntries] at hq
  | succ fuel ih =>
    intro path q hq
    unfold packageEntries at hq
    split_ifs at hq
    · simp at hq
    · simp at hq; exact Or.inl hq
    · rcases List.mem_cons.1 hq with hq | hq
      · exact Or.inl hq
      · obtain ⟨entry, _, hmem⟩ := List.mem_flatMap.1 hq
        right
        have hchild : (path ++ ['/']) <+: filePath path entry :=
          ⟨entry, by simp [filePath]⟩
        rcases ih _ _ hmem with h | h
        · rw [h]; exact hchild
        · exact hchild.trans ((List.prefix_append _ _).trans h)
    · simp at hq

theorem not_under_sibling (path n1 n2 x y : QString) (hn1 : '/' ∉ n1) (hn2 : '/' ∉ n2)
    (hne : n1 ≠ n2)
    (hx : x = filePath path n1 ∨ (filePath path n1 ++ ['/']) <+: x)
    (hy : y = filePath path n2 ∨ (filePath path n2 ++ ['/']) <+: y) :
    ¬ (y ++ ['/']) <+: x := by
  intro hyx
  have h2 : (filePath path n2 ++ ['/']) <+: x := by
    rcases hy with hy | hy
    · rw [← hy]; exact hyx
    · exact hy.trans ((List.prefix_append _ _).trans hyx)
  obtain ⟨s, hs⟩ := h2
  rcases hx with hx | ⟨r, hr⟩
  · rw [hx] at hs
    simp only [filePath, List.append_assoc, List.cons_append, List.nil_append,
      List.append_cancel_left_eq, List.cons.injEq, true_and] at hs
    exact hn1 (hs ▸ by simp)
  · rw [← hr] at hs
    simp only [filePath, List.append_assoc, List.cons_append, List.nil_append,
      List.append_cancel_left_eq, List.cons.injEq, true_and] at hs
    exact hne (eq_of_append_slash n2 _ _ _ hn2 hn1 hs).symm

theorem packageEntries_ordered (env : Environment)
    (hnames : ∀ path, ∀ entry ∈ env.entryList path, '/' ∉ entry)
    (hnodup : ∀ path, (env.entryList path).Nodup) :
    ∀ (fuel : Nat) (path : QString),
      (packageEntries env fuel path).Pairwise (fun a b => ¬ (b ++ ['/']) <+: a) := by
  intro fuel
  induction fuel with
  | zero => intro path; simp [packageEntries]
  | succ fuel ih =>
    intro path
    unfold packageEntries
    split_ifs
    · simp
    · simp
    · rw [List.pairwise_cons]
      constructor
      · intro b hb hpre
        obtain ⟨entry, _, hmem⟩ := List.mem_flatMap.1 hb
        have hle := hpre.length_le
        have hchild : (path ++ ['/']) <+: filePath path entry :=
          ⟨entry, by simp [filePath]⟩
        have hb2 : (path ++ ['/']) <+: b := by
          rcases packageEntries_below env fuel _ _ hmem with h | h
          · rw [h]; exact hchild
          · exact hchild.trans ((List.prefix_append _ _).trans h)
        have := hb2.length_le
        simp only [List.length_append, List.length_singleton] at hle this
        omega
      · rw [List.pairwise_flatMap]
        refine ⟨fun entry _ => ih _, ?_⟩
        have hpw : (env.entryList path).Pairwise (fun a b => a ≠ b) := hnodup path
        refine List.Pairwise.imp_of_mem ?_ hpw
        intro n1 n2 hm1 hm2 hne x hx y hy
        exact not_under_sibling path n1 n2 x y (hnames path n1 hm1) (hnames path n2 hm2) hne
          (packageEntries_below env fuel _ _ hx) (packageEntries_below env fuel _ _ hy)
    · simp

theorem targetPath_rooted (name rest s : QString) :
    targetPath name ("installer://".toList ++ name ++ rest ++ s)
      = "@TargetDir@".toList ++ rest ++ s := by
  have hstart : startsWith ("installer://".toList ++ name ++ rest ++ s)
      "7z://installer://".toList = false := by
    simp [startsWith, List.isPrefixOf]
  have hdrop : mid ("installer://".toList ++ name ++ rest ++ s)
      ("installer://".toList.length + name.length) = rest ++ s := by
    unfold mid
    rw [← List.length_append, List.append_assoc ("installer://".toList ++ name) rest s]
    exact List.drop_left _ _
  unfold targetPath
  rw [hstart, hdrop]
  simp

theorem targetPath_archive (name archive rest : QString) (harchive : '/' ∉ archive)
    (hrest : rest = [] ∨ ∃ t, rest = '/' :: t) :
    targetPath name ("7z://installer://".toList ++ name ++ '/' :: archive ++ rest)
      = "@TargetDir@".toList ++ rest := by
  have hstart : startsWith ("7z://installer://".toList ++ name ++ '/' :: archive ++ rest)
      "7z://installer://".toList = true := by
    simp [startsWith, List.isPrefixOf]
  have hdrop : mid ("7z://installer://".toList ++ name ++ '/' :: archive ++ rest)
      ("7z://installer://".toList.length + name.length + 1) = archive ++ rest := by
    unfold mid
    have : "7z://installer://".toList ++ name ++ '/' :: archive ++ rest
        = ("7z://installer://".toList ++ name ++ ['/']) ++ (archive ++ rest) := by simp
    rw [this]
    have hlen : "7z://installer://".toList.length + name.length + 1
        = ("7z://installer://".toList ++ name ++ ['/']).length := by
      simp only [List.length_append, List.length_singleton]
    rw [hlen]
    exact List.drop_left _ _
  unfold targetPath
  rw [hstart, hdrop]
  simp only [if_true]
  rcases hrest with hrest | ⟨t, hrest⟩
  · subst hrest
    simp [indexOf, harchive]
  · subst hrest
    have hmem : '/' ∈ archive ++ '/' :: t := by simp
    have hidx : List.indexOf '/' (archive ++ '/' :: t) = archive.length := by
      rw [List.indexOf_append_of_not_mem harchive, List.indexOf_cons_self]
      rfl
    simp only [indexOf, hmem, if_true, hidx, mid, List.drop_left]

theorem targetPath_below_root (name rest root s : QString) (hroot : ComponentRoot name rest root)
    (hs : s = [] ∨ ∃ t, s = '/' :: t) :
    targetPath name (root ++ s) = "@TargetDir@".toList ++ rest ++ s := by
  rcases hroot with hroot | ⟨archive, harchive, hrest, hroot⟩
  · rw [hroot]; exact targetPath_rooted name rest s
  · have hrs : rest ++ s = [] ∨ ∃ t, rest ++ s = '/' :: t := by
      rcases hrest with hrest | ⟨t, hrest⟩
      · subst hrest; simpa using hs
      · subst hrest; exact Or.inr ⟨t ++ s, by simp⟩
    have := targetPath_archive name archive (rest ++ s) harchive hrs
    rw [hroot]
    simpa [List.append_assoc] using this

theorem liesUnder_targetPath_iff (env : Environment) (fuel : Nat) (name rest root q1 q2 : QString)
    (hroot : ComponentRoot name rest root)
    (h1 : q1 ∈ packageEntries env fuel root) (h2 : q2 ∈ packageEntries env fuel root) :
    liesUnder (targetPath name q2) (targetPath name q1) ↔ (q1 ++ ['/']) <+: q2 := by
  have hform : ∀ q, q ∈ packageEntries env fuel root →
      ∃ s, q = root ++ s ∧ (s = [] ∨ ∃ t, s = '/' :: t) := by
    intro q hq
    rcases packageEntries_below env fuel root q hq with h | ⟨t, ht⟩
    · exact ⟨[], by simp [h], Or.inl rfl⟩
    · exact ⟨'/' :: t, by rw [← ht]; simp, Or.inr ⟨t, rfl⟩⟩
  obtain ⟨s1, rfl, hs1⟩ := hform q1 h1
  obtain ⟨s2, rfl, hs2⟩ := hform q2 h2
  rw [targetPath_below_root name rest root s1 hroot hs1,
    targetPath_below_root name rest root s2 hroot hs2]
  unfold liesUnder
  simp only [List.append_assoc, List.prefix_append_right_inj]


/-- C7 (as stated, refuted): in the package whose directory `bin` holds the file `tool` and its
signature `tool.sig`, `createOperationsForPath` emits two operations for three entries,
`Mkdir @TargetDir@/bin` and `Copy .../bin/tool @TargetDir@/bin/tool`: a file with the suffix
`sig` whose signed file exists alongside is skipped, so there is not one operation per file. -/
theorem createOperationsForPath_skips_signature :
    signedPackage.isDir "installer://pkg/bin".toList = true ∧
    signedPackage.entryList "installer://pkg/bin".toList = ["tool".toList, "tool.sig".toList] ∧
    signedPackage.isFile "installer://pkg/bin/tool".toList = true ∧
    signedPackage.isFile "installer://pkg/bin/tool.sig".toList = true ∧
    (∃ d1, createOperationsForPath signedPackage 5 "installer://pkg/bin".toList pkgComponent
        = Except.ok d1 ∧
      d1.operations.map (fun o => o.map (fun op => (op.name, op.arguments)))
        = [some ("Mkdir".toList, ["@TargetDir@/bin".toList]),
           some ("Copy".toList,
             ["installer://pkg/bin/tool".toList, "@TargetDir@/bin/tool".toList])]) :=
  ⟨by decide, by decide, by decide, by decide, _, rfl, by decide⟩

/-- C7 (amended): let no script be loaded, let the factory know `Copy` and `Mkdir`, and let the
file tree be finite (a measure falls from every directory to its entries, and the fuel exceeds
it at the root) with entry names that hold no `/` and are distinct within a directory. For the
component called `name` and a root path of that component (`installer://name...`, or
`7z://installer://name/archive...` inside an archive), `createOperationsForPath` returns, and the operations it appends are, in order, one for each path of `packageEntries`:
each file and each directory below the root, except a signature (suffix `sig`, signed file
alongside) and what lies below one; a file gives its `Copy`, a directory its `Mkdir`. In that
list the operation of a directory precedes every operation whose target lies under the target
of the directory. -/
theorem createOperationsForPath_mkdir_first (env : Environment) (d : ComponentPrivate)
    (copyOp mkdirOp : UpdateOperation) (root rest : QString) (rank : QString → Nat) (fuel : Nat)
    (hscript : ∀ m, env.scriptMethod m = none)
    (hcopy : env.create "Copy".toList = some copyOp)
    (hmkdir : env.create "Mkdir".toList = some mkdirOp)
    (hroot : ComponentRoot (name d) rest root)
    (hnames : ∀ path, ∀ entry ∈ env.entryList path, '/' ∉ entry)
    (hnodup : ∀ path, (env.entryList path).Nodup)
    (hrank : ∀ path, env.isDir path = true → ∀ entry ∈ env.entryList path,
      rank (filePath path entry) < rank path)
    (hfuel : rank root < fuel) :
    ∃ d1, createOperationsForPath env fuel root d = Except.ok d1 ∧
      d1.operations = d.operations
        ++ (packageEntries env fuel root).map (emitted env (name d) copyOp mkdirOp) ∧
      ∀ (i j : Nat) (directory path : QString),
        (packageEntries env fuel root)[i]? = some directory →
        (packageEntries env fuel root)[j]? = some path →
        liesUnder (targetPath (name d) path) (targetPath (name d) directory) → i < j := by
  obtain ⟨d1, hrun, hcompiled⟩ := createOperationsForPath_compiled env copyOp mkdirOp rank
    hscript hcopy hmkdir hrank fuel root d hfuel
  refine ⟨d1, hrun, hcompiled.operations, ?_⟩
  intro i j directory path hi hj hunder
  obtain ⟨hilt, hieq⟩ := List.getElem?_eq_some_iff.1 hi
  obtain ⟨hjlt, hjeq⟩ := List.getElem?_eq_some_iff.1 hj
  have hmemi : directory ∈ packageEntries env fuel root := hieq ▸ List.getElem_mem _
  have hmemj : path ∈ packageEntries env fuel root := hjeq ▸ List.getElem_mem _
  have hpre : (directory ++ ['/']) <+: path :=
    (liesUnder_targetPath_iff env fuel (name d) rest root directory path hroot hmemi
      hmemj).1 hunder
  have hordered := packageEntries_ordered env hnames hnodup fuel root
  rw [List.pairwise_iff_getElem] at hordered
  by_contra hnot
  rcases Nat.lt_or_eq_of_le (Nat.le_of_not_lt hnot) with hlt | heq
  · have := hordered j i hjlt hilt hlt
    rw [hieq, hjeq] at this
    exact this hpre
  · subst heq
    rw [hieq] at hjeq
    subst hjeq
    have := hpre.length_le
    simp at this


theorem examplePackage_entries (isActive : Bool) (path entry : QString)
    (h : entry ∈ (examplePackage isActive).entryList path) :
    (path = "installer://pkg/".toList ∨ path = "installer://pkg".toList
      ∨ path = "installer://pkg/docs".toList) ∧
    (entry = "readme.txt".toList ∨ entry = "docs".toList ∨ entry = "guide.txt".toList) := by
  simp only [examplePackage, environmentOf, hashValue, hashFind] at h
  split_ifs at h with h1 h2 h3
  · simp only [Option.getD_some, List.mem_cons, List.mem_singleton, List.not_mem_nil, or_false] at h
    exact ⟨Or.inl h1.symm, by tauto⟩
  · simp only [Option.getD_some, List.mem_cons, List.mem_singleton, List.not_mem_nil, or_false] at h
    exact ⟨Or.inr (Or.inl h2.symm), by tauto⟩
  · simp only [Option.getD_some, List.mem_cons, List.mem_singleton, List.not_mem_nil, or_false] at h
    exact ⟨Or.inr (Or.inr h3.symm), by tauto⟩
  · simp at h

theorem examplePackage_names (isActive : Bool) :
    ∀ path, ∀ entry ∈ (examplePackage isActive).entryList path, '/' ∉ entry := by
  intro path entry h
  rcases (examplePackage_entries isActive path entry h).2 with rfl | rfl | rfl <;> decide

theorem examplePackage_nodup (isActive : Bool) :
    ∀ path, ((examplePackage isActive).entryList path).Nodup := by
  intro path
  simp only [examplePackage, environmentOf, hashValue, hashFind]
  split_ifs <;> decide

theorem examplePackage_rank (isActive : Bool) :
    ∀ path, (examplePackage isActive).isDir path = true →
      ∀ entry ∈ (examplePackage isActive).entryList path,
        exampleRank (filePath path entry) < exampleRank path := by
  intro path _ entry h
  obtain ⟨hp, he⟩ := examplePackage_entries isActive path entry h
  rcases hp with rfl | rfl | rfl <;> rcases he with rfl | rfl | rfl <;> decide

/-- C7 (amended), on an input: for the package of the scenario, compiled from the path
`installer://pkg` of the component `pkg`, the operations are `Mkdir @TargetDir@`,
`Copy .../readme.txt @TargetDir@/readme.txt`, `Mkdir @TargetDir@/docs` and
`Copy .../docs/guide.txt @TargetDir@/docs/guide.txt`, the `Mkdir` of `docs` before the `Copy`
into it. -/
theorem createOperationsForPath_mkdir_first_witness :
    (∃ d1, createOperationsForPath (examplePackage false) 5 "installer://pkg".toList pkgComponent
        = Except.ok d1 ∧
      d1.operations.map (fun o => o.map (fun op => (op.name, op.arguments)))
        = [some ("Mkdir".toList, ["@TargetDir@".toList]),
           some ("Copy".toList,
             ["installer://pkg/readme.txt".toList, "@TargetDir@/readme.txt".toList]),
           some ("Mkdir".toList, ["@TargetDir@/docs".toList]),
           some ("Copy".toList,
             ["installer://pkg/docs/guide.txt".toList, "@TargetDir@/docs/guide.txt".toList])]) ∧
    (∃ d1, createOperationsForPath (examplePackage false) 5 "installer://pkg".toList pkgComponent
        = Except.ok d1 ∧
      d1.operations = pkgComponent.operations
        ++ (packageEntries (examplePackage false) 5 "installer://pkg".toList).map
            (emitted (examplePackage false) (name pkgComponent)
              { name := "Copy".toList, arguments := [], values := [] }
              { name := "Mkdir".toList, arguments := [], values := [] }) ∧
      ∀ (i j : Nat) (directory path : QString),
        (packageEntries (examplePackage false) 5 "installer://pkg".toList)[i]? = some directory →
        (packageEntries (examplePackage false) 5 "installer://pkg".toList)[j]? = some path →
        liesUnder (targetPath (name pkgComponent) path)
          (targetPath (name pkgComponent) directory) → i < j) :=
  ⟨⟨_, rfl, by decide⟩,
    createOperationsForPath_mkdir_first (examplePackage false) pkgComponent
      { name := "Copy".toList, arguments := [], values := [] }
      { name := "Mkdir".toList, arguments := [], values := [] }
      "installer://pkg".toList [] exampleRank 5 (fun _ => rfl) (by decide) (by decide)
      (Or.inl (by decide)) (examplePackage_names false) (examplePackage_nodup false)
      (examplePackage_rank false) (by decide)⟩


/-! ## The operation compiler: `createOperations` and `operations` -/

theorem addOperationOfType_extends (env : Environment) (d : ComponentPrivate)
    (type : QString) (parameters : List (Option QString)) :
    ∃ ops, Compiled d (addOperationOfType env d type parameters).2 ops := by
  cases hc : env.create type with
  | none =>
    refine ⟨[], ?_⟩
    simp only [addOperationOfType, createOperation, hc]
    split_ifs
    · exact ⟨rfl, by simp, rfl, rfl⟩
    · exact Compiled.refl d
  | some op => exact ⟨_, addOperationOfType_registered env d type parameters op hc⟩

theorem forEach_returns (step : ComponentPrivate → QString → Except Failure ComponentPrivate)
    (vars : List (QString × QString)) :
    ∀ (entries : List QString) (d : ComponentPrivate), d.m_vars = vars →
      (∀ entry ∈ entries, ∀ acc, acc.m_vars = vars →
        ∃ d1 ops, step acc entry = Except.ok d1 ∧ Compiled acc d1 ops) →
      ∃ d1 ops, forEach step entries d = Except.ok d1 ∧ Compiled d d1 ops := by
  intro entries
  induction entries with
  | nil => intro d _ _; exact ⟨d, [], rfl, Compiled.refl d⟩
  | cons entry entries ih =>
    intro d hd hstep
    obtain ⟨d1, ops1, h1, c1⟩ := hstep entry (List.mem_cons_self _ _) d hd
    obtain ⟨d2, ops2, h2, c2⟩ := ih d1 (c1.vars.trans hd)
      (fun e he => hstep e (List.mem_cons_of_mem _ he))
    refine ⟨d2, ops1 ++ ops2, ?_, c1.trans c2⟩
    simp only [forEach, h1]; exact h2

theorem createOperationsForPath_returns (env : Environment) (rank : QString → Nat)
    (hscript : ∀ m, env.scriptMethod m = none)
    (hrank : ∀ path, env.isDir path = true → ∀ entry ∈ env.entryList path,
      rank (filePath path entry) < rank path) :
    ∀ (fuel : Nat) (path : QString) (d : ComponentPrivate), rank path < fuel →
      ∃ d1 ops, createOperationsForPath env fuel path d = Except.ok d1 ∧ Compiled d d1 ops := by
  intro fuel
  induction fuel with
  | zero => intro path d h; exact absurd h (Nat.not_lt_zero _)
  | succ fuel ih =>
    intro path d hfuel
    unfold createOperationsForPath
    by_cases hsig : isSignature env path = true
    · simp only [hsig, if_true]
      exact ⟨d, [], rfl, Compiled.refl d⟩
    · simp only [hsig, if_false, Bool.false_eq_true]
      obtain ⟨d1, hcall, c1⟩ := callScriptMethod_without_script env hscript d
        "createOperationsForPath".toList [path]
      rw [hcall]
      simp only
      by_cases hfile : env.isFile path = true
      · simp only [hfile, if_true]
        obtain ⟨ops, c2⟩ := addOperationOfType_extends env d1 "Copy".toList
          [some path, some (targetPath (name d1) path)]
        exact ⟨_, _, rfl, c1.trans c2⟩
      · simp only [hfile, if_false, Bool.false_eq_true]
        by_cases hdir : env.isDir path = true
        · simp only [hdir, if_true]
          obtain ⟨ops, c2⟩ := addOperationOfType_extends env d1 "Mkdir".toList
            [some (targetPath (name d1) path)]
          have c12 := c1.trans c2
          obtain ⟨d3, ops3, h3, c3⟩ := forEach_returns
            (fun acc entry => createOperationsForPath env fuel (filePath path entry) acc)
            d.m_vars (env.entryList path)
            (addOperationOfType env d1 "Mkdir".toList [some (targetPath (name d1) path)]).2
            c12.vars
            (by
              intro entry hentry acc _
              exact ih (filePath path entry) acc
                (lt_of_lt_of_le (hrank path hdir entry hentry) (Nat.lt_succ_iff.1 hfuel)))
          exact ⟨d3, _, h3, c12.trans c3⟩
        · simp only [hdir, if_false, Bool.false_eq_true]
          exact ⟨d1, [], rfl, c1⟩

theorem createOperationsForArchive_returns (env : Environment) (rank : QString → Nat)
    (hscript : ∀ m, env.scriptMethod m = none)
    (hrank : ∀ path, env.isDir path = true → ∀ entry ∈ env.entryList path,
      rank (filePath path entry) < rank path)
    (fuel : Nat) (archive : QString) (d : ComponentPrivate)
    (hfuel : rank ("installer://".toList ++ name d ++ '/' :: archive) < fuel) :
    ∃ d1 ops, createOperationsForArchive env fuel archive d = Except.ok d1 ∧
      Compiled d d1 ops := by
  unfold createOperationsForArchive
  obtain ⟨d1, hcall, c1⟩ := callScriptMethod_without_script env hscript d
    "createOperationsForArchive".toList [archive]
  rw [hcall]
  simp only
  rw [name_eq_of_vars _ _ c1.vars]
  split_ifs
  · obtain ⟨ops, c2⟩ := addOperationOfType_extends env d1 "Extract".toList
      [some ("installer://".toList ++ name d ++ '/' :: archive), some "@TargetDir@".toList]
    exact ⟨_, _, rfl, c1.trans c2⟩
  · obtain ⟨d2, ops, h2, c2⟩ := createOperationsForPath_returns env rank hscript hrank fuel
      ("installer://".toList ++ name d ++ '/' :: archive) d1 hfuel
    exact ⟨d2, _, h2, c1.trans c2⟩

theorem createOperations_returns (env : Environment) (rank : QString → Nat)
    (hscript : ∀ m, env.scriptMethod m = none)
    (hrank : ∀ path, env.isDir path = true → ∀ entry ∈ env.entryList path,
      rank (filePath path entry) < rank path)
    (fuel : Nat) (d : ComponentPrivate)
    (hfuel : ∀ archive ∈ archives env d,
      rank ("installer://".toList ++ name d ++ '/' :: archive) < fuel) :
    ∃ d1 ops, createOperations env fuel d = Except.ok d1 ∧
      d1.operations = d.operations ++ ops ∧ d1.m_licenses = d.m_licenses ∧
      d1.minimumProgressOperation = d.minimumProgressOperation := by
  unfold createOperations
  obtain ⟨d1, hcall, c1⟩ := callScriptMethod_without_script env hscript d
    "createOperations".toList []
  rw [hcall]
  simp only
  have harch : archives env d1 = archives env d := by
    simp [archives, name_eq_of_vars _ _ c1.vars]
  obtain ⟨d2, ops, h2, c2⟩ := forEach_returns
    (fun acc archive => createOperationsForArchive env fuel archive acc)
    d.m_vars (archives env d1) d1 c1.vars
    (by
      intro archive harchive acc hacc
      apply createOperationsForArchive_returns env rank hscript hrank
      rw [name_eq_of_vars _ _ hacc]
      exact hfuel archive (harch ▸ harchive))
  rw [h2]
  have c := c1.trans c2
  exact ⟨_, _, rfl, c.operations, c.licenses, c.minimumProgress⟩

/-- C8 (as stated, refuted): with `autoCreateOperations` switched off, `operations()` on the
component `pkg` returns the empty list, without a `MinimumProgress` operation; and after the
archives of the package of the scenario have been compiled by a call of `createOperations()`,
`operations()` returns the three archive operations without a `MinimumProgress` operation.
`MinimumProgress` and `License` are appended only inside the guard
`autoCreateOperations && !operationsCreated`. -/
theorem operations_without_minimumProgress :
    operations (examplePackage false) 5 { pkgComponent with autoCreateOperations := false }
      = Except.ok ([], { pkgComponent with autoCreateOperations := false }) ∧
    (∃ d1, createOperations (examplePackage false) 5 pkgComponent = Except.ok d1 ∧
      (operations (examplePackage false) 5 d1).toOption.map
          (fun r => r.1.map (fun o => o.map UpdateOperation.name))
        = some [some "Copy".toList, some "Mkdir".toList, some "Copy".toList]) :=
  ⟨rfl, _, rfl, by decide⟩

/-- C8 (amended): let the node have `autoCreateOperations` set, its operations not created yet
and no `MinimumProgress` operation yet, let the factory know `MinimumProgress`, and `License`
if a license is registered, and let no script be loaded and the file tree be finite. Then
`createOperations()` returns, and `operations()` returns the list after that compilation (the
operations the node had, then the archive-derived ones) followed by exactly one
`MinimumProgress` operation, also when there are no archives, followed by one `License`
operation carrying the license texts if and only if at least one license is registered. -/
theorem operations_appends_progress_then_license (env : Environment) (rank : QString → Nat)
    (fuel : Nat) (d : ComponentPrivate) (progressOp licenseOp : UpdateOperation)
    (hauto : d.autoCreateOperations = true) (hnot : d.operationsCreated = false)
    (hmin : d.minimumProgressOperation = none)
    (hprogress : env.create "MinimumProgress".toList = some progressOp)
    (hlicense : d.m_licenses = [] ∨ env.create "License".toList = some licenseOp)
    (hscript : ∀ m, env.scriptMethod m = none)
    (hrank : ∀ path, env.isDir path = true → ∀ entry ∈ env.entryList path,
      rank (filePath path entry) < rank path)
    (hfuel : ∀ archive ∈ archives env d,
      rank ("installer://".toList ++ name d ++ '/' :: archive) < fuel) :
    ∃ d1 archiveOps d2, createOperations env fuel d = Except.ok d1 ∧
      d1.operations = d.operations ++ archiveOps ∧
      operations env fuel d = Except.ok (d2.operations, d2) ∧
      d2.operations = d1.operations ++ some progressOp ::
        (if d.m_licenses = [] then []
         else [some ((licenseOp.setValue "installer".toList QVariant.installer).setValue
                "licenses".toList (QVariant.map (licenseMap d.m_licenses)))]) := by
  obtain ⟨d1, ops, hrun, hops, hlic, hmp⟩ :=
    createOperations_returns env rank hscript hrank fuel d hfuel
  have hmin1 : d1.minimumProgressOperation = none := hmp.trans hmin
  by_cases hempty : d.m_licenses = []
  · refine ⟨d1, ops,
      { d1 with
        minimumProgressOperation := some progressOp
        operations := d1.operations ++ [some progressOp] }, hrun, hops, ?_, ?_⟩
    · unfold operations
      rw [if_pos ⟨hauto, hnot⟩, hrun]
      generalize hP : env.create "MinimumProgress".toList = mp at hprogress
      subst hprogress
      simp [hmin1, hlic, hempty]
    · simp [hempty]
  · have hl : env.create "License".toList = some licenseOp := hlicense.resolve_left hempty
    refine ⟨d1, ops,
      { d1 with
        minimumProgressOperation := some progressOp
        m_licenseOperation := some ((licenseOp.setValue "installer".toList
          QVariant.installer).setValue "licenses".toList
            (QVariant.map (licenseMap d.m_licenses)))
        operations := (d1.operations ++ [some progressOp]) ++
          [some ((licenseOp.setValue "installer".toList QVariant.installer).setValue
            "licenses".toList (QVariant.map (licenseMap d.m_licenses)))] },
      hrun, hops, ?_, ?_⟩
    · unfold operations
      rw [if_pos ⟨hauto, hnot⟩, hrun]
      generalize hL : env.create "License".toList = lic at hl
      generalize hP : env.create "MinimumProgress".toList = mp at hprogress
      subst hl
      subst hprogress
      simp [hmin1, hlic, hempty]
    · simp [hempty]


/-- C8 (amended), on an input: `operations()` on the component `pkg` with one license compiles
the package of the scenario and returns `Copy`, `Mkdir`, `Copy`, `MinimumProgress`, `License`,
the last carrying the license text. -/
theorem operations_appends_progress_then_license_witness :
    ((operations (examplePackage false) 5 licensedComponent).toOption.map
        (fun r => r.1.map (fun o => o.map UpdateOperation.name))
      = some [some "Copy".toList, some "Mkdir".toList, some "Copy".toList,
          some "MinimumProgress".toList, some "License".toList]) ∧
    (∃ d1 archiveOps d2,
      createOperations (examplePackage false) 5 licensedComponent = Except.ok d1 ∧
      d1.operations = licensedComponent.operations ++ archiveOps ∧
      operations (examplePackage false) 5 licensedComponent = Except.ok (d2.operations, d2) ∧
      d2.operations = d1.operations
        ++ some { name := "MinimumProgress".toList, arguments := [], values := [] } ::
        (if licensedComponent.m_licenses = [] then []
         else [some (((
            { name := "License".toList, arguments := [], values := [] } :
              UpdateOperation).setValue "installer".toList QVariant.installer).setValue
                "licenses".toList (QVariant.map (licenseMap licensedComponent.m_licenses)))])) :=
  ⟨by decide,
    operations_appends_progress_then_license (examplePackage false) exampleRank 5
      licensedComponent
      { name := "MinimumProgress".toList, arguments := [], values := [] }
      { name := "License".toList, arguments := [], values := [] }
      rfl rfl rfl (by decide) (Or.inr (by decide)) (fun _ => rfl) (examplePackage_rank false)
      (by decide)⟩


/-! ## Unknown operation types, loading, selection, downloadable archives -/

/-- C11 (as stated, refuted): for an operation type the factory does not know, with the user
answering `Ignore` in the error dialog, `addOperation` returns false and appends nothing, but
`operationsCreatedSuccessfully` stays true: it is cleared only on `Abort`. -/
theorem addOperation_unknown_ignored_keeps_success :
    (ignoringPackage.create "Frobnicate".toList = none ∧
      ignoringPackage.critical "Frobnicate".toList = StandardButton.Ignore ∧
      pkgComponent.operationsCreatedSuccessfully = true) ∧
    addOperationOfType ignoringPackage pkgComponent "Frobnicate".toList [some "x".toList]
      = (false, pkgComponent) ∧
    (addOperationOfType ignoringPackage pkgComponent "Frobnicate".toList
      [some "x".toList]).2.operationsCreatedSuccessfully = true :=
  ⟨⟨by decide, by decide, by decide⟩, by decide, by decide⟩

/-- C11 (amended): for every operation-type name the factory does not know, `addOperation(name,
...)` returns false and appends nothing to the operation list; it sets
`operationsCreatedSuccessfully` to false when the user answers `Abort` in the error dialog and
leaves it as it was when the user answers `Ignore`. Compilation continues: a later
`addOperation` with a registered name returns true and appends its operation. -/
theorem addOperation_unknown (env : Environment) (d : ComponentPrivate) (type : QString)
    (parameters : List (Option QString)) (hunknown : env.create type = none) :
    (addOperationOfType env d type parameters).1 = false ∧
    (addOperationOfType env d type parameters).2.operations = d.operations ∧
    (addOperationOfType env d type parameters).2
      = (if env.critical type = StandardButton.Abort then
          { d with operationsCreatedSuccessfully := false }
         else d) ∧
    ∀ (next : QString) (nextParameters : List (Option QString)) (op : UpdateOperation),
      env.create next = some op →
      addOperationOfType env (addOperationOfType env d type parameters).2 next nextParameters
        = (true, { (addOperationOfType env d type parameters).2 with
            operations := d.operations
              ++ [some (markAdmin env (configureOperation env op nextParameters))] }) := by
  have hres : addOperationOfType env d type parameters
      = (false, if env.critical type = StandardButton.Abort then
          { d with operationsCreatedSuccessfully := false } else d) := by
    simp only [addOperationOfType, createOperation, hunknown]
    split_ifs <;> rfl
  have hops : (addOperationOfType env d type parameters).2.operations = d.operations := by
    rw [hres]; simp only; split_ifs <;> rfl
  refine ⟨by rw [hres], hops, by rw [hres], ?_⟩
  intro next nextParameters op hnext
  have hnextAdd : ∀ X : ComponentPrivate, X.operations = d.operations →
      addOperationOfType env X next nextParameters
        = (true, { X with operations := d.operations
            ++ [some (markAdmin env (configureOperation env op nextParameters))] }) := by
    intro X hX
    simp only [addOperationOfType, createOperation, hnext, addOperation, hX]
  exact hnextAdd _ hops

/-- C11 (amended), on an input: with the user aborting, the unknown type `Frobnicate` clears
`operationsCreatedSuccessfully` and appends nothing, and the `Copy` added after it is appended. -/
theorem addOperation_unknown_witness :
    (addOperationOfType (examplePackage false) pkgComponent "Frobnicate".toList []).1 = false ∧
    (addOperationOfType (examplePackage false) pkgComponent "Frobnicate".toList
      []).2.operationsCreatedSuccessfully = false ∧
    (addOperationOfType (examplePackage false)
      (addOperationOfType (examplePackage false) pkgComponent "Frobnicate".toList []).2
      "Copy".toList [some "a".toList, some "b".toList]).2.operations.map
        (fun o => o.map UpdateOperation.name) = [some "Copy".toList] ∧
    (addOperationOfType (examplePackage false) pkgComponent "Frobnicate".toList
      []).2.operations = pkgComponent.operations :=
  ⟨by decide, by decide, by decide,
    (addOperation_unknown (examplePackage false) pkgComponent "Frobnicate".toList []
      (by decide)).2.1⟩

theorem setValues_flags (entries : List (QString × QString)) :
    ∀ (d : ComponentPrivate) (signals : List Signal),
      (entries.foldl
        (fun acc entry =>
          ((setValue acc.1 entry.1 entry.2).1, acc.2 ++ (setValue acc.1 entry.1 entry.2).2))
        (d, signals)).1.checkable = d.checkable ∧
      (entries.foldl
        (fun acc entry =>
          ((setValue acc.1 entry.1 entry.2).1, acc.2 ++ (setValue acc.1 entry.1 entry.2).2))
        (d, signals)).1.checkState = d.checkState ∧
      (entries.foldl
        (fun acc entry =>
          ((setValue acc.1 entry.1 entry.2).1, acc.2 ++ (setValue acc.1 entry.1 entry.2).2))
        (d, signals)).1.enabled = d.enabled := by
  induction entries with
  | nil => intro d signals; exact ⟨rfl, rfl, rfl⟩
  | cons entry entries ih =>
    intro d signals
    simp only [List.foldl_cons]
    have hstep : (setValue d entry.1 entry.2).1.checkable = d.checkable ∧
        (setValue d entry.1 entry.2).1.checkState = d.checkState ∧
        (setValue d entry.1 entry.2).1.enabled = d.enabled := by
      unfold setValue
      split_ifs <;> exact ⟨rfl, rfl, rfl⟩
    obtain ⟨h1, h2, h3⟩ := ih (setValue d entry.1 entry.2).1
      (signals ++ (setValue d entry.1 entry.2).2)
    exact ⟨h1.trans hstep.1, h2.trans hstep.2.1, h3.trans hstep.2.2⟩

theorem loadDataFromPackageInfo_pins (d : ComponentPrivate) (packageInfo : PackageInfo) :
    (packageInfo.forcedInstallation = true →
      pinned (loadDataFromPackageInfo d packageInfo).1) ∧
    (packageInfo.forcedInstallation = false →
      (loadDataFromPackageInfo d packageInfo).1.checkable = d.checkable ∧
      (loadDataFromPackageInfo d packageInfo).1.checkState = d.checkState) := by
  constructor
  · intro hforced
    simp only [loadDataFromPackageInfo, hforced, if_true]
    exact ⟨rfl, rfl⟩
  · intro hforced
    simp only [loadDataFromPackageInfo, hforced, setValues]
    exact ⟨(setValues_flags _ d []).1, (setValues_flags _ d []).2.1⟩

theorem loadValuesFromUpdate_pins (app : Application) (d : ComponentPrivate) (update : Update) :
    (toLower (hashValue update.data skForcedInstallation []) = "true".toList ∧
        "--no-force-installations".toList ∉ app.arguments →
      pinned (loadValuesFromUpdate app d update).1) ∧
    (¬ (toLower (hashValue update.data skForcedInstallation []) = "true".toList ∧
        "--no-force-installations".toList ∉ app.arguments) →
      (loadValuesFromUpdate app d update).1.checkable = d.checkable ∧
      (loadValuesFromUpdate app d update).1.checkState = d.checkState) := by
  constructor
  · rintro ⟨hforced, hflag⟩
    simp only [loadValuesFromUpdate, hflag, if_false, hforced, if_true]
    exact ⟨rfl, rfl⟩
  · intro hnot
    by_cases hflag : "--no-force-installations".toList ∈ app.arguments
    · have hne : ¬ ("false".toList = "true".toList) := by decide
      simp only [loadValuesFromUpdate, hflag, if_true, hne, if_false, setValues]
      exact ⟨(setValues_flags _ d []).1, (setValues_flags _ d []).2.1⟩
    · have hforced : ¬ toLower (hashValue update.data skForcedInstallation [])
          = "true".toList := fun h => hnot ⟨h, hflag⟩
      simp only [loadValuesFromUpdate, hflag, if_false, hforced, setValues]
      exact ⟨(setValues_flags _ d []).1, (setValues_flags _ d []).2.1⟩

theorem loadLicenses_flags (app : Application) (directory : QString) :
    ∀ (licenseHash : List (QString × QString)) (d d1 : ComponentPrivate),
      loadLicenses app directory licenseHash d = Except.ok d1 →
      d1.checkable = d.checkable ∧ d1.checkState = d.checkState := by
  intro licenseHash
  induction licenseHash with
  | nil =>
    intro d d1 h
    simp only [loadLicenses] at h
    injection h with h
    subst h
    exact ⟨rfl, rfl⟩
  | cons entry rest ih =>
    intro d d1 h
    obtain ⟨key, fileName⟩ := entry
    simp only [loadLicenses] at h
    split at h
    · cases h
    · obtain ⟨h1, h2⟩ := ih _ _ h
      exact ⟨h1, h2⟩

theorem loadDataFromUpdate_flags (app : Application) (d : ComponentPrivate) (update : Update)
    (d1 : ComponentPrivate) (signals : List Signal)
    (h : loadDataFromUpdate app d update = Except.ok (d1, signals)) :
    d1.checkable = (loadValuesFromUpdate app d update).1.checkable ∧
    d1.checkState = (loadValuesFromUpdate app d update).1.checkState := by
  unfold loadDataFromUpdate at h
  split_ifs at h
  simp only at h
  split at h
  · cases h
  · split at h
    · cases h
    · split at h
      · cases h
      · next d2 hd2 =>
        injection h with h
        injection h with h1 h2
        subst h1
        exact loadLicenses_flags app _ _ _ _ hd2

/-- C12 (the code at the failing input): with `--no-force-installations` among the arguments of
the application, loading the saved package information of a package with forced installation
still pins the node (not checkable, checked), since `loadDataFromPackageInfo` does not look at
the arguments; loading the catalog entry of the same package through `loadDataFromUpdate`
leaves `checkable` and the check state untouched, as the claim says. -/
theorem loadDataFromPackageInfo_ignores_run_flag :
    "--no-force-installations".toList
      ∈ (applicationWith ["installer".toList, "--no-force-installations".toList]).arguments ∧
    forcedPackageInfo.forcedInstallation = true ∧
    ((newComponent []).checkable = true ∧
      (newComponent []).checkState = CheckState.Unchecked) ∧
    ((loadDataFromPackageInfo (newComponent []) forcedPackageInfo).1.checkable = false ∧
      (loadDataFromPackageInfo (newComponent []) forcedPackageInfo).1.checkState
        = CheckState.Checked) ∧
    (∃ d1 signals,
      loadDataFromUpdate
        (applicationWith ["installer".toList, "--no-force-installations".toList])
        (newComponent []) forcedUpdate = Except.ok (d1, signals) ∧
      d1.checkable = true ∧ d1.checkState = CheckState.Unchecked) :=
  ⟨by decide, rfl, ⟨rfl, rfl⟩, ⟨by decide, by decide⟩, _, _, rfl, by decide, by decide⟩


/-- C13 (as stated, refuted): the component loaded from the saved information of a package with
forced installation is selected and not checkable, but `setSelected(false)` does have an
effect: the check state becomes `Unchecked`, `isSelected()` becomes false and a
`selectedChanged(false)` is queued. `setSelected` does not look at `checkable`. -/
theorem setSelected_false_unchecks_forced :
    forcedPackageInfo.forcedInstallation = true ∧
    isSelected (loadDataFromPackageInfo (newComponent []) forcedPackageInfo).1 = true ∧
    (loadDataFromPackageInfo (newComponent []) forcedPackageInfo).1.checkable = false ∧
    (setSelected (loadDataFromPackageInfo (newComponent []) forcedPackageInfo).1
      false).1.checkState = CheckState.Unchecked ∧
    isSelected (setSelected (loadDataFromPackageInfo (newComponent []) forcedPackageInfo).1
      false).1 = false ∧
    (setSelected (loadDataFromPackageInfo (newComponent []) forcedPackageInfo).1 false).2
      = [Signal.selectedChanged false] := by
  decide

/-- C13 (amended): for every node loaded with forced installation, from the saved package
information or from a catalog entry whose forced flag is set while the application runs
without `--no-force-installations`: after the load `isSelected()` is true and the node is not
checkable, and `setSelected(true)` has no effect and queues nothing. `setSelected(false)` is
not held back by the node being not checkable: it sets the check state to `Unchecked` and
queues `selectedChanged(false)`. -/
theorem setSelected_on_forced (d1 : ComponentPrivate)
    (hloaded :
      (∃ d packageInfo, packageInfo.forcedInstallation = true ∧
        d1 = (loadDataFromPackageInfo d packageInfo).1) ∨
      (∃ app d update signals,
        toLower (hashValue update.data skForcedInstallation []) = "true".toList ∧
        "--no-force-installations".toList ∉ app.arguments ∧
        loadDataFromUpdate app d update = Except.ok (d1, signals))) :
    isSelected d1 = true ∧ d1.checkable = false ∧ d1.checkState = CheckState.Checked ∧
    setSelected d1 true = (d1, []) ∧
    setSelected d1 false
      = (setCheckState d1 CheckState.Unchecked, [Signal.selectedChanged false]) := by
  have hpinned : pinned d1 := by
    rcases hloaded with ⟨d, packageInfo, hforced, rfl⟩ | ⟨app, d, update, signals, hf, hflag, h⟩
    · exact (loadDataFromPackageInfo_pins d packageInfo).1 hforced
    · obtain ⟨h1, h2⟩ := loadDataFromUpdate_flags app d update d1 signals h
      obtain ⟨p1, p2⟩ := (loadValuesFromUpdate_pins app d update).1 ⟨hf, hflag⟩
      exact ⟨h1.trans p1, h2.trans p2⟩
  obtain ⟨hcheckable, hstate⟩ := hpinned
  refine ⟨?_, hcheckable, hstate, ?_, ?_⟩
  · simp [isSelected, checkState, hstate]
  · simp [setSelected, checkState, hstate]
  · simp [setSelected, checkState, hstate]

/-- C13 (amended), on an input: the component loaded from the saved information of the forced
package. -/
theorem setSelected_on_forced_witness :
    setSelected (loadDataFromPackageInfo (newComponent []) forcedPackageInfo).1 true
      = ((loadDataFromPackageInfo (newComponent []) forcedPackageInfo).1, []) ∧
    setSelected (loadDataFromPackageInfo (newComponent []) forcedPackageInfo).1 false
      = (setCheckState (loadDataFromPackageInfo (newComponent []) forcedPackageInfo).1
          CheckState.Unchecked, [Signal.selectedChanged false]) :=
  (setSelected_on_forced (loadDataFromPackageInfo (newComponent []) forcedPackageInfo).1
    (Or.inl ⟨newComponent [], forcedPackageInfo, rfl, rfl⟩)).2.2.2

/-- C20 (the code at the failing input): on the component `pkg` of version `1.0` from an online
repository, with no downloadable archive, `addDownloadableArchive("data.7z")` stores
`1.0data.7z`, the path behind the version, and `removeDownloadableArchive("data.7z")` removes
the entries equal to `data.7z`, of which there is none: the archive added stays in the list. -/
theorem removeDownloadableArchive_leaves_added :
    isFromOnlineRepository onlineComponent = true ∧
    downloadableArchives onlineComponent = [] ∧
    (∃ d1 d2, addDownloadableArchive onlineComponent "data.7z".toList = Except.ok d1 ∧
      downloadableArchives d1 = ["1.0data.7z".toList] ∧
      removeDownloadableArchive d1 "data.7z".toList = Except.ok d2 ∧
      downloadableArchives d2 = ["1.0data.7z".toList] ∧
      downloadableArchives d2 ≠ downloadableArchives onlineComponent) :=
  ⟨by decide, by decide, _, _, rfl, by decide, rfl, by decide, by decide⟩


/-! ## The component tree: virtual children -/

theorem appendComponent_m_components_any (stdSort : StdSort) (h : Heap) (p n c : Nat) :
    (appendComponent stdSort h p n c).m_components
      = if (h n).m_parent = some c then
          removeAll (if c = p then
            (if isVirtual (h n) = true then (h p).m_components
             else stdSort (SortingPriorityLessThan h) ((h p).m_components ++ [n]))
            else (h c).m_components) n
        else (if c = p then
            (if isVirtual (h n) = true then (h p).m_components
             else stdSort (SortingPriorityLessThan h) ((h p).m_components ++ [n]))
            else (h c).m_components) := by
  rw [appendComponent_eq, setTristate_m_components, setParent_m_components]
  cases hpar : (h n).m_parent with
  | none =>
    simp [appendedChildren, setChildren_m_components]
  | some q =>
    simp only [removeComponent_m_components, appendedChildren, setChildren_m_components,
      setChildren_m_parent, hpar, true_and]
    by_cases hcq : c = q
    · subst hcq; simp
    · have hqc : ¬ q = c := fun e => hcq e.symm
      simp [hcq, hqc]

theorem appendComponent_m_virtualComponents_any (stdSort : StdSort) (h : Heap) (p n c : Nat) :
    (appendComponent stdSort h p n c).m_virtualComponents
      = if (h n).m_parent = some c then
          removeAll (if c = p then
            (if isVirtual (h n) = true then (h p).m_virtualComponents ++ [n]
             else (h p).m_virtualComponents)
            else (h c).m_virtualComponents) n
        else (if c = p then
            (if isVirtual (h n) = true then (h p).m_virtualComponents ++ [n]
             else (h p).m_virtualComponents)
            else (h c).m_virtualComponents) := by
  rw [appendComponent_eq, setTristate_m_virtualComponents, setParent_m_virtualComponents]
  cases hpar : (h n).m_parent with
  | none =>
    simp [appendedChildren, setChildren_m_virtualComponents]
  | some q =>
    simp only [removeComponent_m_virtualComponents, appendedChildren,
      setChildren_m_virtualComponents, setChildren_m_parent, hpar, true_and]
    by_cases hcq : c = q
    · subst hcq; simp
    · have hqc : ¬ q = c := fun e => hcq e.symm
      simp [hcq, hqc]

theorem appendComponent_m_allComponents_any (stdSort : StdSort) (h : Heap) (p n c : Nat)
    (hall : (h c).m_allComponents = (h c).m_components ++ (h c).m_virtualComponents) :
    (appendComponent stdSort h p n c).m_allComponents
      = (appendComponent stdSort h p n c).m_components
        ++ (appendComponent stdSort h p n c).m_virtualComponents := by
  rw [appendComponent_m_components_any, appendComponent_m_virtualComponents_any,
    appendComponent_eq, setTristate_m_allComponents, setParent_m_allComponents]
  cases hpar : (h n).m_parent with
  | none =>
    simp only [appendedChildren, setChildren_m_allComponents]
    by_cases hcp : c = p
    · subst hcp; simp
    · simp [hcp, hall]
  | some q =>
    simp only [removeComponent_m_allComponents, appendedChildren, setChildren_m_allComponents,
      setChildren_m_components, setChildren_m_virtualComponents, setChildren_m_parent, hpar,
      true_and]
    by_cases hcq : c = q
    · subst hcq; simp
    · have hqc : ¬ q = c := fun e => hcq e.symm
      by_cases hcp : c = p
      · subst hcp; simp [hcq, hqc]
      · simp [hcq, hqc, hcp, hall]


theorem value_setValue_self (d : ComponentPrivate) (key v : QString) :
    value (setValue d key v).1 key = v := by
  unfold setValue
  split
  · next heq => exact heq
  · simp [value, hashValue, hashFind_hashInsert_self]

theorem PartitionInv.afterAppend {stdSort : StdSort} (hs : StdSortContract stdSort) {h : Heap}
    (inv : PartitionInv h) (p n : Nat) : PartitionInv (appendComponent stdSort h p n) := by
  have hvirt : ∀ c, isVirtual (appendComponent stdSort h p n c) = isVirtual (h c) :=
    fun c => isVirtual_congr _ _ (appendComponent_m_vars stdSort h p n c)
  have hperm := hs.perm (fun a => sortingPriority (h a)) ((h p).m_components ++ [n])
  have hbefore : ∀ c a,
      a ∈ (if c = p then
            (if isVirtual (h n) = true then (h p).m_components
             else stdSort (SortingPriorityLessThan h) ((h p).m_components ++ [n]))
            else (h c).m_components) →
      a ∈ (h c).m_components ∨ (a = n ∧ c = p ∧ isVirtual (h n) = false) := by
    intro c a ha
    by_cases hcp : c = p
    · subst hcp
      rw [if_pos rfl] at ha
      by_cases hv : isVirtual (h n) = true
      · rw [if_pos hv] at ha; exact Or.inl ha
      · rw [if_neg hv] at ha
        have hmem := hperm.mem_iff.1 ha
        rcases List.mem_append.1 hmem with hm | hm
        · exact Or.inl hm
        · exact Or.inr ⟨by simpa using hm, rfl, by simpa using hv⟩
    · rw [if_neg hcp] at ha; exact Or.inl ha
  refine ⟨fun c => appendComponent_m_allComponents_any stdSort h p n c (inv.all c), ?_⟩
  intro c a ha
  rw [appendComponent_m_components_any] at ha
  rw [hvirt, appendComponent_m_parent]
  by_cases hpar : (h n).m_parent = some c
  · rw [if_pos hpar] at ha
    obtain ⟨hmem, hne⟩ := (mem_removeAll _ _ _).1 ha
    rcases hbefore c a hmem with hold | ⟨han, _, _⟩
    · rw [if_neg hne]; exact inv.real c a hold
    · exact absurd han hne
  · rw [if_neg hpar] at ha
    rcases hbefore c a ha with hold | ⟨han, hcp, hv⟩
    · by_cases han : a = n
      · subst han
        exact absurd (inv.real c a hold).2 hpar
      · rw [if_neg han]; exact inv.real c a hold
    · subst han; subst hcp
      rw [if_pos rfl]
      exact ⟨hv, rfl⟩

theorem PartitionInv.afterRemove {h : Heap} (inv : PartitionInv h) (p n : Nat) :
    PartitionInv (removeComponent h p n) := by
  have hvirt : ∀ c, isVirtual (removeComponent h p n c) = isVirtual (h c) :=
    fun c => isVirtual_congr _ _ (removeComponent_m_vars h p n c)
  constructor
  · intro c
    rw [removeComponent_m_allComponents, removeComponent_m_components,
      removeComponent_m_virtualComponents]
    split_ifs
    · rfl
    · exact inv.all c
  · intro c a ha
    rw [removeComponent_m_components] at ha
    rw [hvirt, removeComponent_m_parent]
    by_cases hcond : (h n).m_parent = some p ∧ c = p
    · rw [if_pos hcond] at ha
      obtain ⟨hmem, hne⟩ := (mem_removeAll _ _ _).1 ha
      rw [if_neg (fun hc => hne hc.2)]
      exact inv.real c a hmem
    · rw [if_neg hcond] at ha
      have hold := inv.real c a ha
      by_cases hrem : (h n).m_parent = some p ∧ a = n
      · obtain ⟨hpar, han⟩ := hrem
        subst han
        have hcp : c = p := by
          have := hold.2
          rw [hpar] at this
          exact (Option.some.inj this).symm
        exact absurd ⟨hpar, hcp⟩ hcond
      · rw [if_neg hrem]; exact hold

theorem PartitionInv.afterSetValue {h : Heap} (inv : PartitionInv h) (c : Nat) (key v : QString)
    (hadm : key ≠ skVirtual ∨ (h c).m_parent = none ∨ toLower v ≠ "true".toList) :
    PartitionInv (h.set c (setValue (h c) key v).1) := by
  have hfield : ∀ a, (h.set c (QInstaller.setValue (h c) key v).1 a).m_parent = (h a).m_parent
      ∧ (h.set c (QInstaller.setValue (h c) key v).1 a).m_components = (h a).m_components
      ∧ (h.set c (QInstaller.setValue (h c) key v).1 a).m_virtualComponents
          = (h a).m_virtualComponents
      ∧ (h.set c (QInstaller.setValue (h c) key v).1 a).m_allComponents
          = (h a).m_allComponents := by
    intro a
    by_cases hac : a = c
    · subst hac
      simp only [Heap.set_same, QInstaller.setValue]
      split_ifs <;> simp
    · simp [Heap.set_other _ _ _ _ hac]
  constructor
  · intro q
    rw [(hfield q).2.2.2, (hfield q).2.1, (hfield q).2.2.1]
    exact inv.all q
  · intro q a ha
    rw [(hfield q).2.1] at ha
    rw [(hfield a).1]
    have hold := inv.real q a ha
    refine ⟨?_, hold.2⟩
    by_cases hac : a = c
    · subst hac
      rcases hadm with hkey | hnone | hvalue
      · simp only [Heap.set_same, isVirtual]
        rw [value_setValue_other _ _ _ _ (Ne.symm hkey)]
        exact hold.1
      · rw [hold.2] at hnone; exact absurd hnone (by simp)
      · by_cases hkey : key = skVirtual
        · subst hkey
          simp only [Heap.set_same, isVirtual, value_setValue_self]
          exact decide_eq_false hvalue
        · simp only [Heap.set_same, isVirtual]
          rw [value_setValue_other _ _ _ _ (Ne.symm hkey)]
          exact hold.1
    · rw [Heap.set_other _ _ _ _ hac]; exact hold.1

theorem PartitionInv.afterRun {stdSort : StdSort} (hs : StdSortContract stdSort)
    (calls : List Call) :
    ∀ (h : Heap), PartitionInv h → keepsVirtual stdSort h calls = true →
      PartitionInv (run stdSort h calls) := by
  induction calls with
  | nil => intro h inv _; exact inv
  | cons call calls ih =>
    intro h inv hadm
    simp only [keepsVirtual, Bool.and_eq_true] at hadm
    apply ih _ _ hadm.2
    cases call with
    | appendComponent p n => exact inv.afterAppend hs p n
    | removeComponent p n => exact inv.afterRemove p n
    | setValue c key v =>
      exact inv.afterSetValue c key v (by simpa [callKeepsVirtual] using hadm.1)

/-- C19 (as stated, refuted): component 1 is appended to component 0 and then `setValue` sets
its `Virtual` to `true`. Component 1 is now virtual and still in the real-children sequence
`m_components` of its parent, not in the virtual one: the sequences are filled when a child is
appended, and `setValue` does not move a child. -/
theorem virtual_after_append_stays_real :
    value (run insertionSort newComponents
      [Call.appendComponent 0 1, Call.setValue 1 skVirtual "true".toList] 1) skVirtual
      = "true".toList ∧
    (run insertionSort newComponents
      [Call.appendComponent 0 1, Call.setValue 1 skVirtual "true".toList] 1).m_parent
      = some 0 ∧
    (run insertionSort newComponents
      [Call.appendComponent 0 1, Call.setValue 1 skVirtual "true".toList] 0).m_components
      = [1] ∧
    (run insertionSort newComponents
      [Call.appendComponent 0 1, Call.setValue 1 skVirtual "true".toList] 0).m_virtualComponents
      = [] := by
  decide

/-- C19 (amended): start from new components and make any sequence of `appendComponent`,
`removeComponent` and `setValue` calls in which `Virtual` is not set to `true` (in any letter
case) on a component that has a parent. Then, with `std::sort` any routine that meets its contract, a component whose `Virtual`
value is `true` never appears in a real-children sequence `m_components`; where it appears in a
combined sequence it is in the virtual part. -/
theorem virtual_never_among_real (stdSort : StdSort) (hs : StdSortContract stdSort)
    (h0 : Heap)
    (hnew : ∀ c, (h0 c).m_components = [] ∧ (h0 c).m_virtualComponents = [] ∧
      (h0 c).m_allComponents = [])
    (calls : List Call) (hadm : keepsVirtual stdSort h0 calls = true) (p n : Nat)
    (hvirtual : isVirtual (run stdSort h0 calls n) = true) :
    n ∉ (run stdSort h0 calls p).m_components ∧
    (n ∈ (run stdSort h0 calls p).m_allComponents →
      n ∈ (run stdSort h0 calls p).m_virtualComponents) ∧
    (run stdSort h0 calls p).m_allComponents
      = (run stdSort h0 calls p).m_components ++ (run stdSort h0 calls p).m_virtualComponents := by
  have inv0 : PartitionInv h0 := by
    constructor
    · intro c; simp [(hnew c).1, (hnew c).2.1, (hnew c).2.2]
    · intro c a ha; rw [(hnew c).1] at ha; simp at ha
  have inv := PartitionInv.afterRun hs calls h0 inv0 hadm
  have hnot : n ∉ (run stdSort h0 calls p).m_components := by
    intro hmem
    have := (inv.real p n hmem).1
    rw [hvirtual] at this
    exact absurd this (by simp)
  refine ⟨hnot, ?_, inv.all p⟩
  intro hmem
  rw [inv.all p] at hmem
  rcases List.mem_append.1 hmem with h1 | h1
  · exact absurd h1 hnot
  · exact h1

/-- C19 (amended), on an input: in the small tree component 3 is virtual; it is not among the
real children `[2, 1]` of component 0 and is its one virtual child. -/
theorem virtual_never_among_real_witness :
    keepsVirtual insertionSort newComponents smallTree = true ∧
    isVirtual (run insertionSort newComponents smallTree 3) = true ∧
    (run insertionSort newComponents smallTree 0).m_components = [2, 1] ∧
    (run insertionSort newComponents smallTree 0).m_virtualComponents = [3] ∧
    3 ∉ (run insertionSort newComponents smallTree 0).m_components :=
  ⟨by decide, by decide, by decide, by decide,
    (virtual_never_among_real insertionSort insertionSort_contract newComponents
      (fun _ => ⟨rfl, rfl, rfl⟩) smallTree (by decide) 0 3 (by decide)).1⟩


/-! ## The recursive child sequence -/

theorem foldlM_childComponents (f : Nat → Option (List Nat)) (g : Nat → List Nat) :
    ∀ (l : List Nat) (init : List Nat), (∀ k ∈ l, f k = some (g k)) →
      l.foldlM (fun result component => (f component).map
        (fun below => result ++ [component] ++ below)) init
        = some (init ++ l.flatMap (fun k => k :: g k)) := by
  intro l
  induction l with
  | nil => intro init _; simp
  | cons k rest ih =>
    intro init hf
    rw [List.foldlM_cons, hf k (List.mem_cons_self _ _)]
    simp only [Option.map_some', Option.bind_eq_bind, Option.some_bind]
    rw [ih _ (fun j hj => hf j (List.mem_cons_of_mem _ hj))]
    simp [List.flatMap_cons]

theorem flatMap_congr_mem {f g : Nat → List Nat} :
    ∀ (l : List Nat), (∀ k ∈ l, f k = g k) → l.flatMap f = l.flatMap g := by
  intro l
  induction l with
  | nil => intro _; rfl
  | cons k rest ih =>
    intro hfg
    rw [List.flatMap_cons, List.flatMap_cons, hfg k (List.mem_cons_self _ _),
      ih (fun j hj => hfg j (List.mem_cons_of_mem _ hj))]

theorem childComponents_eq_preorder {h : Heap} {nodes : List Nat} {depth : Nat → Nat}
    (tree : FiniteTree h nodes depth) :
    ∀ (fuel c : Nat), c ∈ nodes → depth c < fuel →
      childComponents h fuel c true RunMode.AllMode = some (preorder h fuel c) := by
  intro fuel
  induction fuel with
  | zero => intro c _ hd; exact absurd hd (Nat.not_lt_zero _)
  | succ fuel ih =>
    intro c hc hd
    have hkids : ∀ k ∈ (h c).m_allComponents,
        childComponents h fuel k true RunMode.AllMode = some (preorder h fuel k) := by
      intro k hk
      exact ih k (tree.closed c hc k hk) (by have := tree.below c hc k hk; omega)
    simp only [childComponents, preorder]
    rw [foldlM_childComponents _ (preorder h fuel) _ [] hkids]
    simp

theorem preorder_fuel {h : Heap} {nodes : List Nat} {depth : Nat → Nat}
    (tree : FiniteTree h nodes depth) :
    ∀ (f1 f2 c : Nat), c ∈ nodes → depth c < f1 → depth c < f2 →
      preorder h f1 c = preorder h f2 c := by
  intro f1
  induction f1 with
  | zero => intro f2 c _ hd; exact absurd hd (Nat.not_lt_zero _)
  | succ f1 ih =>
    intro f2 c hc _ hd2
    cases f2 with
    | zero => exact absurd hd2 (Nat.not_lt_zero _)
    | succ f2 =>
      simp only [preorder]
      apply flatMap_congr_mem
      intro k hk
      have := tree.below c hc k hk
      rw [ih f2 k (tree.closed c hc k hk) (by omega) (by omega)]

theorem preorder_unfold {h : Heap} {nodes : List Nat} {depth : Nat → Nat}
    (tree : FiniteTree h nodes depth) (fuel c : Nat) (hc : c ∈ nodes) (hd : depth c < fuel) :
    preorder h fuel c
      = (h c).m_allComponents.flatMap (fun k => k :: preorder h fuel k) := by
  cases fuel with
  | zero => exact absurd hd (Nat.not_lt_zero _)
  | succ fuel =>
    simp only [preorder]
    apply flatMap_congr_mem
    intro k hk
    have := tree.below c hc k hk
    rw [preorder_fuel tree fuel (fuel + 1) k (tree.closed c hc k hk) (by omega) (by omega)]
    simp only [preorder]

theorem Descendant.lower {h : Heap} {nodes : List Nat} {depth : Nat → Nat}
    (tree : FiniteTree h nodes depth) {c x : Nat} (hx : Descendant h c x) :
    c ∈ nodes → x ∈ nodes ∧ depth x < depth c := by
  induction hx with
  | direct hk => intro hc; exact ⟨tree.closed _ hc _ hk, tree.below _ hc _ hk⟩
  | deeper hk _ ih =>
    intro hc
    have h1 := ih (tree.closed _ hc _ hk)
    have h2 := tree.below _ hc _ hk
    exact ⟨h1.1, by omega⟩

theorem Descendant.last {h : Heap} {c x : Nat} (hx : Descendant h c x) :
    ∃ z, x ∈ (h z).m_allComponents ∧ (z = c ∨ Descendant h c z) := by
  induction hx with
  | direct hk => exact ⟨_, hk, Or.inl rfl⟩
  | deeper hk _ ih =>
    obtain ⟨z, hz, hzk⟩ := ih
    refine ⟨z, hz, Or.inr ?_⟩
    rcases hzk with rfl | hzk
    · exact Descendant.direct hk
    · exact Descendant.deeper hk hzk

theorem mem_preorder {h : Heap} {nodes : List Nat} {depth : Nat → Nat}
    (tree : FiniteTree h nodes depth) (fuel c x : Nat) (hc : c ∈ nodes) (hd : depth c < fuel) :
    x ∈ preorder h fuel c ↔ Descendant h c x := by
  constructor
  · revert c x
    induction fuel with
    | zero => intro c x _ hd; exact absurd hd (Nat.not_lt_zero _)
    | succ fuel ih =>
      intro c x hc hd hx
      simp only [preorder, List.mem_flatMap, List.mem_cons] at hx
      obtain ⟨k, hk, hxk⟩ := hx
      rcases hxk with rfl | hxk
      · exact Descendant.direct hk
      · have := tree.below c hc k hk
        exact Descendant.deeper hk (ih k x (tree.closed c hc k hk) (by omega) hxk)
  · intro hx
    revert fuel
    induction hx with
    | direct hk =>
      intro fuel hd
      rw [preorder_unfold tree fuel _ hc hd]
      exact List.mem_flatMap.2 ⟨_, hk, List.mem_cons_self _ _⟩
    | deeper hk _ ih =>
      intro fuel hd
      rw [preorder_unfold tree fuel _ hc hd]
      have := tree.below _ hc _ hk
      exact List.mem_flatMap.2
        ⟨_, hk, List.mem_cons_of_mem _ (ih (tree.closed _ hc _ hk) fuel (by omega))⟩

theorem ancestors_chain {h : Heap} {nodes : List Nat} {depth : Nat → Nat}
    (tree : FiniteTree h nodes depth) (k1 k2 : Nat) (h1 : k1 ∈ nodes) (h2 : k2 ∈ nodes) :
    ∀ (n x : Nat), depth k1 - depth x ≤ n →
      (x = k1 ∨ Descendant h k1 x) → (x = k2 ∨ Descendant h k2 x) →
      (k2 = k1 ∨ Descendant h k1 k2) ∨ (k1 = k2 ∨ Descendant h k2 k1) := by
  intro n
  induction n with
  | zero =>
    intro x hn hx1 hx2
    rcases hx1 with rfl | hx1
    · exact Or.inr hx2
    · have := (hx1.lower tree h1).2
      omega
  | succ n ih =>
    intro x hn hx1 hx2
    rcases hx1 with rfl | hx1
    · exact Or.inr hx2
    · rcases hx2 with rfl | hx2
      · exact Or.inl (Or.inr hx1)
      · obtain ⟨z1, hz1, hr1⟩ := hx1.last
        obtain ⟨z2, hz2, hr2⟩ := hx2.last
        have hz1n : z1 ∈ nodes := by
          rcases hr1 with rfl | hr1
          · exact h1
          · exact (hr1.lower tree h1).1
        have hz2n : z2 ∈ nodes := by
          rcases hr2 with rfl | hr2
          · exact h2
          · exact (hr2.lower tree h2).1
        have hz : z1 = z2 := tree.parent z1 hz1n z2 hz2n x hz1 hz2
        subst hz
        have hlow := tree.below z1 hz1n x hz1
        have hup : depth z1 ≤ depth k1 := by
          rcases hr1 with rfl | hr1
          · exact le_refl _
          · exact le_of_lt (hr1.lower tree h1).2
        exact ih z1 (by omega) hr1 hr2

theorem siblings_disjoint {h : Heap} {nodes : List Nat} {depth : Nat → Nat}
    (tree : FiniteTree h nodes depth) (c k1 k2 x : Nat) (hc : c ∈ nodes)
    (hk1 : k1 ∈ (h c).m_allComponents) (hk2 : k2 ∈ (h c).m_allComponents) (hne : k1 ≠ k2)
    (hx1 : x = k1 ∨ Descendant h k1 x) (hx2 : x = k2 ∨ Descendant h k2 x) : False := by
  have h1 := tree.closed c hc k1 hk1
  have h2 := tree.closed c hc k2 hk2
  have hnot : ∀ a b, a ∈ (h c).m_allComponents → b ∈ (h c).m_allComponents →
      Descendant h a b → False := by
    intro a b ha hb hab
    have han := tree.closed c hc a ha
    obtain ⟨z, hz, hr⟩ := hab.last
    have hzn : z ∈ nodes := by
      rcases hr with rfl | hr
      · exact han
      · exact (hr.lower tree han).1
    have hzc : z = c := tree.parent z hzn c hc b hz hb
    subst hzc
    have hlow := tree.below z hc a ha
    rcases hr with rfl | hr
    · omega
    · have := (hr.lower tree han).2
      omega
  rcases ancestors_chain tree k1 k2 h1 h2 (depth k1) x (by omega) hx1 hx2 with
    (heq | hd) | (heq | hd)
  · exact hne heq.symm
  · exact hnot k1 k2 hk1 hk2 hd
  · exact hne heq
  · exact hnot k2 k1 hk2 hk1 hd

theorem preorder_nodup {h : Heap} {nodes : List Nat} {depth : Nat → Nat}
    (tree : FiniteTree h nodes depth) :
    ∀ (fuel c : Nat), c ∈ nodes → depth c < fuel → (preorder h fuel c).Nodup := by
  intro fuel
  induction fuel with
  | zero => intro c _ hd; exact absurd hd (Nat.not_lt_zero _)
  | succ fuel ih =>
    intro c hc hd
    simp only [preorder]
    rw [List.nodup_flatMap]
    constructor
    · intro k hk
      have hkn := tree.closed c hc k hk
      have hkd : depth k < fuel := by have := tree.below c hc k hk; omega
      rw [List.nodup_cons]
      refine ⟨?_, ih k hkn hkd⟩
      intro hmem
      have := (((mem_preorder tree fuel k k hkn hkd).1 hmem).lower tree hkn).2
      omega
    · apply (tree.nodup c hc).pairwise_of_forall_ne
      intro k1 hk1 k2 hk2 hne x hx1 hx2
      have hk1n := tree.closed c hc k1 hk1
      have hk2n := tree.closed c hc k2 hk2
      have hd1 : depth k1 < fuel := by have := tree.below c hc k1 hk1; omega
      have hd2 : depth k2 < fuel := by have := tree.below c hc k2 hk2; omega
      refine siblings_disjoint tree c k1 k2 x hc hk1 hk2 hne ?_ ?_
      · rcases List.mem_cons.1 hx1 with rfl | hx1
        · exact Or.inl rfl
        · exact Or.inr ((mem_preorder tree fuel k1 x hk1n hd1).1 hx1)
      · rcases List.mem_cons.1 hx2 with rfl | hx2
        · exact Or.inl rfl
        · exact Or.inr ((mem_preorder tree fuel k2 x hk2n hd2).1 hx2)

/-- C18: in a finite component tree, outside updater mode and with fuel above the depth of the
component, `childComponents(true)` returns the pre-order flattening of what is below the
component: for each child `k`, in the order of `childComponents(false)`, `k` followed by
`k.childComponents(true)`. The components in it are the proper descendants, each exactly once,
so its length is their number. -/
theorem childComponents_recursive_preorder (h : Heap) (nodes : List Nat) (depth : Nat → Nat)
    (tree : FiniteTree h nodes depth) (fuel c : Nat) (hc : c ∈ nodes)
    (hfuel : depth c < fuel) :
    ∃ (result children : List Nat) (below : Nat → List Nat),
      childComponents h fuel c true RunMode.AllMode = some result ∧
      childComponents h fuel c false RunMode.AllMode = some children ∧
      (∀ k ∈ children, childComponents h fuel k true RunMode.AllMode = some (below k)) ∧
      result = children.flatMap (fun k => k :: below k) ∧
      result.Nodup ∧
      (∀ x, x ∈ result ↔ Descendant h c x) ∧
      (∀ x, Descendant h c x → result.count x = 1) ∧
      (∀ s : Finset Nat, (∀ x, x ∈ s ↔ Descendant h c x) → result.length = s.card) := by
  have hnodup := preorder_nodup tree fuel c hc hfuel
  have hmem := fun x => mem_preorder tree fuel c x hc hfuel
  refine ⟨preorder h fuel c, (h c).m_allComponents, preorder h fuel,
    childComponents_eq_preorder tree fuel c hc hfuel, ?_, ?_,
    preorder_unfold tree fuel c hc hfuel, hnodup, hmem, ?_, ?_⟩
  · cases fuel <;> rfl
  · intro k hk
    have := tree.below c hc k hk
    exact childComponents_eq_preorder tree fuel k (tree.closed c hc k hk) (by omega)
  · intro x hx
    exact List.count_eq_one_of_mem hnodup ((hmem x).2 hx)
  · intro s hs
    have : s = (preorder h fuel c).toFinset := by
      ext x
      rw [hs x, List.mem_toFinset, hmem x]
    rw [this, List.toFinset_card_of_nodup hnodup]


/-- C18, on an input: in the small tree, where component 0 has the children 2, 1 and 3 and
component 2 has the child 4, `childComponents(true)` of component 0 is `[2, 4, 1, 3]`, and its
members are the descendants of component 0. -/
theorem childComponents_recursive_preorder_witness :
    FiniteTree (run insertionSort newComponents smallTree) [0, 1, 2, 3, 4] smallTreeDepth ∧
    smallTreeDepth 0 < 3 ∧
    childComponents (run insertionSort newComponents smallTree) 3 0 true RunMode.AllMode
      = some [2, 4, 1, 3] ∧
    (∀ x, x ∈ [2, 4, 1, 3] ↔ Descendant (run insertionSort newComponents smallTree) 0 x) := by
  have tree : FiniteTree (run insertionSort newComponents smallTree) [0, 1, 2, 3, 4]
      smallTreeDepth := ⟨by decide, by decide, by decide, by decide⟩
  obtain ⟨result, _, _, hresult, _, _, _, _, hmem, _, _⟩ :=
    childComponents_recursive_preorder (run insertionSort newComponents smallTree)
      [0, 1, 2, 3, 4] smallTreeDepth tree 3 0 (by decide) (by decide)
  have heval : childComponents (run insertionSort newComponents smallTree) 3 0 true
      RunMode.AllMode = some [2, 4, 1, 3] := by decide
  have hsame : result = [2, 4, 1, 3] := Option.some.inj (hresult.symm.trans heval)
  subst hsame
  exact ⟨tree, by decide, heval, hmem⟩


/-! ## The remote server -/

theorem start_of_listening (now : Nat) (d : RemoteServerPrivate)
    (hlistening : d.m_tcpServer.isSome = true) : RemoteServer.start now d = Except.ok d := by
  simp [RemoteServer.start, hlistening]

theorem start_listening (now : Nat) (d d1 : RemoteServerPrivate)
    (hstart : RemoteServer.start now d = Except.ok d1) : d1.m_tcpServer.isSome = true := by
  by_cases hl : d.m_tcpServer.isSome = true
  · rw [start_of_listening now d hl] at hstart
    injection hstart with hstart
    rw [← hstart]; exact hl
  · simp only [RemoteServer.start, hl, Bool.false_eq_true, if_false] at hstart
    split_ifs at hstart
    · split at hstart
      · exact absurd hstart (by simp)
      · injection hstart with hstart
        rw [← hstart]; rfl
    · injection hstart with hstart
      rw [← hstart]; rfl

theorem start_release (now : Nat) (d : RemoteServerPrivate) (watchdog : QTimer)
    (hrelease : d.m_mode = RemoteServer.Mode.Release) (hfresh : d.m_tcpServer = none)
    (hwatchdog : d.m_watchdog = some watchdog) :
    RemoteServer.start now d = Except.ok { d with
      m_tcpServer := some { port := d.m_port, address := d.m_address }
      connections := d.connections
        ++ [Connection.threadFinished_deleteLater,
            Connection.newIncommingConnection_restartWatchdog]
        ++ [Connection.timeout_deleteLater]
      threadStarted := true
      m_watchdog := some (watchdog.start now) } := by
  simp [RemoteServer.start, hrelease, hfresh, hwatchdog]

theorem start_debug (now : Nat) (d : RemoteServerPrivate)
    (hdebug : d.m_mode = RemoteServer.Mode.Debug) (hfresh : d.m_tcpServer = none) :
    RemoteServer.start now d = Except.ok { d with
      m_tcpServer := some { port := d.m_port, address := d.m_address }
      connections := d.connections
        ++ [Connection.threadFinished_deleteLater,
            Connection.newIncommingConnection_restartWatchdog]
      threadStarted := true
      m_key := DebugAuthorizationKey } := by
  simp [RemoteServer.start, hdebug, hfresh, RemoteServer.setAuthorizationKey]

theorem Watched.connection {interval : Nat} {d : RemoteServerPrivate} (hw : Watched interval d)
    (now : Nat) :
    Watched interval (newIncommingConnection now d) ∧
    watchdogDeadline (newIncommingConnection now d) = some (now + interval) := by
  obtain ⟨watchdog, hsome, hint⟩ := hw.timer
  have heq : newIncommingConnection now d
      = { d with m_watchdog := some (watchdog.start now) } := by
    simp [newIncommingConnection, hw.connected, RemoteServer.restartWatchdog, hsome]
  rw [heq]
  refine ⟨⟨hw.listening, hw.connected, _, rfl, hint⟩, ?_⟩
  simp [watchdogDeadline, QTimer.start, hint]

theorem Watched.elapse {interval : Nat} {d : RemoteServerPrivate} (hw : Watched interval d)
    (now : Nat) : Watched interval (elapse now d) := by
  obtain ⟨watchdog, hsome, hint⟩ := hw.timer
  unfold QInstaller.elapse
  rw [hsome]
  simp only
  split
  · exact hw
  · split_ifs
    · exact ⟨hw.listening, hw.connected, _, rfl, hint⟩
    · exact hw

theorem Watched.afterEvents {interval : Nat} (events : List ServerEvent) :
    ∀ (d : RemoteServerPrivate), Watched interval d →
      ∃ d1, serveAll d events = Except.ok d1 ∧ Watched interval d1 := by
  induction events with
  | nil => intro d hw; exact ⟨d, rfl, hw⟩
  | cons event events ih =>
    intro d hw
    cases event with
    | start now =>
      obtain ⟨d1, h1, hw1⟩ := ih d hw
      refine ⟨d1, ?_, hw1⟩
      simp only [QInstaller.serveAll, serve, start_of_listening now d hw.listening]
      exact h1
    | newIncommingConnection now =>
      obtain ⟨d1, h1, hw1⟩ := ih _ (hw.connection now).1
      exact ⟨d1, by simpa only [QInstaller.serveAll, serve] using h1, hw1⟩
    | elapse now =>
      obtain ⟨d1, h1, hw1⟩ := ih _ (hw.elapse now)
      exact ⟨d1, by simpa only [QInstaller.serveAll, serve] using h1, hw1⟩

theorem Unwatched.serve {d : RemoteServerPrivate} (hu : Unwatched d) (event : ServerEvent) :
    ∃ d1, serve d event = Except.ok d1 ∧ Unwatched d1 := by
  cases event with
  | start now =>
    by_cases hl : d.m_tcpServer.isSome = true
    · exact ⟨d, start_of_listening now d hl, hu⟩
    · have hfresh : d.m_tcpServer = none := by
        cases hd : d.m_tcpServer with
        | none => rfl
        | some _ => rw [hd] at hl; exact absurd rfl hl
      refine ⟨_, start_debug now d hu.debug hfresh, hu.debug, ?_, hu.alive⟩
      have := hu.unconnected
      simp [this]
  | newIncommingConnection now =>
    refine ⟨_, rfl, ?_⟩
    unfold newIncommingConnection RemoteServer.restartWatchdog
    split_ifs
    · split
      · exact ⟨hu.debug, hu.unconnected, hu.alive⟩
      · exact hu
    · exact hu
  | elapse now =>
    refine ⟨_, rfl, ?_⟩
    unfold elapse
    split
    · exact hu
    · split
      · exact hu
      · split_ifs
        · refine ⟨hu.debug, hu.unconnected, ?_⟩
          have h1 := hu.unconnected
          have h2 := hu.alive
          simp [h1, h2]
        · exact hu

theorem Unwatched.serveAll (events : List ServerEvent) :
    ∀ (d : RemoteServerPrivate), Unwatched d →
      ∃ d1, serveAll d events = Except.ok d1 ∧ Unwatched d1 := by
  induction events with
  | nil => intro d hu; exact ⟨d, rfl, hu⟩
  | cons event events ih =>
    intro d hu
    obtain ⟨d1, h1, hu1⟩ := hu.serve event
    obtain ⟨d2, h2, hu2⟩ := ih d1 hu1
    refine ⟨d2, ?_, hu2⟩
    simp only [QInstaller.serveAll, h1]
    exact h2

/-- C14: on a server whose listener exists, or that a call of `start()` has returned, a call
of `start()` returns the server as it is: no listener is created, the watchdog is neither
started nor connected, the key and the connections are as they were, in either mode. -/
theorem start_is_idempotent (d : RemoteServerPrivate) (now : Nat)
    (hlistening : d.m_tcpServer ≠ none ∨
      ∃ d0 before, RemoteServer.start before d0 = Except.ok d) :
    RemoteServer.start now d = Except.ok d := by
  apply start_of_listening
  rcases hlistening with hl | ⟨d0, before, hstart⟩
  · cases hd : d.m_tcpServer with
    | none => exact absurd hd hl
    | some _ => rfl
  · exact start_listening before d0 d hstart

/-- C14, on an input: the server started in release mode at time 0 is as it was after a second
`start()` at time 7, its watchdog still due at time 30. -/
theorem start_is_idempotent_witness :
    ∃ d1, RemoteServer.start 0 (idleServer "secret".toList 30) = Except.ok d1 ∧
      watchdogDeadline d1 = some 30 ∧
      RemoteServer.start 7 d1 = Except.ok d1 :=
  ⟨_, rfl, by decide,
    start_is_idempotent _ 7 (Or.inr ⟨idleServer "secret".toList 30, 0, rfl⟩)⟩

/-- C15: a server in release mode that has a watchdog and is started at time `t0` has the
watchdog due at `t0` plus its interval. After whatever follows, a connection the listener
accepts at time `t` makes the watchdog due at `t` plus the interval. With no connection the
deletion of the server is asked for from time `t0` plus the interval on and not before; with
a connection at a time `t1` before that it is asked for from `t1` plus the interval on. With
the interval 2 and a start at time 0: a connection at time 1 makes the watchdog due at time 3
and the server is there at time 2; with no connection its deletion is asked for at time 2. -/
theorem connection_resets_watchdog (d : RemoteServerPrivate) (watchdog : QTimer) (t0 : Nat)
    (hrelease : d.m_mode = RemoteServer.Mode.Release) (hfresh : d.m_tcpServer = none)
    (hwatchdog : d.m_watchdog = some watchdog) (halive : d.deleteLater = false) :
    ∃ d1, RemoteServer.start t0 d = Except.ok d1 ∧
      watchdogDeadline d1 = some (t0 + watchdog.interval) ∧
      (∀ events, ∃ d2, serveAll d1 events = Except.ok d2 ∧
        ∀ t, watchdogDeadline (newIncommingConnection t d2) = some (t + watchdog.interval)) ∧
      (∀ t, (elapse t d1).deleteLater = decide (t0 + watchdog.interval ≤ t)) ∧
      (∀ t1 t, t1 < t0 + watchdog.interval →
        (elapse t (newIncommingConnection t1 (elapse t1 d1))).deleteLater
          = decide (t1 + watchdog.interval ≤ t)) ∧
      (watchdog.interval = 2 → t0 = 0 →
        watchdogDeadline (newIncommingConnection 1 (elapse 1 d1)) = some 3 ∧
        (elapse 2 (newIncommingConnection 1 (elapse 1 d1))).deleteLater = false ∧
        (elapse 1 d1).deleteLater = false ∧
        (elapse 2 d1).deleteLater = true) := by
  have hwatched : Watched watchdog.interval { d with
      m_tcpServer := some { port := d.m_port, address := d.m_address }
      connections := d.connections
        ++ [Connection.threadFinished_deleteLater,
            Connection.newIncommingConnection_restartWatchdog]
        ++ [Connection.timeout_deleteLater]
      threadStarted := true
      m_watchdog := some (watchdog.start t0) } :=
    ⟨rfl, by simp, _, rfl, rfl⟩
  have hnone : ∀ t, (elapse t { d with
      m_tcpServer := some { port := d.m_port, address := d.m_address }
      connections := d.connections
        ++ [Connection.threadFinished_deleteLater,
            Connection.newIncommingConnection_restartWatchdog]
        ++ [Connection.timeout_deleteLater]
      threadStarted := true
      m_watchdog := some (watchdog.start t0) }).deleteLater
        = decide (t0 + watchdog.interval ≤ t) := by
    intro t
    simp only [elapse, QTimer.start]
    split_ifs with hdue <;> simp [hdue, halive]
  have hone : ∀ t1 t, t1 < t0 + watchdog.interval →
      (elapse t (newIncommingConnection t1 (elapse t1 { d with
      m_tcpServer := some { port := d.m_port, address := d.m_address }
      connections := d.connections
        ++ [Connection.threadFinished_deleteLater,
            Connection.newIncommingConnection_restartWatchdog]
        ++ [Connection.timeout_deleteLater]
      threadStarted := true
      m_watchdog := some (watchdog.start t0) }))).deleteLater
        = decide (t1 + watchdog.interval ≤ t) := by
    intro t1 t hbefore
    have hnot : ¬ t0 + watchdog.interval ≤ t1 := by omega
    simp only [elapse, QTimer.start, hnot, if_false, newIncommingConnection,
      RemoteServer.restartWatchdog]
    simp only [List.mem_append, List.mem_cons, List.mem_singleton, or_true, true_or,
      List.not_mem_nil, or_false, if_true]
    split_ifs with hdue <;> simp [hdue, halive]
  refine ⟨_, start_release t0 d watchdog hrelease hfresh hwatchdog, ?_, ?_, hnone, hone, ?_⟩
  · simp [watchdogDeadline, QTimer.start]
  · intro events
    obtain ⟨d2, h2, hw2⟩ := Watched.afterEvents events _ hwatched
    exact ⟨d2, h2, fun t => (hw2.connection t).2⟩
  · intro hint ht0
    subst ht0
    refine ⟨?_, ?_, ?_, ?_⟩
    · have := ((hwatched.elapse 1).connection 1).2
      rw [this, hint]
    · rw [hone 1 2 (by omega), hint]; decide
    · rw [hnone 1, hint]; decide
    · rw [hnone 2, hint]; decide


/-- C15, on an input: the server with a watchdog of interval 2 started in release mode at time
0. With a connection at time 1 the watchdog is due at time 3 and no deletion is asked for at
time 2; with no connection the deletion is asked for at time 2. -/
theorem connection_resets_watchdog_witness :
    ∃ d1, RemoteServer.start 0 (idleServer "secret".toList 2) = Except.ok d1 ∧
      watchdogDeadline d1 = some 2 ∧
      watchdogDeadline (newIncommingConnection 1 (elapse 1 d1)) = some 3 ∧
      (elapse 2 (newIncommingConnection 1 (elapse 1 d1))).deleteLater = false ∧
      (elapse 3 (newIncommingConnection 1 (elapse 1 d1))).deleteLater = true ∧
      (elapse 1 d1).deleteLater = false ∧
      (elapse 2 d1).deleteLater = true := by
  obtain ⟨d1, hstart, hdeadline, _, _, _, hscenario⟩ :=
    connection_resets_watchdog (idleServer "secret".toList 2)
      { interval := 2, singleShot := true, deadline := none } 0 rfl rfl rfl rfl
  obtain ⟨h1, h2, h3, h4⟩ := hscenario rfl rfl
  have hsame : d1 = { idleServer "secret".toList 2 with
      m_tcpServer := some { port := 39999, address := "127.0.0.1".toList }
      connections := [Connection.threadFinished_deleteLater,
        Connection.newIncommingConnection_restartWatchdog, Connection.timeout_deleteLater]
      threadStarted := true
      m_watchdog := some { interval := 2, singleShot := true, deadline := some 2 } } := by
    have heval : RemoteServer.start 0 (idleServer "secret".toList 2) = Except.ok
        { idleServer "secret".toList 2 with
          m_tcpServer := some { port := 39999, address := "127.0.0.1".toList }
          connections := [Connection.threadFinished_deleteLater,
            Connection.newIncommingConnection_restartWatchdog,
            Connection.timeout_deleteLater]
          threadStarted := true
          m_watchdog := some { interval := 2, singleShot := true, deadline := some 2 } } :=
      rfl
    rw [heval] at hstart
    injection hstart with hstart
    exact hstart.symm
  refine ⟨d1, hstart, hdeadline, h1, h2, ?_, h3, h4⟩
  subst hsame
  decide

/-- C16 (as stated, refuted): the server in debug mode that has the watchdog of a server for
release mode. `start()` does not start the watchdog, but the connection the listener accepts
at time 1 does: `restartWatchdog()` does not look at the mode, and the watchdog is then
running, due at time 31. -/
theorem debug_connection_starts_watchdog :
    (debugServer "secret".toList 30).m_mode = RemoteServer.Mode.Debug ∧
    watchdogDeadline (debugServer "secret".toList 30) = none ∧
    ∃ d1 d2, RemoteServer.start 0 (debugServer "secret".toList 30) = Except.ok d1 ∧
      watchdogDeadline d1 = none ∧
      serveAll (debugServer "secret".toList 30)
        [ServerEvent.start 0, ServerEvent.newIncommingConnection 1] = Except.ok d2 ∧
      d2 = RemoteServer.restartWatchdog 1 d1 ∧
      d2.m_mode = RemoteServer.Mode.Debug ∧
      watchdogDeadline d2 = some 31 :=
  ⟨rfl, rfl, _, _, rfl, by decide, rfl, by decide, by decide, by decide⟩

/-- C16 (amended): on a server in debug mode on which the timeout of the watchdog is not
connected and no deletion is asked for, after every sequence of `start()` calls, connections
the listener accepts and runs of the event loop: the server is in debug mode, the timeout of
the watchdog is connected to nothing and no deletion of the server is asked for; a `start()`
leaves the watchdog as it is. A connection the listener tells the server of does start a
watchdog that is there, since `restartWatchdog()` does not look at the mode. -/
theorem debug_never_terminates (d : RemoteServerPrivate) (events : List ServerEvent)
    (hdebug : d.m_mode = RemoteServer.Mode.Debug)
    (hunconnected : Connection.timeout_deleteLater ∉ d.connections)
    (halive : d.deleteLater = false) :
    ∃ d1, serveAll d events = Except.ok d1 ∧
      d1.m_mode = RemoteServer.Mode.Debug ∧
      Connection.timeout_deleteLater ∉ d1.connections ∧
      d1.deleteLater = false ∧
      (∀ now, ∃ d2, RemoteServer.start now d1 = Except.ok d2 ∧
        d2.m_watchdog = d1.m_watchdog ∧
        Connection.timeout_deleteLater ∉ d2.connections) ∧
      (∀ now watchdog, d1.m_watchdog = some watchdog →
        Connection.newIncommingConnection_restartWatchdog ∈ d1.connections →
        watchdogDeadline (newIncommingConnection now d1) = some (now + watchdog.interval)) := by
  obtain ⟨d1, h1, hu1⟩ := Unwatched.serveAll events d ⟨hdebug, hunconnected, halive⟩
  refine ⟨d1, h1, hu1.debug, hu1.unconnected, hu1.alive, ?_, ?_⟩
  · intro now
    by_cases hl : d1.m_tcpServer.isSome = true
    · exact ⟨d1, start_of_listening now d1 hl, rfl, hu1.unconnected⟩
    · have hfresh : d1.m_tcpServer = none := by
        cases hd : d1.m_tcpServer with
        | none => rfl
        | some _ => rw [hd] at hl; exact absurd rfl hl
      refine ⟨_, start_debug now d1 hu1.debug hfresh, rfl, ?_⟩
      have := hu1.unconnected
      simp [this]
  · intro now watchdog hsome hconnected
    simp [newIncommingConnection, hconnected, RemoteServer.restartWatchdog, hsome,
      watchdogDeadline, QTimer.start]

/-- C16 (amended), on an input: the server in debug mode started at time 0, a connection at
time 1 and the event loop at time 40, after the watchdog has been due: no deletion of the
server is asked for. -/
theorem debug_never_terminates_witness :
    ∃ d1, serveAll (debugServer "secret".toList 30)
        [ServerEvent.start 0, ServerEvent.newIncommingConnection 1, ServerEvent.elapse 40]
        = Except.ok d1 ∧
      d1.deleteLater = false :=
  (debug_never_terminates (debugServer "secret".toList 30)
    [ServerEvent.start 0, ServerEvent.newIncommingConnection 1, ServerEvent.elapse 40]
    rfl (by decide) rfl).imp (fun _ hd1 => ⟨hd1.1, hd1.2.2.2.1⟩)

/-- C17: on a server that has not been started and has the key `k` set: after `start()` in
debug mode `authorizationKey()` is `Protocol::DebugAuthorizationKey`, whatever `k` is; after
`start()` in release mode, which dereferences the watchdog, `authorizationKey()` is `k`. -/
theorem start_authorizationKey (d : RemoteServerPrivate) (k : QString) (now : Nat)
    (hfresh : d.m_tcpServer = none) :
    RemoteServer.authorizationKey (RemoteServer.setAuthorizationKey d k) = k ∧
    (d.m_mode = RemoteServer.Mode.Debug →
      ∃ d1, RemoteServer.start now (RemoteServer.setAuthorizationKey d k) = Except.ok d1 ∧
        RemoteServer.authorizationKey d1 = DebugAuthorizationKey) ∧
    (d.m_mode = RemoteServer.Mode.Release → d.m_watchdog ≠ none →
      ∃ d1, RemoteServer.start now (RemoteServer.setAuthorizationKey d k) = Except.ok d1 ∧
        RemoteServer.authorizationKey d1 = k) := by
  refine ⟨rfl, ?_, ?_⟩
  · intro hdebug
    exact ⟨_, start_debug now (RemoteServer.setAuthorizationKey d k) hdebug hfresh, rfl⟩
  · intro hrelease hwatchdog
    cases hw : d.m_watchdog with
    | none => exact absurd hw hwatchdog
    | some watchdog =>
      exact ⟨_, start_release now (RemoteServer.setAuthorizationKey d k) watchdog hrelease
        hfresh hw, rfl⟩

/-- C17, on an input: with the key `secret` set, the server started in debug mode has the key
`DebugMode` and the server started in release mode has the key `secret`. -/
theorem start_authorizationKey_witness :
    (∃ d1, RemoteServer.start 0
        (RemoteServer.setAuthorizationKey (debugServer [] 30) "secret".toList) = Except.ok d1 ∧
      RemoteServer.authorizationKey d1 = "DebugMode".toList) ∧
    (∃ d1, RemoteServer.start 0
        (RemoteServer.setAuthorizationKey (idleServer [] 30) "secret".toList) = Except.ok d1 ∧
      RemoteServer.authorizationKey d1 = "secret".toList) :=
  ⟨(start_authorizationKey (debugServer [] 30) "secret".toList 0 rfl).2.1 rfl,
    (start_authorizationKey (idleServer [] 30) "secret".toList 0 rfl).2.2 rfl (by decide)⟩


/-! ## The target of a path -/

theorem targetPath_starts (name path : QString) :
    "@TargetDir@".toList <+: targetPath name path := by
  unfold targetPath
  split_ifs
  · simp only
    split
    · exact List.prefix_append _ _
    · exact List.prefix_refl _
  · exact List.prefix_append _ _

theorem configureOperation_arguments (env : Environment) (op : UpdateOperation)
    (parameters : List (Option QString)) :
    (markAdmin env (configureOperation env op parameters)).arguments
      = env.replaceVariables (parameters.filterMap id) := by
  unfold markAdmin configureOperation
  split_ifs <;> rfl

theorem configureOperation_name (env : Environment) (op : UpdateOperation)
    (parameters : List (Option QString)) :
    (markAdmin env (configureOperation env op parameters)).name = op.name := by
  unfold markAdmin configureOperation
  split_ifs <;> rfl

/-- C21 (as stated, refuted): two file entries of the form `installer://` ++ `pkg` ++ `rest`
of the component `pkg` that yield no `Copy`. The signature `bin/tool.sig`, with the file `tool`
it signs alongside, is skipped before a target is computed. The file `readme.txt` of a package
whose script has a method `createOperationsForPath` is left to the script. In both the call
returns and the list of operations is empty. -/
theorem createOperationsForPath_file_without_copy :
    name pkgComponent = "pkg".toList ∧
    (signedPackage.isFile ("installer://".toList ++ "pkg".toList ++ "/bin/tool.sig".toList)
        = true ∧
      signedPackage.fileExists "installer://pkg/bin/tool".toList = true ∧
      isSignature signedPackage "installer://pkg/bin/tool.sig".toList = true ∧
      ∃ d1, createOperationsForPath signedPackage 5 "installer://pkg/bin/tool.sig".toList
          pkgComponent = Except.ok d1 ∧
        d1.operations = []) ∧
    (overriddenPackage.isFile ("installer://".toList ++ "pkg".toList ++ "/readme.txt".toList)
        = true ∧
      isSignature overriddenPackage "installer://pkg/readme.txt".toList = false ∧
      callScriptMethod overriddenPackage pkgComponent "createOperationsForPath".toList
        ["installer://pkg/readme.txt".toList] = Except.ok (true, pkgComponent) ∧
      ∃ d1, createOperationsForPath overriddenPackage 5 "installer://pkg/readme.txt".toList
          pkgComponent = Except.ok d1 ∧
        d1.operations = []) :=
  ⟨by decide, ⟨by decide, by decide, by decide, _, rfl, by decide⟩,
    ⟨by decide, by decide, rfl, _, rfl, by decide⟩⟩

/-- C21 (amended): the target `createOperationsForPath` computes, once the path is not a
signature that is skipped and the script has not taken the call over. For the component name `n`, the target
of `installer://` ++ `n` ++ `rest` is `@TargetDir@` ++ `rest`, and the target of
`7z://installer://` ++ `n` ++ `/` ++ `a` ++ `rest`, with no `/` in `a` and `rest` empty or
starting with `/`, is `@TargetDir@` ++ `rest`; every target starts with `@TargetDir@`. For a
file the call is `addOperation(Copy, path, target)`, which appends the `Copy` the factory
creates with the arguments `path` and `target`, the variables replaced; for a directory the
call is `addOperation(Mkdir, target)`, made before the entries are gone through, and in a finite
tree without scripts the call returns with the `Mkdir` first of what it appends. -/
theorem createOperationsForPath_target (env : Environment) (d d1 : ComponentPrivate)
    (fuel : Nat) (path : QString)
    (hsignature : isSignature env path = false)
    (hscript : callScriptMethod env d "createOperationsForPath".toList [path]
      = Except.ok (false, d1)) :
    (∀ n rest, targetPath n ("installer://".toList ++ n ++ rest)
      = "@TargetDir@".toList ++ rest) ∧
    (∀ n a rest, '/' ∉ a → (rest = [] ∨ ∃ t, rest = '/' :: t) →
      targetPath n ("7z://installer://".toList ++ n ++ '/' :: a ++ rest)
        = "@TargetDir@".toList ++ rest) ∧
    (∀ n p, "@TargetDir@".toList <+: targetPath n p) ∧
    (env.isFile path = true →
      createOperationsForPath env (fuel + 1) path d
        = Except.ok (addOperationOfType env d1 "Copy".toList
            [some path, some (targetPath (name d1) path)]).2 ∧
      ∀ copyOp, env.create "Copy".toList = some copyOp →
        ∃ d2 op, createOperationsForPath env (fuel + 1) path d = Except.ok d2 ∧
          d2.operations = d1.operations ++ [some op] ∧
          op.name = copyOp.name ∧
          op.arguments = env.replaceVariables [path, targetPath (name d1) path]) ∧
    (env.isFile path = false → env.isDir path = true →
      createOperationsForPath env (fuel + 1) path d
        = forEach (fun acc entry => createOperationsForPath env fuel (filePath path entry) acc)
            (env.entryList path)
            (addOperationOfType env d1 "Mkdir".toList
              [some (targetPath (name d1) path)]).2 ∧
      (∀ mkdirOp, env.create "Mkdir".toList = some mkdirOp →
        ∃ op, (addOperationOfType env d1 "Mkdir".toList
            [some (targetPath (name d1) path)]).2.operations = d1.operations ++ [some op] ∧
          op.name = mkdirOp.name ∧
          op.arguments = env.replaceVariables [targetPath (name d1) path]) ∧
      (∀ (copyOp mkdirOp : UpdateOperation) (rank : QString → Nat),
        (∀ m, env.scriptMethod m = none) →
        env.create "Copy".toList = some copyOp →
        env.create "Mkdir".toList = some mkdirOp →
        (∀ p, env.isDir p = true → ∀ entry ∈ env.entryList p,
          rank (filePath p entry) < rank p) →
        rank path < fuel + 1 →
        ∃ d2 op below, createOperationsForPath env (fuel + 1) path d = Except.ok d2 ∧
          d2.operations = d.operations ++ some op :: below ∧
          op.name = mkdirOp.name ∧
          op.arguments = env.replaceVariables [targetPath (name d) path])) := by
  refine ⟨?_, ?_, targetPath_starts, ?_, ?_⟩
  · intro n rest
    simpa using targetPath_rooted n rest []
  · intro n a rest ha hrest
    exact targetPath_archive n a rest ha hrest
  · intro hfile
    have hrun : createOperationsForPath env (fuel + 1) path d
        = Except.ok (addOperationOfType env d1 "Copy".toList
            [some path, some (targetPath (name d1) path)]).2 := by
      simp only [createOperationsForPath, hsignature, hscript, hfile, if_true,
        Bool.false_eq_true, if_false]
    refine ⟨hrun, ?_⟩
    intro copyOp hcopy
    have hc := addOperationOfType_registered env d1 "Copy".toList
      [some path, some (targetPath (name d1) path)] copyOp hcopy
    exact ⟨_, _, hrun, hc.operations, configureOperation_name env copyOp _,
      configureOperation_arguments env copyOp _⟩
  · intro hfile hdir
    refine ⟨?_, ?_, ?_⟩
    · simp only [createOperationsForPath, hsignature, hscript, hfile, hdir, if_true,
        Bool.false_eq_true, if_false]
    · intro mkdirOp hmkdir
      have hc := addOperationOfType_registered env d1 "Mkdir".toList
        [some (targetPath (name d1) path)] mkdirOp hmkdir
      exact ⟨_, hc.operations, configureOperation_name env mkdirOp _,
        configureOperation_arguments env mkdirOp _⟩
    · intro copyOp mkdirOp rank hnone hcopy hmkdir hrank hfuel
      obtain ⟨d2, hrun, hc⟩ := createOperationsForPath_compiled env copyOp mkdirOp rank
        hnone hcopy hmkdir hrank (fuel + 1) path d hfuel
      have hentries : packageEntries env (fuel + 1) path
          = path :: (env.entryList path).flatMap
              (fun entry => packageEntries env fuel (filePath path entry)) := by
        simp only [packageEntries, hsignature, hfile, hdir, if_true, Bool.false_eq_true,
          if_false]
      have hops := hc.operations
      rw [hentries, List.map_cons] at hops
      have hemitted : emitted env (name d) copyOp mkdirOp path
          = some (markAdmin env (configureOperation env mkdirOp
              [some (targetPath (name d) path)])) := by
        simp only [emitted, hfile, Bool.false_eq_true, if_false]
      rw [hemitted] at hops
      exact ⟨d2, _, _, hrun, hops, configureOperation_name env mkdirOp _,
        configureOperation_arguments env mkdirOp _⟩


/-- C21 (amended), on an input: in the package of the component `pkg` inside the archive `data.7z`, the
file `bin/tool` is not a signature and no script takes the call over; its target is
`@TargetDir@/bin/tool`, without the name of the archive, and the call appends the `Copy` with
the path and that target. -/
theorem createOperationsForPath_target_witness :
    isSignature archivePackage "7z://installer://pkg/data.7z/bin/tool".toList = false ∧
    archivePackage.isFile "7z://installer://pkg/data.7z/bin/tool".toList = true ∧
    targetPath "pkg".toList "7z://installer://pkg/data.7z/bin/tool".toList
      = "@TargetDir@/bin/tool".toList ∧
    (∃ d2 op,
      createOperationsForPath archivePackage 1 "7z://installer://pkg/data.7z/bin/tool".toList
        pkgComponent = Except.ok d2 ∧
      d2.operations = [some op] ∧
      op.name = "Copy".toList ∧
      op.arguments
        = ["7z://installer://pkg/data.7z/bin/tool".toList, "@TargetDir@/bin/tool".toList]) := by
  have h := createOperationsForPath_target archivePackage pkgComponent _ 0
    "7z://installer://pkg/data.7z/bin/tool".toList (by decide) rfl
  obtain ⟨d2, op, hrun, hops, hname, hargs⟩ := (h.2.2.2.1 (by decide)).2 _ rfl
  refine ⟨by decide, by decide, ?_, d2, op, hrun, hops, hname, hargs.trans (by decide)⟩
  exact h.2.1 "pkg".toList "data.7z".toList "/bin/tool".toList (by decide) (Or.inr ⟨_, rfl⟩)

end QInstaller
